import Mathlib

/-!
# Cosa `Canvas` rasterisation engine

A shallow embedding of `Cosa/Canvas.cpp`.  A drawing routine is modelled by the
list of device operations it issues, in the order the code issues them.

Machine integers: parameters of the public API and of the device operations are
`uint8_t`, so every argument handed to a device operation is reduced with `u8`.
The `int16_t` working variables are reduced with `i16` after every assignment,
except the loop counters `x0` (`draw_line`), `rx` and `ry` (circles): their
increments and decrements are guarded by the loop condition (`x0 <= x1 <= 255`,
`rx < ry`) and so cannot leave the `int16_t` range.
-/

namespace Cosa

/-- Conversion to `uint8_t`: the value modulo 256. -/
def u8 (v : Int) : Nat := (v % 256).toNat

/-- Conversion to `uint16_t`: the value modulo 65536. -/
def u16 (v : Int) : Int := v % 65536

/-- Conversion to `int16_t`: two's-complement wraparound. -/
def i16 (v : Int) : Int := (v + 32768) % 65536 - 32768

/-- The device operations a `Canvas` driver implements (the virtual member
functions called by `Canvas.cpp`), each with its `uint8_t` arguments. -/
inductive Op where
  | draw_pixel (x y : Nat)
  | draw_horizontal_line (x y length : Nat)
  | draw_vertical_line (x y length : Nat)
  | fill_rect (x y width height : Nat)
  deriving DecidableEq, Repr

/-- The `swap(a, b)` macro: `{ uint16_t t = a; a = b; b = t; }` on `int16_t` variables. -/
def swap (a b : Int) : Int × Int := (b, i16 (u16 a))

/-- The `for (; x0 <= x1; x0++)` loop of `Canvas::draw_line`. -/
def draw_line_loop (steep : Bool) (x1 dx dy ystep : Int) (x0 y0 err : Int) : List Op :=
  if x0 ≤ x1 then
    let p := if steep then Op.draw_pixel (u8 y0) (u8 x0) else Op.draw_pixel (u8 x0) (u8 y0)
    let err1 := i16 (err - dy)
    if err1 < 0 then
      p :: draw_line_loop steep x1 dx dy ystep (x0 + 1) (i16 (y0 + ystep)) (i16 (err1 + dx))
    else
      p :: draw_line_loop steep x1 dx dy ystep (x0 + 1) y0 err1
  else []
termination_by (x1 + 1 - x0).toNat
decreasing_by all_goals omega

/-- `Canvas::draw_line(_x0, _y0, _x1, _y1)`. -/
def draw_line (_x0 _y0 _x1 _y1 : Nat) : List Op :=
  let x0 : Int := _x0
  let y0 : Int := _y0
  let x1 : Int := _x1
  let y1 : Int := _y1
  let steep : Bool := decide (|y1 - y0| > |x1 - x0|)
  let (x0, y0) := if steep then swap x0 y0 else (x0, y0)
  let (x1, y1) := if steep then swap x1 y1 else (x1, y1)
  let c : Bool := decide (x0 > x1)
  let (x0, x1) := if c then swap x0 x1 else (x0, x1)
  let (y0, y1) := if c then swap y0 y1 else (y0, y1)
  let dx : Int := u16 (x1 - x0)
  let dy : Int := u16 |y1 - y0|
  let err : Int := i16 (dx / 2)
  let ystep : Int := if y0 < y1 then 1 else -1
  draw_line_loop steep x1 dx dy ystep x0 y0 err

/-- `Canvas::draw_rect(x, y, width, height)`. -/
def draw_rect (x y width height : Nat) : List Op :=
  [ Op.draw_horizontal_line x y width,
    Op.draw_vertical_line (u8 (x + width)) y height,
    Op.draw_vertical_line x y height,
    Op.draw_horizontal_line x (u8 (y + height)) width ]

/-- The `while (rx < ry)` loop of `Canvas::draw_circle`. -/
def draw_circle_loop (x y : Int) (f dx dy rx ry : Int) : List Op :=
  if rx < ry then
    let ry1 := if f ≥ 0 then ry - 1 else ry
    let dy1 := if f ≥ 0 then i16 (dy + 2) else dy
    let f1 := if f ≥ 0 then i16 (f + dy1) else f
    let rx1 := rx + 1
    let dx1 := i16 (dx + 2)
    let f2 := i16 (f1 + dx1)
    [ Op.draw_pixel (u8 (x + rx1)) (u8 (y + ry1)),
      Op.draw_pixel (u8 (x - rx1)) (u8 (y + ry1)),
      Op.draw_pixel (u8 (x + rx1)) (u8 (y - ry1)),
      Op.draw_pixel (u8 (x - rx1)) (u8 (y - ry1)),
      Op.draw_pixel (u8 (x + ry1)) (u8 (y + rx1)),
      Op.draw_pixel (u8 (x - ry1)) (u8 (y + rx1)),
      Op.draw_pixel (u8 (x + ry1)) (u8 (y - rx1)),
      Op.draw_pixel (u8 (x - ry1)) (u8 (y - rx1)) ]
      ++ draw_circle_loop x y f2 dx1 dy1 rx1 ry1
  else []
termination_by (ry - rx).toNat
decreasing_by
  show (_ - (rx + 1)).toNat < (ry - rx).toNat
  split <;> omega

/-- `Canvas::draw_circle(x, y, radius)`. -/
def draw_circle (x y radius : Nat) : List Op :=
  let f : Int := i16 (1 - radius)
  let dx : Int := 1
  let dy : Int := i16 (-2 * radius)
  let rx : Int := 0
  let ry : Int := radius
  [ Op.draw_pixel x (u8 (y + radius)),
    Op.draw_pixel x (u8 (y - radius)),
    Op.draw_pixel (u8 (x + radius)) y,
    Op.draw_pixel (u8 (x - radius)) y ]
    ++ draw_circle_loop x y f dx dy rx ry

/-- The `while (rx < ry)` loop of `Canvas::fill_circle`. -/
def fill_circle_loop (x y : Int) (f dx dy rx ry : Int) : List Op :=
  if rx < ry then
    let ry1 := if f ≥ 0 then ry - 1 else ry
    let dy1 := if f ≥ 0 then i16 (dy + 2) else dy
    let f1 := if f ≥ 0 then i16 (f + dy1) else f
    let rx1 := rx + 1
    let dx1 := i16 (dx + 2)
    let f2 := i16 (f1 + dx1)
    [ Op.draw_vertical_line (u8 (x + rx1)) (u8 (y - ry1)) (u8 (2 * ry1 + 1)),
      Op.draw_vertical_line (u8 (x - rx1)) (u8 (y - ry1)) (u8 (2 * ry1 + 1)),
      Op.draw_vertical_line (u8 (x + ry1)) (u8 (y - rx1)) (u8 (2 * rx1 + 1)),
      Op.draw_vertical_line (u8 (x - ry1)) (u8 (y - rx1)) (u8 (2 * rx1 + 1)) ]
      ++ fill_circle_loop x y f2 dx1 dy1 rx1 ry1
  else []
termination_by (ry - rx).toNat
decreasing_by
  show (_ - (rx + 1)).toNat < (ry - rx).toNat
  split <;> omega

/-- `Canvas::fill_circle(x, y, radius)`. -/
def fill_circle (x y radius : Nat) : List Op :=
  let f : Int := i16 (1 - radius)
  let dx : Int := 1
  let dy : Int := i16 (-2 * radius)
  let rx : Int := 0
  let ry : Int := radius
  Op.draw_vertical_line x (u8 (y - radius)) (u8 (2 * radius + 1))
    :: fill_circle_loop x y f dx dy rx ry

/-- The inner loop `for (uint8_t j = 0; j < height; j++)` of `Canvas::draw_bitmap`, for
column `i`.  `data` is program memory read through `pgm_read_byte`, `bp` the offset of
the read pointer, `line` the current byte.  Returns the operations issued and the
read pointer after the column. -/
def draw_bitmap_rows (scale x y : Nat) (data : Nat → Nat) (height i : Nat)
    (j bp line : Nat) : List Op × Nat :=
  if j < height then
    let line1 := if j &&& 0x7 = 0 then data bp % 256 else line
    let bp1 := if j &&& 0x7 = 0 then bp + 1 else bp
    let ops :=
      if line1 &&& 0x1 ≠ 0 then
        if scale = 1 then
          [Op.draw_pixel (u8 (x + i)) (u8 (y + j))]
        else
          [Op.fill_rect (u8 (x + i * scale)) (u8 (y + j * scale)) scale scale]
      else []
    let r := draw_bitmap_rows scale x y data height i (j + 1) bp1 (line1 >>> 1)
    (ops ++ r.1, r.2)
  else ([], bp)
termination_by height - j

/-- The outer loop `for (uint8_t i = 0; i < width; i++)` of `Canvas::draw_bitmap`. -/
def draw_bitmap_cols (scale x y : Nat) (data : Nat → Nat) (width height : Nat)
    (i bp : Nat) : List Op :=
  if i < width then
    let r := draw_bitmap_rows scale x y data height i 0 bp 0
    r.1 ++ draw_bitmap_cols scale x y data width height (i + 1) r.2
  else []
termination_by width - i

/-- `Canvas::draw_bitmap(x, y, bp, width, height)` on a canvas whose `m_scale` is `scale`. -/
def draw_bitmap (scale x y : Nat) (data : Nat → Nat) (width height : Nat) : List Op :=
  draw_bitmap_cols scale x y data width height 0 0

/-- Modelled from the spec: the pixels a device operation sets (the drivers are not part
of the sources).  `set_pixel` sets one pixel, a span of length `n` sets the `n`
consecutive pixels starting at its origin, `fill_rect` sets a `w` by `h` block. -/
def Op.pixels : Op → List (Nat × Nat)
  | Op.draw_pixel x y => [(x, y)]
  | Op.draw_horizontal_line x y n => (List.range n).map (fun i => (x + i, y))
  | Op.draw_vertical_line x y n => (List.range n).map (fun i => (x, y + i))
  | Op.fill_rect x y w h =>
      (List.range w).flatMap (fun a => (List.range h).map (fun b => (x + a, y + b)))

/-- The pixels set by a sequence of device operations, in order, with repetitions. -/
def pixelsOf (ops : List Op) : List (Nat × Nat) := ops.flatMap Op.pixels

/-- The pixel `draw_line` plots when its walk is at major coordinate `a` and minor
coordinate `b`: `draw_pixel(y0, x0)` when steep, `draw_pixel(x0, y0)` otherwise. -/
def linePixel (steep : Bool) (a b : Int) : Op :=
  if steep then Op.draw_pixel (u8 b) (u8 a) else Op.draw_pixel (u8 a) (u8 b)

/-- The operations are pixels at offsets within `R` of `(x, y)`, and with every pixel at
offset `(a, b)` the list holds the pixels at offsets `(-a, b)` and `(a, -b)`. -/
def ReflClosed (x y R : Int) (ops : List Op) : Prop :=
  ∀ op ∈ ops, ∃ a b : Int, -R ≤ a ∧ a ≤ R ∧ -R ≤ b ∧ b ≤ R ∧
    op = Op.draw_pixel (u8 (x + a)) (u8 (y + b)) ∧
    Op.draw_pixel (u8 (x - a)) (u8 (y + b)) ∈ ops ∧
    Op.draw_pixel (u8 (x + a)) (u8 (y - b)) ∈ ops

/-- The source pixel at column `i`, row `j` of a bitmap of the given height: bit `j mod 8`
of source byte number `i * ceil(height/8) + floor(j/8)` (column-major, least-significant
bit topmost). -/
def bitmap_bit (data : Nat → Nat) (height i j : Nat) : Bool :=
  (data (i * ((height + 7) / 8) + j / 8) % 256).testBit (j % 8)

/-- The operation `draw_bitmap` issues for a set source pixel at column `i`, row `j`. -/
def bitmap_op (scale x y i j : Nat) : Op :=
  if scale = 1 then
    Op.draw_pixel (u8 (x + i)) (u8 (y + j))
  else
    Op.fill_rect (u8 (x + i * scale)) (u8 (y + j * scale)) scale scale

/-- The number of set source pixels of a `width` by `height` bitmap. -/
def bitmap_popcount (data : Nat → Nat) (width height : Nat) : Nat :=
  ((List.range width).map
    (fun i => (List.range height).countP (fun j => bitmap_bit data height i j))).sum

/-- The number of set bits in the source bytes `draw_bitmap` reads, bytes `0` to
`width * ceil(height/8) - 1`, all eight bits of each byte counted. -/
def source_bits_read (data : Nat → Nat) (width height : Nat) : Nat :=
  ((List.range (width * ((height + 7) / 8))).map
    (fun n => (List.range 8).countP (fun b => (data n % 256).testBit b))).sum

/-- The pixels of the `k` by `k` block with origin `(x0, y0)`. -/
def block (x0 y0 k : Nat) : List (Nat × Nat) :=
  (List.range k).flatMap (fun a => (List.range k).map (fun b => (x0 + a, y0 + b)))

/-- The font table `Canvas::font5x7` of the source: 255 glyphs of 5 bytes each, the glyph of
character code `c` at offset `5 * c`. -/
def font5x7 : List Nat :=
  [
    0x00, 0x00, 0x00, 0x00, 0x00,
    0x3E, 0x5B, 0x4F, 0x5B, 0x3E,
    0x3E, 0x6B, 0x4F, 0x6B, 0x3E,
    0x1C, 0x3E, 0x7C, 0x3E, 0x1C,
    0x18, 0x3C, 0x7E, 0x3C, 0x18,
    0x1C, 0x57, 0x7D, 0x57, 0x1C,
    0x1C, 0x5E, 0x7F, 0x5E, 0x1C,
    0x00, 0x18, 0x3C, 0x18, 0x00,
    0xFF, 0xE7, 0xC3, 0xE7, 0xFF,
    0x00, 0x18, 0x24, 0x18, 0x00,
    0xFF, 0xE7, 0xDB, 0xE7, 0xFF,
    0x30, 0x48, 0x3A, 0x06, 0x0E,
    0x26, 0x29, 0x79, 0x29, 0x26,
    0x40, 0x7F, 0x05, 0x05, 0x07,
    0x40, 0x7F, 0x05, 0x25, 0x3F,
    0x5A, 0x3C, 0xE7, 0x3C, 0x5A,
    0x7F, 0x3E, 0x1C, 0x1C, 0x08,
    0x08, 0x1C, 0x1C, 0x3E, 0x7F,
    0x14, 0x22, 0x7F, 0x22, 0x14,
    0x5F, 0x5F, 0x00, 0x5F, 0x5F,
    0x06, 0x09, 0x7F, 0x01, 0x7F,
    0x00, 0x66, 0x89, 0x95, 0x6A,
    0x60, 0x60, 0x60, 0x60, 0x60,
    0x94, 0xA2, 0xFF, 0xA2, 0x94,
    0x08, 0x04, 0x7E, 0x04, 0x08,
    0x10, 0x20, 0x7E, 0x20, 0x10,
    0x08, 0x08, 0x2A, 0x1C, 0x08,
    0x08, 0x1C, 0x2A, 0x08, 0x08,
    0x1E, 0x10, 0x10, 0x10, 0x10,
    0x0C, 0x1E, 0x0C, 0x1E, 0x0C,
    0x30, 0x38, 0x3E, 0x38, 0x30,
    0x06, 0x0E, 0x3E, 0x0E, 0x06,
    0x00, 0x00, 0x00, 0x00, 0x00,
    0x00, 0x00, 0x5F, 0x00, 0x00,
    0x00, 0x07, 0x00, 0x07, 0x00,
    0x14, 0x7F, 0x14, 0x7F, 0x14,
    0x24, 0x2A, 0x7F, 0x2A, 0x12,
    0x23, 0x13, 0x08, 0x64, 0x62,
    0x36, 0x49, 0x56, 0x20, 0x50,
    0x00, 0x08, 0x07, 0x03, 0x00,
    0x00, 0x1C, 0x22, 0x41, 0x00,
    0x00, 0x41, 0x22, 0x1C, 0x00,
    0x2A, 0x1C, 0x7F, 0x1C, 0x2A,
    0x08, 0x08, 0x3E, 0x08, 0x08,
    0x00, 0x80, 0x70, 0x30, 0x00,
    0x08, 0x08, 0x08, 0x08, 0x08,
    0x00, 0x00, 0x60, 0x60, 0x00,
    0x20, 0x10, 0x08, 0x04, 0x02,
    0x3E, 0x51, 0x49, 0x45, 0x3E,
    0x00, 0x42, 0x7F, 0x40, 0x00,
    0x72, 0x49, 0x49, 0x49, 0x46,
    0x21, 0x41, 0x49, 0x4D, 0x33,
    0x18, 0x14, 0x12, 0x7F, 0x10,
    0x27, 0x45, 0x45, 0x45, 0x39,
    0x3C, 0x4A, 0x49, 0x49, 0x31,
    0x41, 0x21, 0x11, 0x09, 0x07,
    0x36, 0x49, 0x49, 0x49, 0x36,
    0x46, 0x49, 0x49, 0x29, 0x1E,
    0x00, 0x00, 0x14, 0x00, 0x00,
    0x00, 0x40, 0x34, 0x00, 0x00,
    0x00, 0x08, 0x14, 0x22, 0x41,
    0x14, 0x14, 0x14, 0x14, 0x14,
    0x00, 0x41, 0x22, 0x14, 0x08,
    0x02, 0x01, 0x59, 0x09, 0x06,
    0x3E, 0x41, 0x5D, 0x59, 0x4E,
    0x7C, 0x12, 0x11, 0x12, 0x7C,
    0x7F, 0x49, 0x49, 0x49, 0x36,
    0x3E, 0x41, 0x41, 0x41, 0x22,
    0x7F, 0x41, 0x41, 0x41, 0x3E,
    0x7F, 0x49, 0x49, 0x49, 0x41,
    0x7F, 0x09, 0x09, 0x09, 0x01,
    0x3E, 0x41, 0x41, 0x51, 0x73,
    0x7F, 0x08, 0x08, 0x08, 0x7F,
    0x00, 0x41, 0x7F, 0x41, 0x00,
    0x20, 0x40, 0x41, 0x3F, 0x01,
    0x7F, 0x08, 0x14, 0x22, 0x41,
    0x7F, 0x40, 0x40, 0x40, 0x40,
    0x7F, 0x02, 0x1C, 0x02, 0x7F,
    0x7F, 0x04, 0x08, 0x10, 0x7F,
    0x3E, 0x41, 0x41, 0x41, 0x3E,
    0x7F, 0x09, 0x09, 0x09, 0x06,
    0x3E, 0x41, 0x51, 0x21, 0x5E,
    0x7F, 0x09, 0x19, 0x29, 0x46,
    0x26, 0x49, 0x49, 0x49, 0x32,
    0x03, 0x01, 0x7F, 0x01, 0x03,
    0x3F, 0x40, 0x40, 0x40, 0x3F,
    0x1F, 0x20, 0x40, 0x20, 0x1F,
    0x3F, 0x40, 0x38, 0x40, 0x3F,
    0x63, 0x14, 0x08, 0x14, 0x63,
    0x03, 0x04, 0x78, 0x04, 0x03,
    0x61, 0x59, 0x49, 0x4D, 0x43,
    0x00, 0x7F, 0x41, 0x41, 0x41,
    0x02, 0x04, 0x08, 0x10, 0x20,
    0x00, 0x41, 0x41, 0x41, 0x7F,
    0x04, 0x02, 0x01, 0x02, 0x04,
    0x40, 0x40, 0x40, 0x40, 0x40,
    0x00, 0x03, 0x07, 0x08, 0x00,
    0x20, 0x54, 0x54, 0x78, 0x40,
    0x7F, 0x28, 0x44, 0x44, 0x38,
    0x38, 0x44, 0x44, 0x44, 0x28,
    0x38, 0x44, 0x44, 0x28, 0x7F,
    0x38, 0x54, 0x54, 0x54, 0x18,
    0x00, 0x08, 0x7E, 0x09, 0x02,
    0x18, 0xA4, 0xA4, 0x9C, 0x78,
    0x7F, 0x08, 0x04, 0x04, 0x78,
    0x00, 0x44, 0x7D, 0x40, 0x00,
    0x20, 0x40, 0x40, 0x3D, 0x00,
    0x7F, 0x10, 0x28, 0x44, 0x00,
    0x00, 0x41, 0x7F, 0x40, 0x00,
    0x7C, 0x04, 0x78, 0x04, 0x78,
    0x7C, 0x08, 0x04, 0x04, 0x78,
    0x38, 0x44, 0x44, 0x44, 0x38,
    0xFC, 0x18, 0x24, 0x24, 0x18,
    0x18, 0x24, 0x24, 0x18, 0xFC,
    0x7C, 0x08, 0x04, 0x04, 0x08,
    0x48, 0x54, 0x54, 0x54, 0x24,
    0x04, 0x04, 0x3F, 0x44, 0x24,
    0x3C, 0x40, 0x40, 0x20, 0x7C,
    0x1C, 0x20, 0x40, 0x20, 0x1C,
    0x3C, 0x40, 0x30, 0x40, 0x3C,
    0x44, 0x28, 0x10, 0x28, 0x44,
    0x4C, 0x90, 0x90, 0x90, 0x7C,
    0x44, 0x64, 0x54, 0x4C, 0x44,
    0x00, 0x08, 0x36, 0x41, 0x00,
    0x00, 0x00, 0x77, 0x00, 0x00,
    0x00, 0x41, 0x36, 0x08, 0x00,
    0x02, 0x01, 0x02, 0x04, 0x02,
    0x3C, 0x26, 0x23, 0x26, 0x3C,
    0x1E, 0xA1, 0xA1, 0x61, 0x12,
    0x3A, 0x40, 0x40, 0x20, 0x7A,
    0x38, 0x54, 0x54, 0x55, 0x59,
    0x21, 0x55, 0x55, 0x79, 0x41,
    0x21, 0x54, 0x54, 0x78, 0x41,
    0x21, 0x55, 0x54, 0x78, 0x40,
    0x20, 0x54, 0x55, 0x79, 0x40,
    0x0C, 0x1E, 0x52, 0x72, 0x12,
    0x39, 0x55, 0x55, 0x55, 0x59,
    0x39, 0x54, 0x54, 0x54, 0x59,
    0x39, 0x55, 0x54, 0x54, 0x58,
    0x00, 0x00, 0x45, 0x7C, 0x41,
    0x00, 0x02, 0x45, 0x7D, 0x42,
    0x00, 0x01, 0x45, 0x7C, 0x40,
    0xF0, 0x29, 0x24, 0x29, 0xF0,
    0xF0, 0x28, 0x25, 0x28, 0xF0,
    0x7C, 0x54, 0x55, 0x45, 0x00,
    0x20, 0x54, 0x54, 0x7C, 0x54,
    0x7C, 0x0A, 0x09, 0x7F, 0x49,
    0x32, 0x49, 0x49, 0x49, 0x32,
    0x32, 0x48, 0x48, 0x48, 0x32,
    0x32, 0x4A, 0x48, 0x48, 0x30,
    0x3A, 0x41, 0x41, 0x21, 0x7A,
    0x3A, 0x42, 0x40, 0x20, 0x78,
    0x00, 0x9D, 0xA0, 0xA0, 0x7D,
    0x39, 0x44, 0x44, 0x44, 0x39,
    0x3D, 0x40, 0x40, 0x40, 0x3D,
    0x3C, 0x24, 0xFF, 0x24, 0x24,
    0x48, 0x7E, 0x49, 0x43, 0x66,
    0x2B, 0x2F, 0xFC, 0x2F, 0x2B,
    0xFF, 0x09, 0x29, 0xF6, 0x20,
    0xC0, 0x88, 0x7E, 0x09, 0x03,
    0x20, 0x54, 0x54, 0x79, 0x41,
    0x00, 0x00, 0x44, 0x7D, 0x41,
    0x30, 0x48, 0x48, 0x4A, 0x32,
    0x38, 0x40, 0x40, 0x22, 0x7A,
    0x00, 0x7A, 0x0A, 0x0A, 0x72,
    0x7D, 0x0D, 0x19, 0x31, 0x7D,
    0x26, 0x29, 0x29, 0x2F, 0x28,
    0x26, 0x29, 0x29, 0x29, 0x26,
    0x30, 0x48, 0x4D, 0x40, 0x20,
    0x38, 0x08, 0x08, 0x08, 0x08,
    0x08, 0x08, 0x08, 0x08, 0x38,
    0x2F, 0x10, 0xC8, 0xAC, 0xBA,
    0x2F, 0x10, 0x28, 0x34, 0xFA,
    0x00, 0x00, 0x7B, 0x00, 0x00,
    0x08, 0x14, 0x2A, 0x14, 0x22,
    0x22, 0x14, 0x2A, 0x14, 0x08,
    0xAA, 0x00, 0x55, 0x00, 0xAA,
    0xAA, 0x55, 0xAA, 0x55, 0xAA,
    0x00, 0x00, 0x00, 0xFF, 0x00,
    0x10, 0x10, 0x10, 0xFF, 0x00,
    0x14, 0x14, 0x14, 0xFF, 0x00,
    0x10, 0x10, 0xFF, 0x00, 0xFF,
    0x10, 0x10, 0xF0, 0x10, 0xF0,
    0x14, 0x14, 0x14, 0xFC, 0x00,
    0x14, 0x14, 0xF7, 0x00, 0xFF,
    0x00, 0x00, 0xFF, 0x00, 0xFF,
    0x14, 0x14, 0xF4, 0x04, 0xFC,
    0x14, 0x14, 0x17, 0x10, 0x1F,
    0x10, 0x10, 0x1F, 0x10, 0x1F,
    0x14, 0x14, 0x14, 0x1F, 0x00,
    0x10, 0x10, 0x10, 0xF0, 0x00,
    0x00, 0x00, 0x00, 0x1F, 0x10,
    0x10, 0x10, 0x10, 0x1F, 0x10,
    0x10, 0x10, 0x10, 0xF0, 0x10,
    0x00, 0x00, 0x00, 0xFF, 0x10,
    0x10, 0x10, 0x10, 0x10, 0x10,
    0x10, 0x10, 0x10, 0xFF, 0x10,
    0x00, 0x00, 0x00, 0xFF, 0x14,
    0x00, 0x00, 0xFF, 0x00, 0xFF,
    0x00, 0x00, 0x1F, 0x10, 0x17,
    0x00, 0x00, 0xFC, 0x04, 0xF4,
    0x14, 0x14, 0x17, 0x10, 0x17,
    0x14, 0x14, 0xF4, 0x04, 0xF4,
    0x00, 0x00, 0xFF, 0x00, 0xF7,
    0x14, 0x14, 0x14, 0x14, 0x14,
    0x14, 0x14, 0xF7, 0x00, 0xF7,
    0x14, 0x14, 0x14, 0x17, 0x14,
    0x10, 0x10, 0x1F, 0x10, 0x1F,
    0x14, 0x14, 0x14, 0xF4, 0x14,
    0x10, 0x10, 0xF0, 0x10, 0xF0,
    0x00, 0x00, 0x1F, 0x10, 0x1F,
    0x00, 0x00, 0x00, 0x1F, 0x14,
    0x00, 0x00, 0x00, 0xFC, 0x14,
    0x00, 0x00, 0xF0, 0x10, 0xF0,
    0x10, 0x10, 0xFF, 0x10, 0xFF,
    0x14, 0x14, 0x14, 0xFF, 0x14,
    0x10, 0x10, 0x10, 0x1F, 0x00,
    0x00, 0x00, 0x00, 0xF0, 0x10,
    0xFF, 0xFF, 0xFF, 0xFF, 0xFF,
    0xF0, 0xF0, 0xF0, 0xF0, 0xF0,
    0xFF, 0xFF, 0xFF, 0x00, 0x00,
    0x00, 0x00, 0x00, 0xFF, 0xFF,
    0x0F, 0x0F, 0x0F, 0x0F, 0x0F,
    0x38, 0x44, 0x44, 0x38, 0x44,
    0x7C, 0x2A, 0x2A, 0x3E, 0x14,
    0x7E, 0x02, 0x02, 0x06, 0x06,
    0x02, 0x7E, 0x02, 0x7E, 0x02,
    0x63, 0x55, 0x49, 0x41, 0x63,
    0x38, 0x44, 0x44, 0x3C, 0x04,
    0x40, 0x7E, 0x20, 0x1E, 0x20,
    0x06, 0x02, 0x7E, 0x02, 0x02,
    0x99, 0xA5, 0xE7, 0xA5, 0x99,
    0x1C, 0x2A, 0x49, 0x2A, 0x1C,
    0x4C, 0x72, 0x01, 0x72, 0x4C,
    0x30, 0x4A, 0x4D, 0x4D, 0x30,
    0x30, 0x48, 0x78, 0x48, 0x30,
    0xBC, 0x62, 0x5A, 0x46, 0x3D,
    0x3E, 0x49, 0x49, 0x49, 0x00,
    0x7E, 0x01, 0x01, 0x01, 0x7E,
    0x2A, 0x2A, 0x2A, 0x2A, 0x2A,
    0x44, 0x44, 0x5F, 0x44, 0x44,
    0x40, 0x51, 0x4A, 0x44, 0x40,
    0x40, 0x44, 0x4A, 0x51, 0x40,
    0x00, 0x00, 0xFF, 0x01, 0x03,
    0xE0, 0x80, 0xFF, 0x00, 0x00,
    0x08, 0x08, 0x6B, 0x6B, 0x08,
    0x36, 0x12, 0x36, 0x24, 0x36,
    0x06, 0x0F, 0x09, 0x0F, 0x06,
    0x00, 0x00, 0x18, 0x18, 0x00,
    0x00, 0x00, 0x10, 0x10, 0x00,
    0x30, 0x40, 0xFF, 0x01, 0x01,
    0x00, 0x1F, 0x01, 0x01, 0x1E,
    0x00, 0x19, 0x1D, 0x17, 0x12,
    0x00, 0x3C, 0x3C, 0x3C, 0x3C,
    0x00, 0x00, 0x00, 0x00, 0x00 ]

/-- Program memory read through a pointer to the start of `font5x7`. -/
def font5x7_mem (n : Nat) : Nat := font5x7.getD n 0

/-- Modelled from the spec: the glyph width `FONT_WIDTH` (the class declaration,
`Canvas.hh`, is not part of the sources; the table is named `font5x7`). -/
def FONT_WIDTH : Nat := 5

/-- Modelled from the spec: the glyph height `FONT_HEIGHT` (the class declaration,
`Canvas.hh`, is not part of the sources; the table is named `font5x7`). -/
def FONT_HEIGHT : Nat := 7

/-- The constants of the class declaration that `draw_char` uses and whose values the
sources do not give, taken as parameters. -/
structure Config where
  SCREEN_WIDTH : Nat
  SCREEN_HEIGHT : Nat
  CHAR_SPACING : Nat
  LINE_SPACING : Nat

/-- Modelled from the spec: the drawing state of a `Canvas` (the class declaration is not
part of the sources).  Pen and text colour are 16-bit pixel values, the cursor `m_x`, `m_y`
and the scale `m_scale` are 8-bit unsigned, `m_font` is program memory read from the font
pointer. -/
structure Canvas where
  m_pen_color : Nat
  m_text_color : Nat
  m_x : Nat
  m_y : Nat
  m_scale : Nat
  m_font : Nat → Nat

/-- `Canvas::draw_char(c)`: the state after the call and the device operations issued, each
paired with the value of `m_pen_color` when it is issued. -/
def draw_char (cfg : Config) (c : Int) (s : Canvas) : Canvas × List (Nat × Op) :=
  let color := s.m_pen_color % 65536
  let s1 : Canvas := { s with m_pen_color := s.m_text_color }
  let ops : List (Nat × Op) :=
    if c ≥ 32 then
      (draw_bitmap s1.m_scale s1.m_x s1.m_y (fun n => s1.m_font ((c * FONT_WIDTH).toNat + n))
        FONT_WIDTH FONT_HEIGHT).map (fun op => (s1.m_pen_color, op))
    else []
  let x1 := u8 (s1.m_x + s1.m_scale * (FONT_WIDTH + cfg.CHAR_SPACING))
  let s2 : Canvas :=
    if x1 > cfg.SCREEN_WIDTH ∨ c = 10 then
      let y1 := u8 (s1.m_y + s1.m_scale * (FONT_HEIGHT + cfg.LINE_SPACING))
      { s1 with m_x := 0, m_y := if y1 > cfg.SCREEN_HEIGHT then 0 else y1 }
    else
      { s1 with m_x := x1 }
  ({ s2 with m_pen_color := color }, ops)

/-- The caller issuing `n` successive `draw_char('\n')` calls. -/
def draw_newlines (cfg : Config) : Nat → Canvas → Canvas
  | 0, s => s
  | n + 1, s => draw_newlines cfg n (draw_char cfg 10 s).1

/-- The `Direction` value `CW` of `Rotary::Encoder`. -/
def CW : Nat := 0x10

/-- The data members of `Rotary::Dail` (`int` is 16 bits on the target). -/
structure Dail where
  m_value : Int
  m_min : Int
  m_max : Int

/-- The constructor `Rotary::Dail::Dail(clk, dt, min, max, initial)`. -/
def Dail.init (min max initial : Int) : Dail :=
  { m_value := initial, m_min := min, m_max := max }

/-- `Rotary::Dail::on_event(type, value)`: the state after the call and the argument of the
`on_change` call, if one is made. -/
def Dail.on_event (d : Dail) (_type value : Nat) : Dail × Option Int :=
  if value = CW then
    if d.m_value = d.m_max then (d, none)
    else
      let v := i16 (d.m_value + 1)
      ({ d with m_value := v }, some v)
  else
    if d.m_value = d.m_min then (d, none)
    else
      let v := i16 (d.m_value - 1)
      ({ d with m_value := v }, some v)

/-- `Rotary::Dail::get_value()`. -/
def Dail.get_value (d : Dail) : Int := d.m_value

/-- The dail after a sequence of `on_event(type, value)` calls. -/
def Dail.run (d : Dail) (events : List (Nat × Nat)) : Dail :=
  events.foldl (fun st e => (st.on_event e.1 e.2).1) d

/-- Two consecutively plotted pixels of a line walk: the second is one further along the
major axis (x, or y when steep) and at most one away along the minor axis. -/
def lineStep (steep : Bool) : Op → Op → Prop
  | Op.draw_pixel a b, Op.draw_pixel c d =>
      if steep then d = b + 1 ∧ (c = a ∨ c = a + 1 ∨ c + 1 = a)
      else c = a + 1 ∧ (d = b ∨ d = b + 1 ∨ d + 1 = b)
  | _, _ => False

/-- The head of `Canvas::draw_line`, up to the loop: the value of `steep` and of the
variables `x0`, `y0`, `x1`, `y1` after the two conditional swaps. -/
def draw_line_normalize (_x0 _y0 _x1 _y1 : Nat) : Bool × Int × Int × Int × Int :=
  let x0 : Int := _x0
  let y0 : Int := _y0
  let x1 : Int := _x1
  let y1 : Int := _y1
  let steep : Bool := decide (|y1 - y0| > |x1 - x0|)
  let (x0, y0) := if steep then swap x0 y0 else (x0, y0)
  let (x1, y1) := if steep then swap x1 y1 else (x1, y1)
  let c : Bool := decide (x0 > x1)
  let (x0, x1) := if c then swap x0 x1 else (x0, x1)
  let (y0, y1) := if c then swap y0 y1 else (y0, y1)
  (steep, x0, y0, x1, y1)

/-- The value `Canvas::draw_line` gives its variable `ystep`. -/
def draw_line_ystep (_x0 _y0 _x1 _y1 : Nat) : Int :=
  let n := draw_line_normalize _x0 _y0 _x1 _y1
  if n.2.2.1 < n.2.2.2.2 then 1 else -1

/-- The variables `f`, `dx`, `dy`, `rx`, `ry` of `Canvas::draw_circle` and
`Canvas::fill_circle`. -/
structure CircleState where
  f : Int
  dx : Int
  dy : Int
  rx : Int
  ry : Int
  deriving DecidableEq, Repr

/-- The values of `f`, `dx`, `dy`, `rx`, `ry` at the end of each iteration of the
`while (rx < ry)` loop of `Canvas::draw_circle`, in order. -/
def draw_circle_states (f dx dy rx ry : Int) : List CircleState :=
  if rx < ry then
    let ry1 := if f ≥ 0 then ry - 1 else ry
    let dy1 := if f ≥ 0 then i16 (dy + 2) else dy
    let f1 := if f ≥ 0 then i16 (f + dy1) else f
    let rx1 := rx + 1
    let dx1 := i16 (dx + 2)
    let f2 := i16 (f1 + dx1)
    ⟨f2, dx1, dy1, rx1, ry1⟩ :: draw_circle_states f2 dx1 dy1 rx1 ry1
  else []
termination_by (ry - rx).toNat
decreasing_by
  show (_ - (rx + 1)).toNat < (ry - rx).toNat
  split <;> omega

/-- The values of `f`, `dx`, `dy`, `rx`, `ry` at the end of each iteration of the
`while (rx < ry)` loop of `Canvas::fill_circle`, in order. -/
def fill_circle_states (f dx dy rx ry : Int) : List CircleState :=
  if rx < ry then
    let ry1 := if f ≥ 0 then ry - 1 else ry
    let dy1 := if f ≥ 0 then i16 (dy + 2) else dy
    let f1 := if f ≥ 0 then i16 (f + dy1) else f
    let rx1 := rx + 1
    let dx1 := i16 (dx + 2)
    let f2 := i16 (f1 + dx1)
    ⟨f2, dx1, dy1, rx1, ry1⟩ :: fill_circle_states f2 dx1 dy1 rx1 ry1
  else []
termination_by (ry - rx).toNat
decreasing_by
  show (_ - (rx + 1)).toNat < (ry - rx).toNat
  split <;> omega

/-- The eight `draw_pixel` calls of one iteration of `Canvas::draw_circle`. -/
def octant_pixels (x y rx ry : Int) : List Op :=
  [ Op.draw_pixel (u8 (x + rx)) (u8 (y + ry)),
    Op.draw_pixel (u8 (x - rx)) (u8 (y + ry)),
    Op.draw_pixel (u8 (x + rx)) (u8 (y - ry)),
    Op.draw_pixel (u8 (x - rx)) (u8 (y - ry)),
    Op.draw_pixel (u8 (x + ry)) (u8 (y + rx)),
    Op.draw_pixel (u8 (x - ry)) (u8 (y + rx)),
    Op.draw_pixel (u8 (x + ry)) (u8 (y - rx)),
    Op.draw_pixel (u8 (x - ry)) (u8 (y - rx)) ]

/-- The four `draw_vertical_line` calls of one iteration of `Canvas::fill_circle`. -/
def fill_spans (x y rx ry : Int) : List Op :=
  [ Op.draw_vertical_line (u8 (x + rx)) (u8 (y - ry)) (u8 (2 * ry + 1)),
    Op.draw_vertical_line (u8 (x - rx)) (u8 (y - ry)) (u8 (2 * ry + 1)),
    Op.draw_vertical_line (u8 (x + ry)) (u8 (y - rx)) (u8 (2 * rx + 1)),
    Op.draw_vertical_line (u8 (x - ry)) (u8 (y - rx)) (u8 (2 * rx + 1)) ]

/-- The state of the decision recurrence at loop entry for radius `r`, over unbounded
integers: `f = 1 - r`, `dx = 1`, `dy = -2 r`, `rx = 0`, `ry = r`. -/
def circle_init (r : Int) : CircleState := ⟨1 - r, 1, -2 * r, 0, r⟩

/-- One iteration of the decision recurrence as the spec words it, over unbounded
integers: if `f ≥ 0`, decrement `ry`, add 2 to `dy`, add `dy` to `f`; then increment `rx`,
add 2 to `dx`, add `dx` to `f`. -/
def midpoint_step (s : CircleState) : CircleState :=
  let ry1 := if s.f ≥ 0 then s.ry - 1 else s.ry
  let dy1 := if s.f ≥ 0 then s.dy + 2 else s.dy
  let f1 := if s.f ≥ 0 then s.f + dy1 else s.f
  let rx1 := s.rx + 1
  let dx1 := s.dx + 2
  ⟨f1 + dx1, dx1, dy1, rx1, ry1⟩

/-- The states visited by the decision recurrence of the spec, over unbounded integers:
loop while `rx < ry`. -/
def midpoint_states (s : CircleState) : List CircleState :=
  if s.rx < s.ry then midpoint_step s :: midpoint_states (midpoint_step s) else []
termination_by (s.ry - s.rx).toNat
decreasing_by
  show ((midpoint_step s).ry - (midpoint_step s).rx).toNat < (s.ry - s.rx).toNat
  unfold midpoint_step
  simp only []
  split <;> omega

/-- The closed forms and bounds the circle loop maintains for radius `r`. -/
def CircleInv (r : Int) (s : CircleState) : Prop :=
  s.dx = 2 * s.rx + 1 ∧ s.dy = -2 * s.ry ∧ 0 ≤ s.rx ∧ 0 ≤ s.ry ∧ s.ry ≤ r ∧ s.rx ≤ s.ry + 1
  ∧ s.rx ≤ r
  ∧ -r ≤ s.f - 2 * s.rx - 1 + s.ry ∧ s.f - 2 * s.rx - 1 + s.ry ≤ r
  ∧ -2 * s.ry ≤ s.f - 2 * s.rx - 1 + s.ry
  ∧ s.f = (s.rx + 1) * (s.rx + 1) + s.ry * s.ry - s.ry - r * r

/-- The values of `f`, `dx`, `dy`, `rx`, `ry` in `Canvas::draw_circle(x, y, r)` at loop entry
and at the end of each iteration. -/
def draw_circle_trace (r : Nat) : List CircleState :=
  ⟨i16 (1 - r), 1, i16 (-2 * r), 0, r⟩
    :: draw_circle_states (i16 (1 - r)) 1 (i16 (-2 * r)) 0 r

/-- The values of `f`, `dx`, `dy`, `rx`, `ry` in `Canvas::fill_circle(x, y, r)` at loop entry
and at the end of each iteration. -/
def fill_circle_trace (r : Nat) : List CircleState :=
  ⟨i16 (1 - r), 1, i16 (-2 * r), 0, r⟩
    :: fill_circle_states (i16 (1 - r)) 1 (i16 (-2 * r)) 0 r

/-- The eight offsets from the centre plotted in one iteration of `Canvas::draw_circle`,
before the conversion to 8-bit coordinates. -/
def circle_offsets8 (rx ry : Int) : List (Int × Int) :=
  [(rx, ry), (-rx, ry), (rx, -ry), (-rx, -ry), (ry, rx), (-ry, rx), (ry, -rx), (-ry, -rx)]

/-- The offsets from the centre of all the pixels `Canvas::draw_circle(x, y, r)` plots, in
order, before the conversion to 8-bit coordinates: the four cardinal points, then eight
per iteration. -/
def draw_circle_offsets (r : Nat) : List (Int × Int) :=
  [(0, (r : Int)), (0, -(r : Int)), ((r : Int), 0), (-(r : Int), 0)]
    ++ (draw_circle_trace r).tail.flatMap (fun s => circle_offsets8 s.rx s.ry)

/-- A value of the `int16_t` range. -/
def inInt16 (v : Int) : Prop := -32768 ≤ v ∧ v ≤ 32767

/-- One iteration of the circle loop moves `rx` up by exactly 1 and `ry` down by 0 or 1. -/
def circleStep (a b : CircleState) : Prop :=
  b.rx = a.rx + 1 ∧ (b.ry = a.ry ∨ b.ry = a.ry - 1)

/-- The offsets `(rx, ry)` walked by the loop of `Canvas::draw_circle` for radius `r`: the
point `(0, r)` at loop entry, then one point per iteration. -/
def octant_arc (r : Nat) : List (Int × Int) :=
  (draw_circle_trace r).map (fun s => (s.rx, s.ry))

/-- The eight mirror images of an arc, laid end to end clockwise from its first point: the
arc itself, its transpose backwards, and so on through the eight octants. -/
def ring_of (A : List (Int × Int)) : List (Int × Int) :=
  A ++ (A.map (fun p => (p.2, p.1))).reverse
    ++ A.map (fun p => (p.2, -p.1)) ++ (A.map (fun p => (p.1, -p.2))).reverse
    ++ A.map (fun p => (-p.1, -p.2)) ++ (A.map (fun p => (-p.2, -p.1))).reverse
    ++ A.map (fun p => (-p.2, p.1)) ++ (A.map (fun p => (-p.1, p.2))).reverse

/-- The offsets plotted by `Canvas::draw_circle` for radius `r`, arranged around the
centre. -/
def circle_ring (r : Nat) : List (Int × Int) := ring_of (octant_arc r)

/-- Two offsets are 8-neighbours (or coincide): they differ by at most 1 in each
coordinate. -/
def adjacent8 (p q : Int × Int) : Prop := |p.1 - q.1| ≤ 1 ∧ |p.2 - q.2| ≤ 1

/-- One step along the octant arc: one to the right and level or one down. -/
def arcStep (p q : Int × Int) : Prop := q.1 = p.1 + 1 ∧ (q.2 = p.2 ∨ q.2 = p.2 - 1)

/-- The spans of the iteration ending in state `s` of `Canvas::fill_circle` reach the
offset with absolute column `A` and absolute row `B`: either the column is `rx` and the
row is within `ry`, or the column is `ry` and the row is within `rx`. -/
def spanCovers (s : CircleState) (A B : Int) : Prop :=
  (A = s.rx ∧ B ≤ s.ry) ∨ (A = s.ry ∧ B ≤ s.rx)

/-! ## Machine-integer conversions -/

theorem i16_of_range {v : Int} (h1 : -32768 ≤ v) (h2 : v < 32768) : i16 v = v := by
  unfold i16; omega

theorem u16_of_range {v : Int} (h1 : 0 ≤ v) (h2 : v < 65536) : u16 v = v := by
  unfold u16; omega

theorem u8_natCast (n : Nat) (h : n < 256) : u8 (n : Int) = n := by
  unfold u8; omega

/-! ## `draw_line` -/

theorem draw_line_loop_flat (steep : Bool) (x1 dx ystep y0 : Int) (n : Nat) :
    ∀ (x0 err : Int), x0 + n = x1 + 1 → 0 ≤ err → err < 32768 →
      draw_line_loop steep x1 dx 0 ystep x0 y0 err
        = (List.range n).map (fun k => linePixel steep (x0 + (k : Nat)) y0) := by
  induction n with
  | zero =>
    intro x0 err hx _ _
    rw [draw_line_loop, if_neg (by omega)]
    rfl
  | succ n ih =>
    intro x0 err hx he0 he1
    have herr : i16 (err - 0) = err := by rw [Int.sub_zero]; exact i16_of_range (by omega) he1
    rw [draw_line_loop, if_pos (by omega)]
    simp only [herr, if_neg (not_lt.mpr he0)]
    rw [ih (x0 + 1) err (by omega) he0 he1, List.range_succ_eq_map, List.map_cons, List.map_map]
    congr 1
    · simp [linePixel]
    · apply List.map_congr_left
      intro k _
      simp only [Function.comp, Nat.succ_eq_add_one, Nat.cast_add, Nat.cast_one]
      rw [add_assoc, add_comm (1 : Int)]

theorem draw_line_loop_diag (steep : Bool) (x1 d : Int) (hd0 : 0 < d) (hd1 : d ≤ 255)
    (n : Nat) :
    ∀ (x0 y0 : Int), x0 + n = x1 + 1 → 0 ≤ y0 → y0 + n < 32768 →
      draw_line_loop steep x1 d d 1 x0 y0 (d / 2)
        = (List.range n).map (fun k => linePixel steep (x0 + (k : Nat)) (y0 + (k : Nat))) := by
  induction n with
  | zero =>
    intro x0 y0 hx _ _
    rw [draw_line_loop, if_neg (by omega)]
    rfl
  | succ n ih =>
    intro x0 y0 hx h1 h2
    have herr : i16 (d / 2 - d) = d / 2 - d := i16_of_range (by omega) (by omega)
    have hneg : d / 2 - d < 0 := by omega
    have herr2 : i16 (d / 2 - d + d) = d / 2 := by
      rw [i16_of_range (by omega) (by omega)]; omega
    have hy : i16 (y0 + 1) = y0 + 1 := i16_of_range (by omega) (by push_cast at h2; omega)
    rw [draw_line_loop, if_pos (by omega)]
    simp only [herr, if_pos hneg, herr2, hy]
    rw [ih (x0 + 1) (y0 + 1) (by omega) (by omega) (by push_cast at h2; omega),
      List.range_succ_eq_map, List.map_cons, List.map_map]
    congr 1
    · simp [linePixel]
    · apply List.map_congr_left
      intro k _
      simp only [Function.comp, Nat.succ_eq_add_one, Nat.cast_add, Nat.cast_one]
      rw [add_assoc, add_comm (1 : Int), add_assoc y0, add_comm (1 : Int)]

theorem swap_eq (a b : Int) (h0 : 0 ≤ a) (h1 : a < 32768) : swap a b = (b, a) := by
  unfold swap i16 u16
  congr 1
  omega

theorem draw_line_unfold (x0 y0 x1 y1 : Nat)
    (hx0 : x0 ≤ 255) (hy0 : y0 ≤ 255) (hx1 : x1 ≤ 255) (hy1 : y1 ≤ 255) :
    draw_line x0 y0 x1 y1 =
      if |(y1 : Int) - y0| > |(x1 : Int) - x0| then
        if (y0 : Int) > y1 then
          draw_line_loop true y0 (y0 - y1) |(x0 : Int) - x1| (if (x1 : Int) < x0 then 1 else -1)
            y1 x1 ((y0 - y1) / 2)
        else
          draw_line_loop true y1 (y1 - y0) |(x1 : Int) - x0| (if (x0 : Int) < x1 then 1 else -1)
            y0 x0 ((y1 - y0) / 2)
      else
        if (x0 : Int) > x1 then
          draw_line_loop false x0 (x0 - x1) |(y0 : Int) - y1| (if (y1 : Int) < y0 then 1 else -1)
            x1 y1 ((x0 - x1) / 2)
        else
          draw_line_loop false x1 (x1 - x0) |(y1 : Int) - y0| (if (y0 : Int) < y1 then 1 else -1)
            x0 y0 ((x1 - x0) / 2) := by
  have sx0 : ∀ b : Int, swap (x0 : Int) b = (b, (x0 : Int)) := fun b => swap_eq _ _ (by omega) (by omega)
  have sy0 : ∀ b : Int, swap (y0 : Int) b = (b, (y0 : Int)) := fun b => swap_eq _ _ (by omega) (by omega)
  have sx1 : ∀ b : Int, swap (x1 : Int) b = (b, (x1 : Int)) := fun b => swap_eq _ _ (by omega) (by omega)
  have sy1 : ∀ b : Int, swap (y1 : Int) b = (b, (y1 : Int)) := fun b => swap_eq _ _ (by omega) (by omega)
  have ax : |(x1 : Int) - x0| ≤ 255 := by rw [abs_le]; omega
  have ay : |(y1 : Int) - y0| ≤ 255 := by rw [abs_le]; omega
  have ax' : |(x0 : Int) - x1| ≤ 255 := by rw [abs_le]; omega
  have ay' : |(y0 : Int) - y1| ≤ 255 := by rw [abs_le]; omega
  unfold draw_line
  by_cases hs : |(y1 : Int) - y0| > |(x1 : Int) - x0|
  · by_cases hc : (y0 : Int) > y1
    · simp only [hs, hc, decide_True, decide_False, Bool.false_eq_true, ↓reduceIte, sx0, sy0, sx1, sy1]
      rw [u16_of_range (by omega) (by omega), u16_of_range (abs_nonneg _) (by omega),
        i16_of_range (by omega) (by omega)]
    · simp only [hs, hc, decide_True, decide_False, Bool.false_eq_true, ↓reduceIte, sx0, sy0, sx1, sy1]
      rw [u16_of_range (by omega) (by omega), u16_of_range (abs_nonneg _) (by omega),
        i16_of_range (by omega) (by omega)]
  · by_cases hc : (x0 : Int) > x1
    · simp only [hs, hc, decide_True, decide_False, Bool.false_eq_true, ↓reduceIte, sx0, sy0, sx1, sy1]
      rw [u16_of_range (by omega) (by omega), u16_of_range (abs_nonneg _) (by omega),
        i16_of_range (by omega) (by omega)]
    · simp only [hs, hc, decide_True, decide_False, Bool.false_eq_true, ↓reduceIte, sx0, sy0, sx1, sy1]
      rw [u16_of_range (by omega) (by omega), u16_of_range (abs_nonneg _) (by omega),
        i16_of_range (by omega) (by omega)]

theorem u8_add_natCast (a k : Nat) (h : a + k < 256) : u8 ((a : Int) + (k : Nat)) = a + k := by
  unfold u8; omega

theorem horizontal_line_ops (x0 x1 y : Nat) (h0 : x0 ≤ 255) (h1 : x1 ≤ 255) (hy : y ≤ 255) :
    draw_line x0 y x1 y
      = (List.range (max x0 x1 - min x0 x1 + 1)).map
          (fun k => Op.draw_pixel (min x0 x1 + k) y) := by
  rw [draw_line_unfold x0 y x1 y h0 hy h1 hy]
  have hs : ¬ (|(y : Int) - y| > |(x1 : Int) - x0|) := by
    rw [sub_self, abs_zero]; exact not_lt.mpr (abs_nonneg _)
  rw [if_neg hs, sub_self, abs_zero]
  by_cases hc : (x0 : Int) > x1
  · rw [if_pos hc, draw_line_loop_flat false _ _ _ _ (x0 - x1 + 1) _ _ (by omega) (by omega) (by omega)]
    have hmin : min x0 x1 = x1 := by omega
    have hmax : max x0 x1 = x0 := by omega
    rw [hmin, hmax]
    apply List.map_congr_left
    intro k hk
    rw [List.mem_range] at hk
    simp only [linePixel, Bool.false_eq_true, if_false]
    rw [u8_add_natCast _ _ (by omega), u8_natCast _ (by omega)]
  · rw [if_neg hc, draw_line_loop_flat false _ _ _ _ (x1 - x0 + 1) _ _ (by omega) (by omega) (by omega)]
    have hmin : min x0 x1 = x0 := by omega
    have hmax : max x0 x1 = x1 := by omega
    rw [hmin, hmax]
    apply List.map_congr_left
    intro k hk
    rw [List.mem_range] at hk
    simp only [linePixel, Bool.false_eq_true, if_false]
    rw [u8_add_natCast _ _ (by omega), u8_natCast _ (by omega)]

theorem vertical_line_ops (x y0 y1 : Nat) (hx : x ≤ 255) (h0 : y0 ≤ 255) (h1 : y1 ≤ 255) :
    draw_line x y0 x y1
      = (List.range (max y0 y1 - min y0 y1 + 1)).map
          (fun k => Op.draw_pixel x (min y0 y1 + k)) := by
  rw [draw_line_unfold x y0 x y1 hx h0 hx h1]
  simp only [sub_self, abs_zero, abs_pos, gt_iff_lt]
  by_cases hs : (y1 : Int) - y0 ≠ 0
  · rw [if_pos hs]
    by_cases hc : (y1 : Int) < y0
    · rw [if_pos hc, draw_line_loop_flat true _ _ _ _ (y0 - y1 + 1) _ _ (by omega) (by omega) (by omega)]
      have hmin : min y0 y1 = y1 := by omega
      have hmax : max y0 y1 = y0 := by omega
      rw [hmin, hmax]
      apply List.map_congr_left
      intro k hk
      rw [List.mem_range] at hk
      simp only [linePixel, if_true]
      rw [u8_add_natCast _ _ (by omega), u8_natCast _ (by omega)]
    · rw [if_neg hc, draw_line_loop_flat true _ _ _ _ (y1 - y0 + 1) _ _ (by omega) (by omega) (by omega)]
      have hmin : min y0 y1 = y0 := by omega
      have hmax : max y0 y1 = y1 := by omega
      rw [hmin, hmax]
      apply List.map_congr_left
      intro k hk
      rw [List.mem_range] at hk
      simp only [linePixel, if_true]
      rw [u8_add_natCast _ _ (by omega), u8_natCast _ (by omega)]
  · have he : y0 = y1 := by omega
    subst he
    rw [if_neg hs, if_neg (lt_irrefl _), sub_self, abs_zero,
      draw_line_loop_flat false _ _ _ _ 1 _ _ (by omega) (by omega) (by omega)]
    simp [linePixel, u8_natCast _ (show x < 256 by omega), u8_natCast _ (show y0 < 256 by omega)]

theorem diagonal_line_ops (x0 y0 n : Nat) (hx : x0 + n ≤ 255) (hy : y0 + n ≤ 255) :
    draw_line x0 y0 (x0 + n) (y0 + n)
      = (List.range (n + 1)).map (fun i => Op.draw_pixel (x0 + i) (y0 + i)) := by
  rw [draw_line_unfold x0 y0 (x0 + n) (y0 + n) (by omega) (by omega) hx hy]
  have e1 : ((x0 + n : Nat) : Int) - x0 = n := by push_cast; omega
  have e2 : ((y0 + n : Nat) : Int) - y0 = n := by push_cast; omega
  rw [e1, e2, if_neg (lt_irrefl _), if_neg (by push_cast; omega)]
  rcases Nat.eq_zero_or_pos n with hn | hn
  · subst hn
    rw [Nat.cast_zero, abs_zero,
      draw_line_loop_flat false _ _ _ _ 1 _ _ (by omega) (by omega) (by omega)]
    simp [linePixel, u8_natCast _ (show x0 < 256 by omega), u8_natCast _ (show y0 < 256 by omega)]
  · rw [abs_of_nonneg (by omega), if_pos (by push_cast; omega),
      draw_line_loop_diag false _ _ (by omega) (by omega) (n + 1) _ _ (by push_cast; omega)
        (by omega) (by push_cast; omega)]
    apply List.map_congr_left
    intro k hk
    rw [List.mem_range] at hk
    simp only [linePixel, Bool.false_eq_true, if_false]
    rw [u8_add_natCast _ _ (by omega), u8_add_natCast _ _ (by omega)]

theorem draw_line_symm (x0 y0 x1 y1 : Nat)
    (hx0 : x0 ≤ 255) (hy0 : y0 ≤ 255) (hx1 : x1 ≤ 255) (hy1 : y1 ≤ 255) :
    draw_line x0 y0 x1 y1 = draw_line x1 y1 x0 y0 := by
  rw [draw_line_unfold x0 y0 x1 y1 hx0 hy0 hx1 hy1, draw_line_unfold x1 y1 x0 y0 hx1 hy1 hx0 hy0]
  rw [abs_sub_comm (y0 : Int) y1, abs_sub_comm (x0 : Int) x1]
  by_cases hs : |(y1 : Int) - y0| > |(x1 : Int) - x0|
  · rw [if_pos hs, if_pos hs]
    by_cases hc : (y0 : Int) > y1
    · have hc2 : ¬ ((y1 : Int) > y0) := by omega
      rw [if_pos hc, if_neg hc2]
    · rw [if_neg hc]
      by_cases hc2 : (y1 : Int) > y0
      · rw [if_pos hc2]
      · have he : y0 = y1 := by omega
        subst he
        rw [sub_self, abs_zero] at hs
        exact absurd hs (not_lt.mpr (abs_nonneg _))
  · rw [if_neg hs, if_neg hs]
    by_cases hc : (x0 : Int) > x1
    · have hc2 : ¬ ((x1 : Int) > x0) := by omega
      rw [if_pos hc, if_neg hc2]
    · rw [if_neg hc]
      by_cases hc2 : (x1 : Int) > x0
      · rw [if_pos hc2]
      · have he : x0 = x1 := by omega
        subst he
        rw [sub_self, abs_zero, not_lt] at hs
        have hy : (y1 : Int) - y0 = 0 := abs_eq_zero.mp (le_antisymm hs (abs_nonneg _))
        have he2 : y0 = y1 := by omega
        subst he2
        rw [if_neg hc2]

theorem lineStep_linePixel (steep : Bool) (a b b2 : Int) (ha0 : 0 ≤ a) (ha1 : a < 255)
    (hb0 : 0 ≤ b) (hb1 : b ≤ 255) (hb20 : 0 ≤ b2) (hb21 : b2 ≤ 255)
    (hb : b2 = b ∨ b2 = b + 1 ∨ b2 + 1 = b) :
    lineStep steep (linePixel steep a b) (linePixel steep (a + 1) b2) := by
  have e1 : u8 (a + 1) = u8 a + 1 := by unfold u8; omega
  have e2 : u8 b2 = u8 b ∨ u8 b2 = u8 b + 1 ∨ u8 b2 + 1 = u8 b := by unfold u8; omega
  cases steep
  · simp only [linePixel, lineStep, Bool.false_eq_true, if_false]
    exact ⟨e1, e2⟩
  · simp only [linePixel, lineStep, if_true]
    exact ⟨e1, e2⟩

theorem draw_line_loop_walk (steep : Bool) (x1 dx dy ystep yT : Int)
    (hdx0 : 0 < dx) (hdx1 : dx ≤ 255) (hdy0 : 0 ≤ dy) (hdy1 : dy ≤ dx)
    (hs : ystep = 1 ∨ ystep = -1) (hx1 : x1 ≤ 255) (hyT0 : 0 ≤ yT) (hyT1 : yT ≤ 255) (n : Nat) :
    ∀ x0 y0 err r : Int, x0 + n = x1 → 0 ≤ x0 → 0 ≤ y0 → y0 ≤ 255 → 0 ≤ err → err < dx →
      0 ≤ r → yT = y0 + ystep * r → err + r * dx = dx / 2 + n * dy →
      (draw_line_loop steep x1 dx dy ystep x0 y0 err).length = n + 1
      ∧ (draw_line_loop steep x1 dx dy ystep x0 y0 err).head? = some (linePixel steep x0 y0)
      ∧ (draw_line_loop steep x1 dx dy ystep x0 y0 err).getLast? = some (linePixel steep x1 yT)
      ∧ List.Chain' (lineStep steep) (draw_line_loop steep x1 dx dy ystep x0 y0 err) := by
  induction n with
  | zero =>
    intro x0 y0 err r hx hx0 hy0 hy1 he0 he1 hr hyT hinv
    have hr0 : r = 0 := by
      by_contra hne
      have h1 : 1 ≤ r := by omega
      have h2 : 1 * dx ≤ r * dx := mul_le_mul_of_nonneg_right h1 (le_of_lt hdx0)
      simp only [Nat.cast_zero, zero_mul, one_mul] at h2 hinv
      omega
    have hy : yT = y0 := by rw [hyT, hr0, mul_zero, add_zero]
    have hxe : x0 = x1 := by simpa using hx
    have hnil : ∀ a b : Int, draw_line_loop steep x1 dx dy ystep (x0 + 1) a b = [] := by
      intro a b
      rw [draw_line_loop, if_neg (by omega)]
    rw [draw_line_loop, if_pos (by omega)]
    simp only [hnil]
    have hp : (if steep = true then Op.draw_pixel (u8 y0) (u8 x0) else Op.draw_pixel (u8 x0) (u8 y0))
        = linePixel steep x0 y0 := rfl
    rw [hp, hy, hxe]
    split <;> simp
  | succ n ih =>
    intro x0 y0 err r hx hx0 hy0 hy1 he0 he1 hr hyT hinv
    have hcast : ((n + 1 : Nat) : Int) * dy = (n : Int) * dy + dy := by push_cast; ring
    have hnd : 0 ≤ (n : Int) * dy := mul_nonneg (by omega) hdy0
    rw [hcast] at hinv
    have herr : i16 (err - dy) = err - dy := i16_of_range (by omega) (by omega)
    have hp : (if steep = true then Op.draw_pixel (u8 y0) (u8 x0) else Op.draw_pixel (u8 x0) (u8 y0))
        = linePixel steep x0 y0 := rfl
    rw [draw_line_loop, if_pos (by push_cast at hx; omega)]
    simp only [herr, hp]
    by_cases hneg : err - dy < 0
    · rw [if_pos hneg]
      have hr1 : 1 ≤ r := by
        by_contra hne
        have : r = 0 := by omega
        rw [this, zero_mul] at hinv
        omega
      have hmul : (r - 1) * dx = r * dx - dx := by ring
      have herr2 : i16 (err - dy + dx) = err - dy + dx := i16_of_range (by omega) (by omega)
      have hyb : 0 ≤ y0 + ystep ∧ y0 + ystep ≤ 255 ∧ yT = y0 + ystep + ystep * (r - 1) := by
        rcases hs with rfl | rfl
        · refine ⟨by omega, by omega, ?_⟩
          rw [hyT]; ring
        · refine ⟨by omega, by omega, ?_⟩
          rw [hyT]; ring
      have hy16 : i16 (y0 + ystep) = y0 + ystep := i16_of_range (by omega) (by omega)
      rw [herr2, hy16]
      obtain ⟨l1, l2, l3, l4⟩ := ih (x0 + 1) (y0 + ystep) (err - dy + dx) (r - 1)
        (by push_cast at hx; omega) (by omega) hyb.1 hyb.2.1 (by omega) (by omega) (by omega)
        hyb.2.2 (by rw [hmul]; omega)
      cases hl : draw_line_loop steep x1 dx dy ystep (x0 + 1) (y0 + ystep) (err - dy + dx) with
      | nil => rw [hl] at l1; simp at l1
      | cons b t =>
        rw [hl] at l1 l2 l3 l4
        simp only [List.head?_cons, Option.some.injEq] at l2
        refine ⟨by simp only [List.length_cons] at l1 ⊢; omega, rfl, ?_, ?_⟩
        · rw [List.getLast?_cons_cons]; exact l3
        · rw [List.chain'_cons]
          refine ⟨?_, l4⟩
          rw [l2]
          apply lineStep_linePixel steep x0 y0 (y0 + ystep) hx0 (by push_cast at hx; omega) hy0 hy1
            hyb.1 hyb.2.1
          rcases hs with rfl | rfl
          · exact Or.inr (Or.inl rfl)
          · exact Or.inr (Or.inr (by ring))
    · rw [if_neg hneg]
      obtain ⟨l1, l2, l3, l4⟩ := ih (x0 + 1) y0 (err - dy) r
        (by push_cast at hx; omega) (by omega) hy0 hy1 (by omega) (by omega) hr hyT (by omega)
      cases hl : draw_line_loop steep x1 dx dy ystep (x0 + 1) y0 (err - dy) with
      | nil => rw [hl] at l1; simp at l1
      | cons b t =>
        rw [hl] at l1 l2 l3 l4
        simp only [List.head?_cons, Option.some.injEq] at l2
        refine ⟨by simp only [List.length_cons] at l1 ⊢; omega, rfl, ?_, ?_⟩
        · rw [List.getLast?_cons_cons]; exact l3
        · rw [List.chain'_cons]
          refine ⟨?_, l4⟩
          rw [l2]
          exact lineStep_linePixel steep x0 y0 y0 hx0 (by push_cast at hx; omega) hy0 hy1
            hy0 hy1 (Or.inl rfl)

theorem linePixel_natCast (steep : Bool) (a b : Nat) (ha : a ≤ 255) (hb : b ≤ 255) :
    linePixel steep (a : Int) (b : Int)
      = if steep then Op.draw_pixel b a else Op.draw_pixel a b := by
  unfold linePixel
  rw [u8_natCast a (by omega), u8_natCast b (by omega)]

/-- The walk of `draw_line` on normalised endpoints: major coordinate from `a0` up to `a1`,
minor coordinate from `b0` to `b1`. -/
theorem normalized_walk (steep : Bool) (a0 b0 a1 b1 : Nat)
    (ha0 : a0 ≤ 255) (hb0 : b0 ≤ 255) (ha1 : a1 ≤ 255) (hb1 : b1 ≤ 255)
    (hle : a0 ≤ a1) (hd : |(b1 : Int) - b0| ≤ (a1 : Int) - a0) :
    (draw_line_loop steep a1 ((a1 : Int) - a0) |(b1 : Int) - b0|
        (if (b0 : Int) < b1 then 1 else -1) a0 b0 (((a1 : Int) - a0) / 2)).length = a1 - a0 + 1
    ∧ (draw_line_loop steep a1 ((a1 : Int) - a0) |(b1 : Int) - b0|
        (if (b0 : Int) < b1 then 1 else -1) a0 b0 (((a1 : Int) - a0) / 2)).head?
          = some (linePixel steep a0 b0)
    ∧ (draw_line_loop steep a1 ((a1 : Int) - a0) |(b1 : Int) - b0|
        (if (b0 : Int) < b1 then 1 else -1) a0 b0 (((a1 : Int) - a0) / 2)).getLast?
          = some (linePixel steep a1 b1)
    ∧ List.Chain' (lineStep steep)
        (draw_line_loop steep a1 ((a1 : Int) - a0) |(b1 : Int) - b0|
          (if (b0 : Int) < b1 then 1 else -1) a0 b0 (((a1 : Int) - a0) / 2)) := by
  have habs0 : 0 ≤ |(b1 : Int) - b0| := abs_nonneg _
  rcases Nat.eq_or_lt_of_le hle with heq | hlt
  · subst heq
    have hz : |(b1 : Int) - b0| = 0 := by
      rw [sub_self] at hd; omega
    have hb : b1 = b0 := by
      have := abs_eq_zero.mp hz
      omega
    subst hb
    have hr1 : List.range 1 = [0] := rfl
    rw [hz, draw_line_loop_flat steep _ _ _ _ 1 _ _ (by omega) (by omega) (by omega), hr1]
    simp
  · have hyT : (b1 : Int) = b0 + (if (b0 : Int) < b1 then 1 else -1) * |(b1 : Int) - b0| := by
      by_cases h : (b0 : Int) < b1
      · rw [if_pos h, abs_of_nonneg (by omega)]; ring
      · rw [if_neg h, abs_of_nonpos (by omega)]; ring
    have hst : (if (b0 : Int) < b1 then (1 : Int) else -1) = 1
        ∨ (if (b0 : Int) < b1 then (1 : Int) else -1) = -1 := by
      split
      · exact Or.inl rfl
      · exact Or.inr rfl
    have hn : ((a0 : Int)) + ((a1 - a0 : Nat) : Int) = a1 := by omega
    have hcast : ((a1 - a0 : Nat) : Int) = (a1 : Int) - a0 := by omega
    have h := draw_line_loop_walk steep a1 ((a1 : Int) - a0) |(b1 : Int) - b0|
      (if (b0 : Int) < b1 then 1 else -1) b1 (by omega) (by omega) habs0 hd hst (by omega)
      (by omega) (by omega) (a1 - a0) a0 b0 (((a1 : Int) - a0) / 2) |(b1 : Int) - b0|
      hn (by omega) (by omega) (by omega) (by omega) (by omega) habs0 hyT
      (by rw [hcast]; ring)
    exact h

theorem linePixel_true_natCast (a b : Nat) (ha : a ≤ 255) (hb : b ≤ 255) :
    linePixel true (a : Int) (b : Int) = Op.draw_pixel b a := by
  rw [linePixel_natCast true a b ha hb, if_pos rfl]

theorem linePixel_false_natCast (a b : Nat) (ha : a ≤ 255) (hb : b ≤ 255) :
    linePixel false (a : Int) (b : Int) = Op.draw_pixel a b := by
  rw [linePixel_natCast false a b ha hb, if_neg Bool.false_ne_true]

theorem mem_of_head?_eq_some {α : Type} {l : List α} {a : α} (h : l.head? = some a) : a ∈ l :=
  List.mem_of_mem_head? (by rw [h]; exact rfl)

theorem abs_sub_natCast_cases (a b : Nat) :
    (|(a : Int) - b| = a - b ∧ b ≤ a) ∨ (|(a : Int) - b| = b - a ∧ a ≤ b) := by
  rcases le_total b a with h | h
  · left; exact ⟨abs_of_nonneg (by omega), h⟩
  · right; exact ⟨by rw [abs_of_nonpos (by omega)]; ring, h⟩

theorem draw_line_normalize_eq (x0 y0 x1 y1 : Nat)
    (hx0 : x0 ≤ 255) (hy0 : y0 ≤ 255) (hx1 : x1 ≤ 255) (hy1 : y1 ≤ 255) :
    draw_line_normalize x0 y0 x1 y1 =
      if |(y1 : Int) - y0| > |(x1 : Int) - x0| then
        if (y0 : Int) > y1 then (true, (y1 : Int), (x1 : Int), (y0 : Int), (x0 : Int))
        else (true, (y0 : Int), (x0 : Int), (y1 : Int), (x1 : Int))
      else
        if (x0 : Int) > x1 then (false, (x1 : Int), (y1 : Int), (x0 : Int), (y0 : Int))
        else (false, (x0 : Int), (y0 : Int), (x1 : Int), (y1 : Int)) := by
  have sx0 : ∀ b : Int, swap (x0 : Int) b = (b, (x0 : Int)) := fun b => swap_eq _ _ (by omega) (by omega)
  have sy0 : ∀ b : Int, swap (y0 : Int) b = (b, (y0 : Int)) := fun b => swap_eq _ _ (by omega) (by omega)
  have sx1 : ∀ b : Int, swap (x1 : Int) b = (b, (x1 : Int)) := fun b => swap_eq _ _ (by omega) (by omega)
  have sy1 : ∀ b : Int, swap (y1 : Int) b = (b, (y1 : Int)) := fun b => swap_eq _ _ (by omega) (by omega)
  unfold draw_line_normalize
  by_cases hs : |(y1 : Int) - y0| > |(x1 : Int) - x0|
  · by_cases hc : (y0 : Int) > y1
    · simp only [hs, hc, decide_True, decide_False, Bool.false_eq_true, ↓reduceIte, sx0, sy0, sx1, sy1]
    · simp only [hs, hc, decide_True, decide_False, Bool.false_eq_true, ↓reduceIte, sx0, sy0, sx1, sy1]
  · by_cases hc : (x0 : Int) > x1
    · simp only [hs, hc, decide_True, decide_False, Bool.false_eq_true, ↓reduceIte, sx0, sy0, sx1, sy1]
    · simp only [hs, hc, decide_True, decide_False, Bool.false_eq_true, ↓reduceIte, sx0, sy0, sx1, sy1]

/-- `draw_line` is its loop entered on the normalised endpoints, with `dx`, `dy`, the
error `dx / 2` and `ystep` computed from them. -/
theorem draw_line_eq_loop (x0 y0 x1 y1 : Nat)
    (hx0 : x0 ≤ 255) (hy0 : y0 ≤ 255) (hx1 : x1 ≤ 255) (hy1 : y1 ≤ 255) :
    draw_line x0 y0 x1 y1
      = draw_line_loop (draw_line_normalize x0 y0 x1 y1).1
          (draw_line_normalize x0 y0 x1 y1).2.2.2.1
          ((draw_line_normalize x0 y0 x1 y1).2.2.2.1 - (draw_line_normalize x0 y0 x1 y1).2.1)
          |(draw_line_normalize x0 y0 x1 y1).2.2.2.2 - (draw_line_normalize x0 y0 x1 y1).2.2.1|
          (draw_line_ystep x0 y0 x1 y1)
          (draw_line_normalize x0 y0 x1 y1).2.1
          (draw_line_normalize x0 y0 x1 y1).2.2.1
          (((draw_line_normalize x0 y0 x1 y1).2.2.2.1 - (draw_line_normalize x0 y0 x1 y1).2.1) / 2) := by
  unfold draw_line_ystep
  rw [draw_line_unfold x0 y0 x1 y1 hx0 hy0 hx1 hy1, draw_line_normalize_eq x0 y0 x1 y1 hx0 hy0 hx1 hy1]
  by_cases hs : |(y1 : Int) - y0| > |(x1 : Int) - x0|
  · by_cases hc : (y0 : Int) > y1
    · simp only [hs, hc, ↓reduceIte]
    · simp only [hs, hc, ↓reduceIte]
  · by_cases hc : (x0 : Int) > x1
    · simp only [hs, hc, ↓reduceIte]
    · simp only [hs, hc, ↓reduceIte]

/-- One iteration of the loop of `draw_line` on values in range: plot, subtract `dy` from the
error, and when the error is negative step `y` by `ystep` and add `dx` back. -/
theorem draw_line_loop_step (steep : Bool) (x1 dx dy ystep x y err : Int) (hx : x ≤ x1)
    (hs : ystep = 1 ∨ ystep = -1) (hy0 : 0 ≤ y) (hy1 : y ≤ 255)
    (hdx0 : 0 ≤ dx) (hdx1 : dx ≤ 255) (hdy0 : 0 ≤ dy) (hdy1 : dy ≤ 255)
    (he0 : -255 ≤ err) (he1 : err ≤ 255) :
    draw_line_loop steep x1 dx dy ystep x y err
      = linePixel steep x y ::
          (if err - dy < 0 then
            draw_line_loop steep x1 dx dy ystep (x + 1) (y + ystep) (err - dy + dx)
          else
            draw_line_loop steep x1 dx dy ystep (x + 1) y (err - dy)) := by
  have h1 : i16 (err - dy) = err - dy := i16_of_range (by omega) (by omega)
  have h2 : i16 (err - dy + dx) = err - dy + dx := i16_of_range (by omega) (by omega)
  have h3 : i16 (y + ystep) = y + ystep := by
    rcases hs with rfl | rfl <;> exact i16_of_range (by omega) (by omega)
  rw [draw_line_loop, if_pos hx]
  simp only [h1, h2, h3]
  split <;> rfl

/-! ## `draw_circle` -/

theorem ReflClosed.append {x y R : Int} {l1 l2 : List Op}
    (h1 : ReflClosed x y R l1) (h2 : ReflClosed x y R l2) : ReflClosed x y R (l1 ++ l2) := by
  intro op hop
  rcases List.mem_append.mp hop with h | h
  · obtain ⟨a, b, ha1, ha2, hb1, hb2, e, m1, m2⟩ := h1 op h
    exact ⟨a, b, ha1, ha2, hb1, hb2, e, List.mem_append_left _ m1, List.mem_append_left _ m2⟩
  · obtain ⟨a, b, ha1, ha2, hb1, hb2, e, m1, m2⟩ := h2 op h
    exact ⟨a, b, ha1, ha2, hb1, hb2, e, List.mem_append_right _ m1, List.mem_append_right _ m2⟩

theorem reflClosed_octants (x y R p q : Int) (hp0 : 0 ≤ p) (hp : p ≤ R) (hq0 : 0 ≤ q) (hq : q ≤ R) :
    ReflClosed x y R
      [ Op.draw_pixel (u8 (x + p)) (u8 (y + q)),
        Op.draw_pixel (u8 (x - p)) (u8 (y + q)),
        Op.draw_pixel (u8 (x + p)) (u8 (y - q)),
        Op.draw_pixel (u8 (x - p)) (u8 (y - q)),
        Op.draw_pixel (u8 (x + q)) (u8 (y + p)),
        Op.draw_pixel (u8 (x - q)) (u8 (y + p)),
        Op.draw_pixel (u8 (x + q)) (u8 (y - p)),
        Op.draw_pixel (u8 (x - q)) (u8 (y - p)) ] := by
  intro op hop
  simp only [List.mem_cons, List.mem_singleton, List.not_mem_nil, or_false] at hop
  rcases hop with h | h | h | h | h | h | h | h
  · exact ⟨p, q, by omega, hp, by omega, hq, h, by simp, by simp⟩
  · exact ⟨-p, q, by omega, by omega, by omega, hq, by rw [h, sub_eq_add_neg],
      by simp [← sub_eq_add_neg], by simp [← sub_eq_add_neg]⟩
  · exact ⟨p, -q, by omega, hp, by omega, by omega, by rw [h, sub_eq_add_neg],
      by simp [← sub_eq_add_neg], by simp [← sub_eq_add_neg]⟩
  · exact ⟨-p, -q, by omega, by omega, by omega, by omega,
      by rw [h, sub_eq_add_neg, sub_eq_add_neg],
      by simp [← sub_eq_add_neg], by simp [← sub_eq_add_neg]⟩
  · exact ⟨q, p, by omega, hq, by omega, hp, h, by simp, by simp⟩
  · exact ⟨-q, p, by omega, by omega, by omega, hp, by rw [h, sub_eq_add_neg],
      by simp [← sub_eq_add_neg], by simp [← sub_eq_add_neg]⟩
  · exact ⟨q, -p, by omega, hq, by omega, by omega, by rw [h, sub_eq_add_neg],
      by simp [← sub_eq_add_neg], by simp [← sub_eq_add_neg]⟩
  · exact ⟨-q, -p, by omega, by omega, by omega, by omega,
      by rw [h, sub_eq_add_neg, sub_eq_add_neg],
      by simp [← sub_eq_add_neg], by simp [← sub_eq_add_neg]⟩

theorem draw_circle_loop_reflClosed (x y R : Int) (n : Nat) :
    ∀ f dx dy rx ry : Int, ry - rx ≤ n → 0 ≤ rx → ry ≤ R →
      ReflClosed x y R (draw_circle_loop x y f dx dy rx ry) := by
  induction n with
  | zero =>
    intro f dx dy rx ry hn _ _
    rw [draw_circle_loop, if_neg (by omega)]
    intro op hop
    exact absurd hop (List.not_mem_nil _)
  | succ n ih =>
    intro f dx dy rx ry hn h0 hR
    rw [draw_circle_loop]
    by_cases hlt : rx < ry
    · rw [if_pos hlt]
      have hry : ry - 1 ≤ (if f ≥ 0 then ry - 1 else ry) ∧ (if f ≥ 0 then ry - 1 else ry) ≤ ry := by
        split <;> omega
      refine ReflClosed.append ?_ ?_
      · exact reflClosed_octants x y R _ _ (by omega) (by omega) (by omega) (by omega)
      · exact ih _ _ _ _ _ (by push_cast at hn; omega) (by omega) (by omega)
    · rw [if_neg hlt]
      intro op hop
      exact absurd hop (List.not_mem_nil _)

theorem draw_circle_reflClosed (x y r : Nat) (hx : x ≤ 255) (hy : y ≤ 255) :
    ReflClosed x y r (draw_circle x y r) := by
  unfold draw_circle
  refine ReflClosed.append ?_ ?_
  · have h := reflClosed_octants x y r 0 r (le_refl _) (by omega) (by omega) (le_refl _)
    have ex : u8 (x : Int) = x := u8_natCast x (by omega)
    have ey : u8 (y : Int) = y := u8_natCast y (by omega)
    simp only [add_zero, sub_zero, ex, ey] at h
    intro op hop
    have hop2 : op ∈
        [ Op.draw_pixel x (u8 (y + r)), Op.draw_pixel x (u8 (y + r)),
          Op.draw_pixel x (u8 (y - r)), Op.draw_pixel x (u8 (y - r)),
          Op.draw_pixel (u8 (x + r)) y, Op.draw_pixel (u8 (x - r)) y,
          Op.draw_pixel (u8 (x + r)) y, Op.draw_pixel (u8 (x - r)) y ] := by
      simp only [List.mem_cons, List.mem_singleton, List.not_mem_nil, or_false] at hop ⊢
      tauto
    obtain ⟨a, b, ha1, ha2, hb1, hb2, e, m1, m2⟩ := h op hop2
    refine ⟨a, b, ha1, ha2, hb1, hb2, e, ?_, ?_⟩
    · simp only [List.mem_cons, List.mem_singleton, List.not_mem_nil, or_false] at m1 ⊢
      tauto
    · simp only [List.mem_cons, List.mem_singleton, List.not_mem_nil, or_false] at m2 ⊢
      tauto
  · exact draw_circle_loop_reflClosed x y r r _ _ _ _ _ (by omega) (le_refl _) (le_refl _)

theorem draw_circle_255_255_1 :
    draw_circle 255 255 1
      = [ Op.draw_pixel 255 0, Op.draw_pixel 255 254, Op.draw_pixel 0 255, Op.draw_pixel 254 255,
          Op.draw_pixel 0 255, Op.draw_pixel 254 255, Op.draw_pixel 0 255, Op.draw_pixel 254 255,
          Op.draw_pixel 255 0, Op.draw_pixel 255 0, Op.draw_pixel 255 254, Op.draw_pixel 255 254 ] := by
  simp [draw_circle, draw_circle_loop, u8, i16]

/-! ## `draw_rect` -/

theorem draw_rect_pixels_iff (x y w h : Nat) (hx : x + w ≤ 255) (hy : y + h ≤ 255) (a b : Nat) :
    (a, b) ∈ pixelsOf (draw_rect x y w h) ↔
      (b = y ∧ x ≤ a ∧ a < x + w) ∨ (a = x + w ∧ y ≤ b ∧ b < y + h) ∨
      (a = x ∧ y ≤ b ∧ b < y + h) ∨ (b = y + h ∧ x ≤ a ∧ a < x + w) := by
  have e1 : u8 ((x : Int) + w) = x + w := by unfold u8; omega
  have e2 : u8 ((y : Int) + h) = y + h := by unfold u8; omega
  simp only [pixelsOf, draw_rect, e1, e2, List.flatMap_cons, List.flatMap_nil, List.append_nil,
    List.mem_append, Op.pixels, List.mem_map, List.mem_range, Prod.mk.injEq]
  constructor
  · rintro (⟨k, hk, rfl, rfl⟩ | ⟨k, hk, rfl, rfl⟩ | ⟨k, hk, rfl, rfl⟩ | ⟨k, hk, rfl, rfl⟩)
    · exact Or.inl ⟨rfl, by omega, by omega⟩
    · exact Or.inr (Or.inl ⟨rfl, by omega, by omega⟩)
    · exact Or.inr (Or.inr (Or.inl ⟨rfl, by omega, by omega⟩))
    · exact Or.inr (Or.inr (Or.inr ⟨rfl, by omega, by omega⟩))
  · rintro (⟨rfl, h1, h2⟩ | ⟨rfl, h1, h2⟩ | ⟨rfl, h1, h2⟩ | ⟨rfl, h1, h2⟩)
    · exact Or.inl ⟨a - x, by omega, by omega, rfl⟩
    · exact Or.inr (Or.inl ⟨b - y, by omega, rfl, by omega⟩)
    · exact Or.inr (Or.inr (Or.inl ⟨b - y, by omega, rfl, by omega⟩))
    · exact Or.inr (Or.inr (Or.inr ⟨a - x, by omega, by omega, rfl⟩))

/-! ## `draw_bitmap` -/

theorem draw_bitmap_rows_eq (scale x y : Nat) (data : Nat → Nat) (height i b0 : Nat) (m : Nat) :
    ∀ j bp line : Nat, j + m = height → bp = b0 + (j + 7) / 8 →
      (j % 8 ≠ 0 → line = (data (b0 + j / 8) % 256) >>> (j % 8)) →
      draw_bitmap_rows scale x y data height i j bp line
        = ((List.range' j m).flatMap (fun r =>
              if (data (b0 + r / 8) % 256).testBit (r % 8) then [bitmap_op scale x y i r] else []),
            b0 + (height + 7) / 8) := by
  induction m with
  | zero =>
    intro j bp line hj hbp _
    rw [draw_bitmap_rows, if_neg (by omega)]
    simp only [List.range'_zero, List.flatMap_nil]
    rw [hbp]
    have : j = height := by omega
    rw [this]
  | succ m ih =>
    intro j bp line hj hbp hline
    have hand : j &&& 0x7 = j % 8 := Nat.and_pow_two_sub_one_eq_mod j 3
    have hl1 : (if j &&& 0x7 = 0 then data bp % 256 else line)
        = (data (b0 + j / 8) % 256) >>> (j % 8) := by
      rw [hand]
      by_cases h0 : j % 8 = 0
      · rw [if_pos h0, h0, Nat.shiftRight_zero, hbp]
        congr 3
        omega
      · rw [if_neg h0]
        exact hline h0
    have hb1 : (if j &&& 0x7 = 0 then bp + 1 else bp) = b0 + (j + 1 + 7) / 8 := by
      rw [hand, hbp]
      split <;> omega
    rw [draw_bitmap_rows, if_pos (by omega)]
    simp only [hl1, hb1]
    rw [ih (j + 1) _ _ (by omega) rfl ?_, List.range'_succ, List.flatMap_cons]
    · congr 2
      have ht : ((data (b0 + j / 8) % 256) >>> (j % 8) &&& 0x1 ≠ 0)
          ↔ (data (b0 + j / 8) % 256).testBit (j % 8) = true := by
        rw [Nat.testBit, Nat.and_comm]
        simp
      by_cases hb : (data (b0 + j / 8) % 256).testBit (j % 8) = true
      · rw [if_pos (ht.mpr hb), if_pos hb]
        unfold bitmap_op
        split <;> rfl
      · rw [if_neg (fun h => hb (ht.mp h)), if_neg hb]
    · intro h1
      have e1 : (j + 1) / 8 = j / 8 := by omega
      have e2 : (j + 1) % 8 = j % 8 + 1 := by omega
      rw [e1, e2, Nat.shiftRight_add]

/-- One column of `draw_bitmap` advances the read pointer by `ceil(height/8)` bytes. -/
theorem draw_bitmap_rows_reads (scale x y : Nat) (data : Nat → Nat) (height i bp : Nat) :
    (draw_bitmap_rows scale x y data height i 0 bp 0).2 = bp + (height + 7) / 8 := by
  rw [draw_bitmap_rows_eq scale x y data height i bp height 0 bp 0 (by omega) (by omega)
    (by omega)]

theorem draw_bitmap_cols_eq (scale x y : Nat) (data : Nat → Nat) (width height : Nat) (m : Nat) :
    ∀ i bp : Nat, i + m = width → bp = i * ((height + 7) / 8) →
      draw_bitmap_cols scale x y data width height i bp
        = (List.range' i m).flatMap (fun c => (List.range height).flatMap (fun r =>
            if bitmap_bit data height c r then [bitmap_op scale x y c r] else [])) := by
  induction m with
  | zero =>
    intro i bp hi _
    rw [draw_bitmap_cols, if_neg (by omega)]
    rfl
  | succ m ih =>
    intro i bp hi hbp
    rw [draw_bitmap_cols, if_pos (by omega)]
    simp only []
    rw [draw_bitmap_rows_eq scale x y data height i bp height 0 bp 0 (by omega) (by omega)
      (by omega)]
    simp only []
    rw [ih (i + 1) _ (by omega) (by rw [hbp]; ring), List.range'_succ, List.flatMap_cons,
      List.range_eq_range', hbp]
    rfl

theorem draw_bitmap_eq (scale x y : Nat) (data : Nat → Nat) (width height : Nat) :
    draw_bitmap scale x y data width height
      = (List.range width).flatMap (fun i => (List.range height).flatMap (fun j =>
          if bitmap_bit data height i j then [bitmap_op scale x y i j] else [])) := by
  unfold draw_bitmap
  rw [draw_bitmap_cols_eq scale x y data width height width 0 0 (by omega) (by omega),
    ← List.range_eq_range']

theorem nodup_flatMap_of_inj {α β : Type} {l : List α} {f : α → List β} (hl : l.Nodup)
    (hf : ∀ a ∈ l, (f a).Nodup)
    (hd : ∀ a ∈ l, ∀ b ∈ l, ∀ p, p ∈ f a → p ∈ f b → a = b) : (l.flatMap f).Nodup := by
  rw [List.nodup_flatMap]
  refine ⟨hf, hl.pairwise_of_forall_ne ?_⟩
  intro a ha b hb hne p hpa hpb
  exact hne (hd a ha b hb p hpa hpb)

theorem length_flatMap_const {α β : Type} (l : List α) (p : α → Bool) (f : α → List β) (c : Nat)
    (hf : ∀ a ∈ l, (f a).length = c) :
    (l.flatMap (fun a => if p a then f a else [])).length = c * l.countP p := by
  induction l with
  | nil => simp
  | cons a t ih =>
    have ht := ih (fun b hb => hf b (List.mem_cons_of_mem _ hb))
    have ha := hf a (List.mem_cons_self _ _)
    rw [List.flatMap_cons, List.length_append, ht, List.countP_cons]
    by_cases hp : p a = true
    · rw [if_pos hp, if_pos hp, ha]; ring
    · rw [if_neg hp, if_neg hp]; simp

theorem length_flatMap_sum {α β : Type} (l : List α) (g : α → List β) (c : Nat) (n : α → Nat)
    (hg : ∀ a ∈ l, (g a).length = c * n a) :
    (l.flatMap g).length = c * (l.map n).sum := by
  induction l with
  | nil => simp
  | cons a t ih =>
    have ht := ih (fun b hb => hg b (List.mem_cons_of_mem _ hb))
    rw [List.flatMap_cons, List.length_append, ht, hg a (List.mem_cons_self _ _), List.map_cons,
      List.sum_cons]
    ring

theorem mem_block (x0 y0 k a b : Nat) :
    (a, b) ∈ block x0 y0 k ↔ x0 ≤ a ∧ a < x0 + k ∧ y0 ≤ b ∧ b < y0 + k := by
  simp only [block, List.mem_flatMap, List.mem_map, List.mem_range, Prod.mk.injEq]
  constructor
  · rintro ⟨u, hu, v, hv, rfl, rfl⟩
    omega
  · rintro ⟨h1, h2, h3, h4⟩
    exact ⟨a - x0, by omega, b - y0, by omega, by omega, by omega⟩

theorem length_block (x0 y0 k : Nat) : (block x0 y0 k).length = k * k := by
  have h := length_flatMap_sum (List.range k)
    (fun a => (List.range k).map (fun b => (x0 + a, y0 + b))) k (fun _ => 1)
    (fun a _ => by simp)
  rw [block, h]
  simp

theorem nodup_block (x0 y0 k : Nat) : (block x0 y0 k).Nodup := by
  refine nodup_flatMap_of_inj (List.nodup_range k) ?_ ?_
  · intro a _
    refine List.Nodup.map ?_ (List.nodup_range k)
    intro u v huv
    simp only [Prod.mk.injEq] at huv
    omega
  · intro a _ b _ p hpa hpb
    simp only [List.mem_map, List.mem_range] at hpa hpb
    obtain ⟨u, _, rfl⟩ := hpa
    obtain ⟨v, _, hv⟩ := hpb
    simp only [Prod.mk.injEq] at hv
    omega

theorem bitmap_op_pixels (k x y i j : Nat) (hx : x + i * k < 256) (hy : y + j * k < 256) :
    (bitmap_op k x y i j).pixels = block (x + i * k) (y + j * k) k := by
  have e1 : u8 ((x : Int) + i * k) = x + i * k := by
    have := u8_natCast (x + i * k) hx
    push_cast at this
    exact this
  have e2 : u8 ((y : Int) + j * k) = y + j * k := by
    have := u8_natCast (y + j * k) hy
    push_cast at this
    exact this
  unfold bitmap_op
  by_cases hk : k = 1
  · subst hk
    rw [if_pos rfl]
    simp only [Nat.cast_one, mul_one] at e1 e2
    simp only [Op.pixels, e1, e2, block, Nat.mul_one]
    rfl
  · rw [if_neg hk]
    simp only [Op.pixels, e1, e2, block]

theorem block_index_unique (k i j t : Nat) (h1 : i * k ≤ t) (h2 : t < i * k + k)
    (h3 : j * k ≤ t) (h4 : t < j * k + k) : i = j := by
  have a : t / k = i := Nat.div_eq_of_lt_le h1 (by rw [Nat.add_mul, Nat.one_mul]; exact h2)
  have b : t / k = j := Nat.div_eq_of_lt_le h3 (by rw [Nat.add_mul, Nat.one_mul]; exact h4)
  omega

theorem scaled_origin_lt (k x i width : Nat) (hx : x ≤ 255) (hw : x + width * k ≤ 256)
    (hi : i < width) : x + i * k < 256 := by
  rcases Nat.eq_zero_or_pos k with hk | hk
  · subst hk
    omega
  · have h := Nat.mul_le_mul_right k (Nat.succ_le_of_lt hi)
    rw [Nat.succ_mul] at h
    omega

/-- The pixels set by `draw_bitmap` when no coordinate wraps: one block per set source pixel. -/
theorem pixelsOf_draw_bitmap (k x y : Nat) (data : Nat → Nat) (width height : Nat)
    (hx : x ≤ 255) (hy : y ≤ 255) (hw : x + width * k ≤ 256) (hh : y + height * k ≤ 256) :
    pixelsOf (draw_bitmap k x y data width height)
      = (List.range width).flatMap (fun i => (List.range height).flatMap (fun j =>
          if bitmap_bit data height i j then block (x + i * k) (y + j * k) k else [])) := by
  rw [pixelsOf, draw_bitmap_eq, List.flatMap_assoc]
  apply List.flatMap_congr
  intro i hi
  rw [List.mem_range] at hi
  rw [List.flatMap_assoc]
  apply List.flatMap_congr
  intro j hj
  rw [List.mem_range] at hj
  by_cases hb : bitmap_bit data height i j = true
  · rw [if_pos hb, if_pos hb, List.flatMap_cons, List.flatMap_nil, List.append_nil,
      bitmap_op_pixels k x y i j (scaled_origin_lt k x i width hx hw hi)
        (scaled_origin_lt k y j height hy hh hj)]
  · rw [if_neg hb, if_neg hb, List.flatMap_nil]

/-! ## `draw_char` -/

set_option maxRecDepth 100000

/-- The cursor and the fields `draw_char` leaves alone, after the call. -/
theorem draw_char_state (cfg : Config) (c : Int) (s : Canvas) :
    (draw_char cfg c s).1.m_pen_color = s.m_pen_color % 65536
    ∧ (draw_char cfg c s).1.m_text_color = s.m_text_color
    ∧ (draw_char cfg c s).1.m_scale = s.m_scale
    ∧ (draw_char cfg c s).1.m_x
        = (if u8 (s.m_x + s.m_scale * (FONT_WIDTH + cfg.CHAR_SPACING)) > cfg.SCREEN_WIDTH ∨ c = 10
            then 0 else u8 (s.m_x + s.m_scale * (FONT_WIDTH + cfg.CHAR_SPACING)))
    ∧ (draw_char cfg c s).1.m_y
        = (if u8 (s.m_x + s.m_scale * (FONT_WIDTH + cfg.CHAR_SPACING)) > cfg.SCREEN_WIDTH ∨ c = 10
            then
              (if u8 (s.m_y + s.m_scale * (FONT_HEIGHT + cfg.LINE_SPACING)) > cfg.SCREEN_HEIGHT
                then 0 else u8 (s.m_y + s.m_scale * (FONT_HEIGHT + cfg.LINE_SPACING)))
            else s.m_y) := by
  by_cases h : u8 (s.m_x + s.m_scale * (FONT_WIDTH + cfg.CHAR_SPACING)) > cfg.SCREEN_WIDTH ∨ c = 10
  · simp only [draw_char, if_pos h]
    exact ⟨trivial, trivial, trivial, trivial, trivial⟩
  · simp only [draw_char, if_neg h]
    exact ⟨trivial, trivial, trivial, trivial, trivial⟩

theorem draw_char_ops (cfg : Config) (c : Int) (s : Canvas) :
    (draw_char cfg c s).2
      = if c ≥ 32 then
          (draw_bitmap s.m_scale s.m_x s.m_y (fun n => s.m_font ((c * FONT_WIDTH).toNat + n))
            FONT_WIDTH FONT_HEIGHT).map (fun op => (s.m_text_color, op))
        else [] := by
  unfold draw_char
  rfl

theorem draw_bitmap_congr (k x y : Nat) (data data2 : Nat → Nat) (width height : Nat)
    (h : ∀ n, n < width * ((height + 7) / 8) → data n = data2 n) :
    draw_bitmap k x y data width height = draw_bitmap k x y data2 width height := by
  rw [draw_bitmap_eq, draw_bitmap_eq]
  apply List.flatMap_congr
  intro i hi
  rw [List.mem_range] at hi
  apply List.flatMap_congr
  intro j hj
  rw [List.mem_range] at hj
  have hb : bitmap_bit data height i j = bitmap_bit data2 height i j := by
    unfold bitmap_bit
    rw [h]
    have h1 : j / 8 < (height + 7) / 8 := by omega
    have h2 := Nat.mul_le_mul_right ((height + 7) / 8) (Nat.succ_le_of_lt hi)
    rw [Nat.succ_mul] at h2
    omega
  rw [hb]

theorem draw_bitmap_blank (k x y : Nat) (data : Nat → Nat) (width height : Nat)
    (h : ∀ n, n < width * ((height + 7) / 8) → data n = 0) :
    draw_bitmap k x y data width height = [] := by
  rw [draw_bitmap_congr k x y data (fun _ => 0) width height h, draw_bitmap_eq]
  rw [List.flatMap_eq_nil_iff]
  intro i _
  rw [List.flatMap_eq_nil_iff]
  intro j _
  have hb : bitmap_bit (fun _ => 0) height i j = false := by
    unfold bitmap_bit
    simp
  rw [hb]
  rfl

theorem u8_natCast_mod (n : Nat) : u8 (n : Int) = n % 256 := by
  unfold u8; omega

/-- The cursor after `draw_char`, in natural-number arithmetic. -/
theorem draw_char_cursor (cfg : Config) (c : Int) (s : Canvas) :
    (draw_char cfg c s).1.m_x
        = (if (s.m_x + s.m_scale * (5 + cfg.CHAR_SPACING)) % 256 > cfg.SCREEN_WIDTH ∨ c = 10
            then 0 else (s.m_x + s.m_scale * (5 + cfg.CHAR_SPACING)) % 256)
    ∧ (draw_char cfg c s).1.m_y
        = (if (s.m_x + s.m_scale * (5 + cfg.CHAR_SPACING)) % 256 > cfg.SCREEN_WIDTH ∨ c = 10
            then
              (if (s.m_y + s.m_scale * (7 + cfg.LINE_SPACING)) % 256 > cfg.SCREEN_HEIGHT
                then 0 else (s.m_y + s.m_scale * (7 + cfg.LINE_SPACING)) % 256)
            else s.m_y) := by
  obtain ⟨_, _, _, hx, hy⟩ := draw_char_state cfg c s
  have ex : u8 ((s.m_x : Int) + s.m_scale * (FONT_WIDTH + cfg.CHAR_SPACING))
      = (s.m_x + s.m_scale * (5 + cfg.CHAR_SPACING)) % 256 := by
    rw [← u8_natCast_mod]; unfold FONT_WIDTH; push_cast; rfl
  have ey : u8 ((s.m_y : Int) + s.m_scale * (FONT_HEIGHT + cfg.LINE_SPACING))
      = (s.m_y + s.m_scale * (7 + cfg.LINE_SPACING)) % 256 := by
    rw [← u8_natCast_mod]; unfold FONT_HEIGHT; push_cast; rfl
  rw [ex] at hx hy
  rw [ey] at hy
  exact ⟨hx, hy⟩

theorem draw_char_no_ops (cfg : Config) (c : Int) (s : Canvas) (hc : c < 32) :
    (draw_char cfg c s).2 = [] := by
  rw [draw_char_ops, if_neg (by omega)]

/-- The cursor after `draw_char` of a newline. -/
theorem newline_step (cfg : Config) (s : Canvas) :
    (draw_char cfg 10 s).2 = []
    ∧ (draw_char cfg 10 s).1.m_x = 0
    ∧ (draw_char cfg 10 s).1.m_y
        = (if (s.m_y + s.m_scale * (7 + cfg.LINE_SPACING)) % 256 > cfg.SCREEN_HEIGHT then 0
            else (s.m_y + s.m_scale * (7 + cfg.LINE_SPACING)) % 256)
    ∧ (s.m_y + s.m_scale * (7 + cfg.LINE_SPACING) ≤ 255 →
        (draw_char cfg 10 s).1.m_y
          = (if s.m_y + s.m_scale * (7 + cfg.LINE_SPACING) > cfg.SCREEN_HEIGHT then 0
              else s.m_y + s.m_scale * (7 + cfg.LINE_SPACING))) := by
  obtain ⟨hx, hy⟩ := draw_char_cursor cfg 10 s
  rw [if_pos (Or.inr rfl)] at hx hy
  refine ⟨draw_char_no_ops cfg 10 s (by decide), hx, hy, ?_⟩
  intro hle
  rw [hy, Nat.mod_eq_of_lt (by omega)]

theorem draw_newlines_succ (cfg : Config) (n : Nat) (s : Canvas) :
    draw_newlines cfg (n + 1) s = draw_newlines cfg n (draw_char cfg 10 s).1 := rfl

theorem newlines_reach_zero (cfg : Config) (m : Nat) :
    ∀ s : Canvas, cfg.SCREEN_HEIGHT - s.m_y ≤ m → s.m_y ≤ cfg.SCREEN_HEIGHT → 1 ≤ s.m_scale →
      cfg.SCREEN_HEIGHT + s.m_scale * (7 + cfg.LINE_SPACING) ≤ 255 →
      ∃ n, 1 ≤ n
        ∧ (∀ k, k < n → (draw_newlines cfg k s).m_y = s.m_y + k * (s.m_scale * (7 + cfg.LINE_SPACING))
            ∧ s.m_y + k * (s.m_scale * (7 + cfg.LINE_SPACING)) ≤ cfg.SCREEN_HEIGHT)
        ∧ s.m_y + n * (s.m_scale * (7 + cfg.LINE_SPACING)) > cfg.SCREEN_HEIGHT
        ∧ (draw_newlines cfg n s).m_y = 0 := by
  induction m with
  | zero =>
    intro s hm hy hs hov
    have ha : 1 ≤ s.m_scale * (7 + cfg.LINE_SPACING) := Nat.mul_pos hs (by omega)
    refine ⟨1, le_refl _, ?_, by omega, ?_⟩
    · intro k hk
      have : k = 0 := by omega
      subst this
      exact ⟨by rw [Nat.zero_mul]; rfl, by omega⟩
    · rw [draw_newlines_succ]
      show (draw_char cfg 10 s).1.m_y = 0
      rw [((newline_step cfg s).2.2.2 (by omega)), if_pos (by omega)]
  | succ m ih =>
    intro s hm hy hs hov
    have ha : 1 ≤ s.m_scale * (7 + cfg.LINE_SPACING) := Nat.mul_pos hs (by omega)
    have hstep := (newline_step cfg s).2.2.2 (by omega)
    by_cases hex : s.m_y + s.m_scale * (7 + cfg.LINE_SPACING) > cfg.SCREEN_HEIGHT
    · rw [if_pos hex] at hstep
      refine ⟨1, le_refl _, ?_, by omega, ?_⟩
      · intro k hk
        have : k = 0 := by omega
        subst this
        exact ⟨by rw [Nat.zero_mul]; rfl, by omega⟩
      · rw [draw_newlines_succ]
        exact hstep
    · rw [if_neg hex] at hstep
      have hsc : (draw_char cfg 10 s).1.m_scale = s.m_scale := (draw_char_state cfg 10 s).2.2.1
      obtain ⟨n, hn1, hk, hgt, hz⟩ := ih (draw_char cfg 10 s).1 (by rw [hstep]; omega)
        (by rw [hstep]; omega) (by rw [hsc]; exact hs) (by rw [hsc]; exact hov)
      rw [hsc, hstep] at hk hgt
      refine ⟨n + 1, by omega, ?_, ?_, ?_⟩
      · intro k hk2
        rcases Nat.eq_zero_or_pos k with h0 | h0
        · subst h0
          exact ⟨by rw [Nat.zero_mul]; rfl, by omega⟩
        · obtain ⟨j, rfl⟩ : ∃ j, k = j + 1 := ⟨k - 1, by omega⟩
          have := hk j (by omega)
          rw [draw_newlines_succ, Nat.succ_mul]
          constructor
          · rw [this.1]; omega
          · omega
      · rw [Nat.succ_mul]; omega
      · rw [draw_newlines_succ]
        exact hz

theorem newlines_stuck (n : Nat) :
    ∀ s : Canvas, s.m_scale = 128 → (s.m_y = 1 ∨ s.m_y = 129) →
      (draw_newlines ⟨128, 160, 1, 2⟩ n s).m_y = 1 ∨ (draw_newlines ⟨128, 160, 1, 2⟩ n s).m_y = 129 := by
  induction n with
  | zero =>
    intro s _ h
    exact h
  | succ n ih =>
    intro s hs hy
    rw [draw_newlines_succ]
    have hsc : (draw_char ⟨128, 160, 1, 2⟩ 10 s).1.m_scale = s.m_scale :=
      (draw_char_state _ 10 s).2.2.1
    have hstep := (newline_step ⟨128, 160, 1, 2⟩ s).2.2.1
    apply ih _ (by rw [hsc]; exact hs)
    rw [hstep, hs]
    rcases hy with h | h <;> rw [h] <;> decide

/-! ## `Rotary::Dail` -/

theorem Dail.run_invariant (events : List (Nat × Nat)) :
    ∀ d : Dail, -32768 ≤ d.m_min → d.m_max ≤ 32767 → d.m_min ≤ d.m_value → d.m_value ≤ d.m_max →
      (d.run events).m_min = d.m_min ∧ (d.run events).m_max = d.m_max ∧
      d.m_min ≤ (d.run events).m_value ∧ (d.run events).m_value ≤ d.m_max := by
  induction events with
  | nil =>
    intro d _ _ h1 h2
    exact ⟨rfl, rfl, h1, h2⟩
  | cons e t ih =>
    intro d hmin hmax h1 h2
    have hstep : (d.on_event e.1 e.2).1.m_min = d.m_min ∧ (d.on_event e.1 e.2).1.m_max = d.m_max ∧
        d.m_min ≤ (d.on_event e.1 e.2).1.m_value ∧ (d.on_event e.1 e.2).1.m_value ≤ d.m_max := by
      unfold Dail.on_event
      by_cases hv : e.2 = CW
      · rw [if_pos hv]
        by_cases hm : d.m_value = d.m_max
        · rw [if_pos hm]
          exact ⟨rfl, rfl, h1, h2⟩
        · rw [if_neg hm]
          refine ⟨rfl, rfl, ?_, ?_⟩
          · show d.m_min ≤ i16 (d.m_value + 1)
            rw [i16_of_range (by omega) (by omega)]; omega
          · show i16 (d.m_value + 1) ≤ d.m_max
            rw [i16_of_range (by omega) (by omega)]; omega
      · rw [if_neg hv]
        by_cases hm : d.m_value = d.m_min
        · rw [if_pos hm]
          exact ⟨rfl, rfl, h1, h2⟩
        · rw [if_neg hm]
          refine ⟨rfl, rfl, ?_, ?_⟩
          · show d.m_min ≤ i16 (d.m_value - 1)
            rw [i16_of_range (by omega) (by omega)]; omega
          · show i16 (d.m_value - 1) ≤ d.m_max
            rw [i16_of_range (by omega) (by omega)]; omega
    obtain ⟨e1, e2, e3, e4⟩ := hstep
    have := ih (d.on_event e.1 e.2).1 (by rw [e1]; exact hmin) (by rw [e2]; exact hmax)
      (by rw [e1]; exact e3) (by rw [e2]; exact e4)
    rw [e1, e2] at this
    exact this

/-! ## The circle recurrence -/

theorem draw_circle_loop_eq_states (x y : Int) (n : Nat) :
    ∀ f dx dy rx ry : Int, ry - rx ≤ n →
      draw_circle_loop x y f dx dy rx ry
        = (draw_circle_states f dx dy rx ry).flatMap (fun s => octant_pixels x y s.rx s.ry) := by
  induction n with
  | zero =>
    intro f dx dy rx ry hn
    rw [draw_circle_loop, draw_circle_states, if_neg (by omega), if_neg (by omega)]
    rfl
  | succ n ih =>
    intro f dx dy rx ry hn
    rw [draw_circle_loop, draw_circle_states]
    by_cases hlt : rx < ry
    · rw [if_pos hlt, if_pos hlt]
      simp only [List.flatMap_cons]
      rw [ih _ _ _ _ _ (by push_cast at hn; split <;> omega)]
      rfl
    · rw [if_neg hlt, if_neg hlt]
      rfl

theorem fill_circle_loop_eq_states (x y : Int) (n : Nat) :
    ∀ f dx dy rx ry : Int, ry - rx ≤ n →
      fill_circle_loop x y f dx dy rx ry
        = (fill_circle_states f dx dy rx ry).flatMap (fun s => fill_spans x y s.rx s.ry) := by
  induction n with
  | zero =>
    intro f dx dy rx ry hn
    rw [fill_circle_loop, fill_circle_states, if_neg (by omega), if_neg (by omega)]
    rfl
  | succ n ih =>
    intro f dx dy rx ry hn
    rw [fill_circle_loop, fill_circle_states]
    by_cases hlt : rx < ry
    · rw [if_pos hlt, if_pos hlt]
      simp only [List.flatMap_cons]
      rw [ih _ _ _ _ _ (by push_cast at hn; split <;> omega)]
      rfl
    · rw [if_neg hlt, if_neg hlt]
      rfl

theorem fill_states_eq_draw_states (n : Nat) :
    ∀ f dx dy rx ry : Int, ry - rx ≤ n →
      fill_circle_states f dx dy rx ry = draw_circle_states f dx dy rx ry := by
  induction n with
  | zero =>
    intro f dx dy rx ry hn
    rw [fill_circle_states, draw_circle_states, if_neg (by omega), if_neg (by omega)]
  | succ n ih =>
    intro f dx dy rx ry hn
    rw [fill_circle_states, draw_circle_states]
    by_cases hlt : rx < ry
    · rw [if_pos hlt, if_pos hlt]
      simp only []
      rw [ih _ _ _ _ _ (by push_cast at hn; split <;> omega)]
    · rw [if_neg hlt, if_neg hlt]

theorem circleInv_init (r : Int) (hr : 0 ≤ r) : CircleInv r (circle_init r) := by
  unfold CircleInv circle_init
  dsimp only
  refine ⟨by omega, by omega, by omega, hr, le_refl _, by omega, hr, by omega, by omega,
    by omega, ?_⟩
  ring

theorem circleInv_step (r : Int) (s : CircleState) (h : CircleInv r s) (hlt : s.rx < s.ry) :
    CircleInv r (midpoint_step s) := by
  obtain ⟨h1, h2, h3, h4, h5, h6, h6b, h7, h8, h9, h10⟩ := h
  unfold CircleInv midpoint_step
  by_cases hf : s.f ≥ 0
  · simp only [hf, if_true]
    refine ⟨by omega, by omega, by omega, by omega, by omega, by omega, by omega, by omega,
      by omega, by omega, ?_⟩
    rw [h1, h2, h10]; ring
  · simp only [hf, if_false]
    refine ⟨by omega, by omega, by omega, by omega, by omega, by omega, by omega, by omega,
      by omega, by omega, ?_⟩
    rw [h1, h10]; ring

theorem draw_states_eq_midpoint (r : Int) (hr : r ≤ 255) (n : Nat) :
    ∀ s : CircleState, s.ry - s.rx ≤ n → CircleInv r s →
      draw_circle_states s.f s.dx s.dy s.rx s.ry = midpoint_states s := by
  induction n with
  | zero =>
    intro s hn _
    rw [draw_circle_states, midpoint_states, if_neg (by omega), if_neg (by omega)]
  | succ n ih =>
    intro s hn hinv
    rw [draw_circle_states, midpoint_states]
    by_cases hlt : s.rx < s.ry
    · rw [if_pos hlt, if_pos hlt]
      have hinv2 := circleInv_step r s hinv hlt
      obtain ⟨h1, h2, h3, h4, h5, h6, h6b, h7, h8, h9, _⟩ := hinv
      have hstep : (⟨i16 ((if s.f ≥ 0 then i16 (s.f + (if s.f ≥ 0 then i16 (s.dy + 2) else s.dy)) else s.f)
            + i16 (s.dx + 2)), i16 (s.dx + 2), (if s.f ≥ 0 then i16 (s.dy + 2) else s.dy),
            s.rx + 1, (if s.f ≥ 0 then s.ry - 1 else s.ry)⟩ : CircleState) = midpoint_step s := by
        unfold midpoint_step
        have e1 : i16 (s.dx + 2) = s.dx + 2 := i16_of_range (by omega) (by omega)
        have e2 : i16 (s.dy + 2) = s.dy + 2 := i16_of_range (by omega) (by omega)
        by_cases hf : s.f ≥ 0
        · simp only [hf, if_true, e1, e2]
          rw [i16_of_range (v := s.f + (s.dy + 2)) (by omega) (by omega),
            i16_of_range (v := s.f + (s.dy + 2) + (s.dx + 2)) (by omega) (by omega)]
        · simp only [hf, if_false, e1]
          rw [i16_of_range (v := s.f + (s.dx + 2)) (by omega) (by omega)]
      have e_f := congrArg CircleState.f hstep
      have e_dx := congrArg CircleState.dx hstep
      have e_dy := congrArg CircleState.dy hstep
      have e_rx := congrArg CircleState.rx hstep
      have e_ry := congrArg CircleState.ry hstep
      dsimp only at e_f e_dx e_dy e_rx e_ry
      simp only []
      rw [hstep, e_f, e_dx, e_dy, e_rx, e_ry]
      have hn2 : (midpoint_step s).ry - (midpoint_step s).rx ≤ n := by
        unfold midpoint_step
        simp only []
        push_cast at hn
        split <;> omega
      rw [← ih (midpoint_step s) hn2 hinv2]
    · rw [if_neg hlt, if_neg hlt]

theorem midpoint_states_inv (r : Int) (n : Nat) :
    ∀ s : CircleState, s.ry - s.rx ≤ n → CircleInv r s →
      ∀ t ∈ midpoint_states s, CircleInv r t := by
  induction n with
  | zero =>
    intro s hn _ t ht
    rw [midpoint_states, if_neg (by omega)] at ht
    exact absurd ht (List.not_mem_nil _)
  | succ n ih =>
    intro s hn hinv t ht
    rw [midpoint_states] at ht
    by_cases hlt : s.rx < s.ry
    · rw [if_pos hlt] at ht
      have hinv2 := circleInv_step r s hinv hlt
      have hn2 : (midpoint_step s).ry - (midpoint_step s).rx ≤ n := by
        unfold midpoint_step
        simp only []
        push_cast at hn
        split <;> omega
      rcases List.mem_cons.mp ht with rfl | h
      · exact hinv2
      · exact ih _ hn2 hinv2 t h
    · rw [if_neg hlt] at ht
      exact absurd ht (List.not_mem_nil _)

theorem circleInv_of_mem_midpoint (r : Int) (hr : 0 ≤ r) :
    ∀ t ∈ circle_init r :: midpoint_states (circle_init r), CircleInv r t := by
  intro t ht
  rcases List.mem_cons.mp ht with rfl | h
  · exact circleInv_init r hr
  · exact midpoint_states_inv r _ (circle_init r) (Int.self_le_toNat _) (circleInv_init r hr) t h

theorem code_init_eq (r : Nat) (hr : r ≤ 255) :
    (⟨i16 (1 - r), 1, i16 (-2 * r), 0, r⟩ : CircleState) = circle_init r := by
  unfold circle_init
  rw [i16_of_range (by omega) (by omega), i16_of_range (by omega) (by omega)]

theorem draw_circle_trace_eq (r : Nat) (hr : r ≤ 255) :
    draw_circle_trace r = circle_init r :: midpoint_states (circle_init r) := by
  unfold draw_circle_trace
  rw [code_init_eq r hr]
  have h := draw_states_eq_midpoint r (by omega) _ (circle_init r) (Int.self_le_toNat _)
    (circleInv_init r (by omega))
  have e1 : i16 (1 - (r : Int)) = (circle_init r).f := by
    rw [i16_of_range (by omega) (by omega)]; rfl
  have e2 : i16 (-2 * (r : Int)) = (circle_init r).dy := by
    rw [i16_of_range (by omega) (by omega)]; rfl
  rw [e1, e2]
  exact congrArg _ h

theorem fill_circle_trace_eq_draw (r : Nat) : fill_circle_trace r = draw_circle_trace r := by
  unfold fill_circle_trace draw_circle_trace
  rw [fill_states_eq_draw_states _ _ _ _ _ _ (Int.self_le_toNat _)]

theorem draw_circle_eq_trace (x y r : Nat) :
    draw_circle x y r
      = [ Op.draw_pixel x (u8 (y + r)), Op.draw_pixel x (u8 (y - r)),
          Op.draw_pixel (u8 (x + r)) y, Op.draw_pixel (u8 (x - r)) y ]
        ++ (draw_circle_trace r).tail.flatMap (fun s => octant_pixels x y s.rx s.ry) := by
  unfold draw_circle draw_circle_trace
  simp only [List.tail_cons]
  rw [draw_circle_loop_eq_states x y _ _ _ _ _ _ (Int.self_le_toNat _)]

theorem fill_circle_eq_trace (x y r : Nat) :
    fill_circle x y r
      = Op.draw_vertical_line x (u8 (y - r)) (u8 (2 * r + 1))
        :: (fill_circle_trace r).tail.flatMap (fun s => fill_spans x y s.rx s.ry) := by
  unfold fill_circle fill_circle_trace
  simp only [List.tail_cons]
  rw [fill_circle_loop_eq_states x y _ _ _ _ _ _ (Int.self_le_toNat _)]

theorem midpoint_states_chain (n : Nat) :
    ∀ s : CircleState, s.ry - s.rx ≤ n → List.Chain circleStep s (midpoint_states s) := by
  induction n with
  | zero =>
    intro s hn
    rw [midpoint_states, if_neg (by omega)]
    exact List.Chain.nil
  | succ n ih =>
    intro s hn
    rw [midpoint_states]
    by_cases hlt : s.rx < s.ry
    · rw [if_pos hlt]
      have hst : circleStep s (midpoint_step s) := by
        unfold circleStep midpoint_step
        dsimp only
        refine ⟨rfl, ?_⟩
        split
        · exact Or.inr rfl
        · exact Or.inl rfl
      refine List.Chain.cons hst (ih _ ?_)
      obtain ⟨h1, h2⟩ := hst
      push_cast at hn
      omega
    · rw [if_neg hlt]
      exact List.Chain.nil

theorem midpoint_states_length (n : Nat) :
    ∀ s : CircleState, s.ry - s.rx ≤ n → (midpoint_states s).length ≤ n := by
  induction n with
  | zero =>
    intro s hn
    rw [midpoint_states, if_neg (by omega)]
    exact Nat.le_refl _
  | succ n ih =>
    intro s hn
    rw [midpoint_states]
    by_cases hlt : s.rx < s.ry
    · rw [if_pos hlt, List.length_cons]
      have hn2 : (midpoint_step s).ry - (midpoint_step s).rx ≤ n := by
        unfold midpoint_step
        dsimp only
        push_cast at hn
        split <;> omega
      have := ih _ hn2
      omega
    · rw [if_neg hlt]
      exact Nat.zero_le _

theorem midpoint_states_exit (n : Nat) :
    ∀ s : CircleState, s.ry - s.rx ≤ n → s.rx ≤ s.ry + 1 →
      ∀ e, (s :: midpoint_states s).getLast? = some e →
        e.ry ≤ e.rx ∧ (e.rx - e.ry = 0 ∨ e.rx - e.ry = 1) := by
  induction n with
  | zero =>
    intro s hn h1 e he
    rw [midpoint_states, if_neg (by omega)] at he
    simp only [List.getLast?_singleton, Option.some.injEq] at he
    subst he
    omega
  | succ n ih =>
    intro s hn h1 e he
    rw [midpoint_states] at he
    by_cases hlt : s.rx < s.ry
    · rw [if_pos hlt, List.getLast?_cons_cons] at he
      have hb : (midpoint_step s).ry - (midpoint_step s).rx ≤ n
          ∧ (midpoint_step s).rx ≤ (midpoint_step s).ry + 1 := by
        unfold midpoint_step
        dsimp only
        push_cast at hn
        split <;> omega
      exact ih _ hb.1 hb.2 e he
    · rw [if_neg hlt] at he
      simp only [List.getLast?_singleton, Option.some.injEq] at he
      subst he
      omega

theorem offsets8_sq (rx ry : Int) (p : Int × Int) (hp : p ∈ circle_offsets8 rx ry) :
    p.1 * p.1 + p.2 * p.2 = rx * rx + ry * ry := by
  simp only [circle_offsets8, List.mem_cons, List.mem_singleton, List.not_mem_nil, or_false] at hp
  rcases hp with h | h | h | h | h | h | h | h <;> rw [h] <;> dsimp only <;> ring

theorem draw_circle_eq_offsets (x y r : Nat) (hx : x ≤ 255) (hy : y ≤ 255) :
    draw_circle x y r
      = (draw_circle_offsets r).map (fun p => Op.draw_pixel (u8 (x + p.1)) (u8 (y + p.2))) := by
  rw [draw_circle_eq_trace, draw_circle_offsets, List.map_append, List.map_flatMap]
  have ex : u8 ((x : Int) + 0) = x := by rw [add_zero]; exact u8_natCast x (by omega)
  have ey : u8 ((y : Int) + 0) = y := by rw [add_zero]; exact u8_natCast y (by omega)
  congr 1
  simp only [List.map_cons, List.map_nil, ex, ey, ← sub_eq_add_neg]


theorem circleInv_of_mem_trace (r : Nat) (hr : r ≤ 255) :
    ∀ s ∈ draw_circle_trace r, CircleInv r s := by
  intro s hs
  rw [draw_circle_trace_eq r hr] at hs
  exact circleInv_of_mem_midpoint r (by omega) s hs

theorem u8_of_nonneg (v : Int) (h : 0 ≤ v) : u8 v = v.toNat % 256 := by
  unfold u8
  omega

theorem u8_of_small (v : Int) (h : 0 ≤ v) (h2 : v ≤ 255) : u8 v = v.toNat := by
  unfold u8
  omega

theorem fill_spans_lengths (x y : Int) (s : CircleState) (h1 : 0 ≤ s.rx) (h2 : 0 ≤ s.ry) :
    fill_spans x y s.rx s.ry
      = [ Op.draw_vertical_line (u8 (x + s.rx)) (u8 (y - s.ry)) ((2 * s.ry + 1).toNat % 256),
          Op.draw_vertical_line (u8 (x - s.rx)) (u8 (y - s.ry)) ((2 * s.ry + 1).toNat % 256),
          Op.draw_vertical_line (u8 (x + s.ry)) (u8 (y - s.rx)) ((2 * s.rx + 1).toNat % 256),
          Op.draw_vertical_line (u8 (x - s.ry)) (u8 (y - s.rx)) ((2 * s.rx + 1).toNat % 256) ] := by
  unfold fill_spans
  rw [u8_of_nonneg (2 * s.ry + 1) (by omega), u8_of_nonneg (2 * s.rx + 1) (by omega)]

theorem fill_spans_lengths_small (x y : Int) (s : CircleState) (h1 : 0 ≤ s.rx) (h2 : 0 ≤ s.ry)
    (h3 : s.rx ≤ 127) (h4 : s.ry ≤ 127) :
    fill_spans x y s.rx s.ry
      = [ Op.draw_vertical_line (u8 (x + s.rx)) (u8 (y - s.ry)) (2 * s.ry + 1).toNat,
          Op.draw_vertical_line (u8 (x - s.rx)) (u8 (y - s.ry)) (2 * s.ry + 1).toNat,
          Op.draw_vertical_line (u8 (x + s.ry)) (u8 (y - s.rx)) (2 * s.rx + 1).toNat,
          Op.draw_vertical_line (u8 (x - s.ry)) (u8 (y - s.rx)) (2 * s.rx + 1).toNat ] := by
  unfold fill_spans
  rw [u8_of_small (2 * s.ry + 1) (by omega) (by omega),
    u8_of_small (2 * s.rx + 1) (by omega) (by omega)]

theorem fill_circle_128_head : (fill_circle 0 0 128).head? = some (Op.draw_vertical_line 0 128 1) := by
  unfold fill_circle
  rfl

/-! ## The ring of a circle -/

theorem adjacent8_intro (p q : Int × Int) (h1 : -1 ≤ p.1 - q.1) (h2 : p.1 - q.1 ≤ 1)
    (h3 : -1 ≤ p.2 - q.2) (h4 : p.2 - q.2 ≤ 1) : adjacent8 p q :=
  ⟨abs_le.2 ⟨h1, h2⟩, abs_le.2 ⟨h3, h4⟩⟩

theorem ring_of_chain (A : List (Int × Int)) (a0 e : Int × Int) (hh : A.head? = some a0)
    (hl : A.getLast? = some e) (hc : List.Chain' arcStep A) (h0 : a0.1 = 0)
    (he : e.1 - e.2 = 0 ∨ e.1 - e.2 = 1) :
    List.Chain' adjacent8 (ring_of A) := by
  have c1 : List.Chain' adjacent8 A := by
    refine hc.imp ?_
    rintro a b ⟨h1, h2⟩
    apply adjacent8_intro <;> omega
  have c2 : List.Chain' adjacent8 (A.map (fun p => (p.2, p.1))).reverse := by
    refine List.chain'_reverse.2 (List.chain'_map_of_chain' _ ?_ hc)
    rintro a b ⟨h1, h2⟩
    apply adjacent8_intro <;> dsimp only <;> omega
  have c3 : List.Chain' adjacent8 (A.map (fun p => (p.2, -p.1))) := by
    refine List.chain'_map_of_chain' _ ?_ hc
    rintro a b ⟨h1, h2⟩
    apply adjacent8_intro <;> dsimp only <;> omega
  have c4 : List.Chain' adjacent8 (A.map (fun p => (p.1, -p.2))).reverse := by
    refine List.chain'_reverse.2 (List.chain'_map_of_chain' _ ?_ hc)
    rintro a b ⟨h1, h2⟩
    apply adjacent8_intro <;> dsimp only <;> omega
  have c5 : List.Chain' adjacent8 (A.map (fun p => (-p.1, -p.2))) := by
    refine List.chain'_map_of_chain' _ ?_ hc
    rintro a b ⟨h1, h2⟩
    apply adjacent8_intro <;> dsimp only <;> omega
  have c6 : List.Chain' adjacent8 (A.map (fun p => (-p.2, -p.1))).reverse := by
    refine List.chain'_reverse.2 (List.chain'_map_of_chain' _ ?_ hc)
    rintro a b ⟨h1, h2⟩
    apply adjacent8_intro <;> dsimp only <;> omega
  have c7 : List.Chain' adjacent8 (A.map (fun p => (-p.2, p.1))) := by
    refine List.chain'_map_of_chain' _ ?_ hc
    rintro a b ⟨h1, h2⟩
    apply adjacent8_intro <;> dsimp only <;> omega
  have c8 : List.Chain' adjacent8 (A.map (fun p => (-p.1, p.2))).reverse := by
    refine List.chain'_reverse.2 (List.chain'_map_of_chain' _ ?_ hc)
    rintro a b ⟨h1, h2⟩
    apply adjacent8_intro <;> dsimp only <;> omega
  unfold ring_of
  refine List.Chain'.append (List.Chain'.append (List.Chain'.append (List.Chain'.append
    (List.Chain'.append (List.Chain'.append (List.Chain'.append c1 c2 ?_) c3 ?_) c4 ?_) c5 ?_)
    c6 ?_) c7 ?_) c8 ?_
  all_goals
    simp only [List.getLast?_append, List.getLast?_reverse, List.getLast?_map,
      List.head?_reverse, List.head?_map, hh, hl, Option.map_some', Option.or_some,
      Option.mem_def, Option.some.injEq]
    intro u hu v hv
    subst hu
    subst hv
    apply adjacent8_intro <;> dsimp only <;> omega

theorem ring_of_closed (A : List (Int × Int)) (a0 : Int × Int) (hh : A.head? = some a0)
    (h0 : a0.1 = 0) :
    (ring_of A).head? = some a0 ∧ (ring_of A).getLast? = some a0 := by
  unfold ring_of
  simp only [List.getLast?_append, List.getLast?_reverse, List.getLast?_map,
    List.head?_append, List.head?_reverse, List.head?_map, hh, Option.map_some',
    Option.or_some, true_and]
  have : (-a0.1, a0.2) = a0 := Prod.ext (by show -a0.1 = a0.1; omega) rfl
  rw [this]

theorem mem_ring_of (A : List (Int × Int)) (p : Int × Int) :
    p ∈ ring_of A ↔ ∃ q ∈ A, p ∈ circle_offsets8 q.1 q.2 := by
  simp only [ring_of, circle_offsets8, List.mem_append, List.mem_reverse, List.mem_map,
    List.mem_cons, List.mem_singleton, List.not_mem_nil, or_false]
  constructor
  · rintro (((((((h | ⟨q, hq, rfl⟩) | ⟨q, hq, rfl⟩) | ⟨q, hq, rfl⟩) | ⟨q, hq, rfl⟩)
      | ⟨q, hq, rfl⟩) | ⟨q, hq, rfl⟩) | ⟨q, hq, rfl⟩)
    · exact ⟨p, h, Or.inl rfl⟩
    · exact ⟨q, hq, Or.inr (Or.inr (Or.inr (Or.inr (Or.inl rfl))))⟩
    · exact ⟨q, hq, Or.inr (Or.inr (Or.inr (Or.inr (Or.inr (Or.inr (Or.inl rfl))))))⟩
    · exact ⟨q, hq, Or.inr (Or.inr (Or.inl rfl))⟩
    · exact ⟨q, hq, Or.inr (Or.inr (Or.inr (Or.inl rfl)))⟩
    · exact ⟨q, hq, Or.inr (Or.inr (Or.inr (Or.inr (Or.inr (Or.inr (Or.inr rfl))))))⟩
    · exact ⟨q, hq, Or.inr (Or.inr (Or.inr (Or.inr (Or.inr (Or.inl rfl)))))⟩
    · exact ⟨q, hq, Or.inr (Or.inl rfl)⟩
  · rintro ⟨q, hq, h | h | h | h | h | h | h | h⟩
    · left; left; left; left; left; left; left
      rw [h]; exact hq
    · right
      exact ⟨q, hq, h.symm⟩
    · left; left; left; left; right
      exact ⟨q, hq, h.symm⟩
    · left; left; left; right
      exact ⟨q, hq, h.symm⟩
    · left; left; left; left; left; left; right
      exact ⟨q, hq, h.symm⟩
    · left; right
      exact ⟨q, hq, h.symm⟩
    · left; left; left; left; left; right
      exact ⟨q, hq, h.symm⟩
    · left; left; right
      exact ⟨q, hq, h.symm⟩

theorem octant_arc_head (r : Nat) : (octant_arc r).head? = some (0, (r : Int)) := by
  unfold octant_arc draw_circle_trace
  rfl

theorem draw_circle_trace_chain (r : Nat) (hr : r ≤ 255) :
    List.Chain' circleStep (draw_circle_trace r) := by
  rw [draw_circle_trace_eq r hr]
  exact midpoint_states_chain _ (circle_init r) (Int.self_le_toNat _)

theorem draw_circle_trace_exit (r : Nat) (hr : r ≤ 255) :
    ∃ e, (draw_circle_trace r).getLast? = some e
      ∧ e.ry ≤ e.rx ∧ (e.rx - e.ry = 0 ∨ e.rx - e.ry = 1) := by
  rw [draw_circle_trace_eq r hr]
  have hne : circle_init r :: midpoint_states (circle_init r) ≠ [] := List.cons_ne_nil _ _
  refine ⟨(circle_init r :: midpoint_states (circle_init r)).getLast hne,
    List.getLast?_eq_getLast _ hne, ?_⟩
  refine midpoint_states_exit _ (circle_init r) (Int.self_le_toNat _) ?_ _
    (List.getLast?_eq_getLast _ hne)
  show (0 : Int) ≤ (r : Int) + 1
  omega

theorem draw_circle_trace_length (r : Nat) (hr : r ≤ 255) :
    (draw_circle_trace r).tail.length ≤ r := by
  rw [draw_circle_trace_eq r hr, List.tail_cons]
  have h := midpoint_states_length (((circle_init r).ry - (circle_init r).rx).toNat)
    (circle_init r) (Int.self_le_toNat _)
  have e : ((circle_init r).ry - (circle_init r).rx).toNat = r := by
    show ((r : Int) - 0).toNat = r
    omega
  rwa [e] at h

theorem mem_circle_ring (r : Nat) (p : Int × Int) :
    p ∈ circle_ring r ↔ p ∈ draw_circle_offsets r := by
  rw [circle_ring, mem_ring_of, draw_circle_offsets, List.mem_append, List.mem_flatMap]
  unfold octant_arc draw_circle_trace
  simp only [List.map_cons, List.tail_cons, List.mem_cons, List.mem_map, List.mem_singleton,
    List.not_mem_nil, or_false, circle_offsets8]
  constructor
  · rintro ⟨q, rfl | ⟨s, hs, rfl⟩, hq⟩
    · left
      simp only [neg_zero] at hq
      rcases hq with h | h | h | h | h | h | h | h <;> simp only [h, true_or, or_true]
    · right
      exact ⟨s, hs, hq⟩
  · rintro (h | ⟨s, hs, h⟩)
    · refine ⟨(0, (r : Int)), Or.inl rfl, ?_⟩
      simp only [neg_zero]
      rcases h with h | h | h | h <;> simp only [h, true_or, or_true]
    · exact ⟨(s.rx, s.ry), Or.inr ⟨s, hs, rfl⟩, h⟩

/-! ## Coverage of the filled circle -/

theorem mem_vline_pixels (c t n px py : Nat) :
    (px, py) ∈ (Op.draw_vertical_line c t n).pixels ↔ px = c ∧ t ≤ py ∧ py < t + n := by
  simp only [Op.pixels, List.mem_map, List.mem_range, Prod.mk.injEq]
  constructor
  · rintro ⟨i, hi, rfl, rfl⟩
    exact ⟨rfl, by omega, by omega⟩
  · rintro ⟨rfl, h1, h2⟩
    exact ⟨py - t, by omega, rfl, by omega⟩

theorem le_of_mul_self_le (A r : Int) (hr : 0 ≤ r) (h : A * A ≤ r * r) : A ≤ r := by
  by_contra hc
  have h1 : r + 1 ≤ A := by omega
  have h2 : (r + 1) * (r + 1) ≤ A * A := mul_self_le_mul_self (by omega) h1
  nlinarith

theorem midpoint_step_cases (s : CircleState) :
    (midpoint_step s).rx = s.rx + 1
    ∧ (((midpoint_step s).ry = s.ry - 1 ∧ 0 ≤ s.f) ∨ ((midpoint_step s).ry = s.ry ∧ s.f < 0)) := by
  unfold midpoint_step
  dsimp only
  refine ⟨rfl, ?_⟩
  by_cases hf : s.f ≥ 0
  · rw [if_pos hf]
    exact Or.inl ⟨rfl, hf⟩
  · rw [if_neg hf]
    exact Or.inr ⟨rfl, by omega⟩

theorem midpoint_states_cover (r : Int) (n : Nat) :
    ∀ s : CircleState, s.ry - s.rx ≤ n → CircleInv r s →
      ∀ A B : Int, 0 ≤ B → A * A + B * B ≤ r * r → s.rx < A → A ≤ s.ry →
        ¬ (A = s.ry ∧ B ≤ s.rx) → ∃ t ∈ midpoint_states s, spanCovers t A B := by
  induction n with
  | zero =>
    intro s hn _ A B _ _ h1 h2 _
    omega
  | succ n ih =>
    intro s hn hinv A B hB hAB h1 h2 hex
    have hlt : s.rx < s.ry := by omega
    rw [midpoint_states, if_pos hlt]
    have hinv2 := circleInv_step r s hinv hlt
    obtain ⟨hrx, hry⟩ := midpoint_step_cases s
    have hg := hinv
    have hk := hinv2
    obtain ⟨_, _, g3, g4, _, _, _, _, _, _, g10⟩ := hg
    obtain ⟨_, _, k3, k4, _, _, _, _, _, k9, k10⟩ := hk
    by_cases c1 : A = (midpoint_step s).rx
    · refine ⟨midpoint_step s, List.mem_cons_self _ _, Or.inl ⟨c1, ?_⟩⟩
      by_contra hc
      have hb : (midpoint_step s).ry + 1 ≤ B := by omega
      have hb2 : ((midpoint_step s).ry + 1) * ((midpoint_step s).ry + 1) ≤ B * B :=
        mul_self_le_mul_self (by omega) hb
      rw [c1] at hAB
      nlinarith
    · by_cases c3 : A = (midpoint_step s).ry ∧ B ≤ (midpoint_step s).rx
      · exact ⟨midpoint_step s, List.mem_cons_self _ _, Or.inr c3⟩
      · by_cases c4 : A ≤ (midpoint_step s).ry
        · have hn2 : (midpoint_step s).ry - (midpoint_step s).rx ≤ n := by
            push_cast at hn
            omega
          obtain ⟨t, ht, hc⟩ := ih (midpoint_step s) hn2 hinv2 A B hB hAB (by omega) c4 c3
          exact ⟨t, List.mem_cons_of_mem _ ht, hc⟩
        · exfalso
          have hA : A = s.ry := by omega
          have hf : 0 ≤ s.f := by omega
          apply hex
          refine ⟨hA, ?_⟩
          by_contra hc
          have hb : s.rx + 1 ≤ B := by omega
          have hb2 : (s.rx + 1) * (s.rx + 1) ≤ B * B := mul_self_le_mul_self (by omega) hb
          rw [hA] at hAB
          nlinarith

theorem trace_covers (r : Nat) (hr : r ≤ 255) (A B : Int) (hA : 0 < A) (hB : 0 ≤ B)
    (h : A * A + B * B ≤ (r : Int) * r) :
    ∃ t ∈ (draw_circle_trace r).tail, spanCovers t A B := by
  rw [draw_circle_trace_eq r hr, List.tail_cons]
  have hAr : A ≤ r := le_of_mul_self_le A r (by omega) (by nlinarith [mul_self_nonneg B])
  by_cases hex : A = (circle_init r).ry ∧ B ≤ (circle_init r).rx
  · obtain ⟨e1, e2⟩ := hex
    have e1r : A = r := e1
    have e2r : B ≤ 0 := e2
    have hlt : (circle_init r).rx < (circle_init r).ry := by
      show (0 : Int) < (r : Int)
      omega
    rw [midpoint_states, if_pos hlt]
    refine ⟨midpoint_step (circle_init r), List.mem_cons_self _ _, ?_⟩
    obtain ⟨hrx, hry⟩ := midpoint_step_cases (circle_init r)
    have i1 : (circle_init r).rx = 0 := rfl
    have i2 : (circle_init r).ry = r := rfl
    have i3 : (circle_init r).f = 1 - r := rfl
    rcases hry with ⟨k1, k2⟩ | ⟨k1, k2⟩
    · exact Or.inl ⟨by omega, by omega⟩
    · exact Or.inr ⟨by omega, by omega⟩
  · exact midpoint_states_cover r _ (circle_init r) (Int.self_le_toNat _)
      (circleInv_init r (by omega)) A B hB h hA hAr hex

theorem spanCovers_span (x y r : Nat) (hx : r ≤ x) (hy : r ≤ y) (hx2 : x + r ≤ 255)
    (hy2 : y + r ≤ 255) (s : CircleState) (h1 : 0 ≤ s.rx) (h2 : s.rx ≤ r) (h3 : 0 ≤ s.ry)
    (h4 : s.ry ≤ r) (a b : Int) (h : spanCovers s |a| |b|) :
    ∃ k : Nat, k ≤ r ∧ |b| ≤ k
      ∧ Op.draw_vertical_line (x + a).toNat (y - k) (2 * k + 1) ∈ fill_spans x y s.rx s.ry := by
  unfold fill_spans
  rcases h with ⟨e1, e2⟩ | ⟨e1, e2⟩
  · refine ⟨s.ry.toNat, by omega, by omega, ?_⟩
    have l1 : u8 (2 * s.ry + 1) = 2 * s.ry.toNat + 1 := by unfold u8; omega
    have l2 : u8 ((y : Int) - s.ry) = y - s.ry.toNat := by unfold u8; omega
    rcases abs_cases a with ⟨e3, _⟩ | ⟨e3, _⟩
    · have l3 : u8 ((x : Int) + s.rx) = (x + a).toNat := by unfold u8; omega
      rw [l1, l2, l3]
      exact List.mem_cons_self _ _
    · have l3 : u8 ((x : Int) - s.rx) = (x + a).toNat := by unfold u8; omega
      rw [l1, l2, l3]
      exact List.mem_cons_of_mem _ (List.mem_cons_self _ _)
  · refine ⟨s.rx.toNat, by omega, by omega, ?_⟩
    have l1 : u8 (2 * s.rx + 1) = 2 * s.rx.toNat + 1 := by unfold u8; omega
    have l2 : u8 ((y : Int) - s.rx) = y - s.rx.toNat := by unfold u8; omega
    rcases abs_cases a with ⟨e3, _⟩ | ⟨e3, _⟩
    · have l3 : u8 ((x : Int) + s.ry) = (x + a).toNat := by unfold u8; omega
      rw [l1, l2, l3]
      exact List.mem_cons_of_mem _ (List.mem_cons_of_mem _ (List.mem_cons_self _ _))
    · have l3 : u8 ((x : Int) - s.ry) = (x + a).toNat := by unfold u8; omega
      rw [l1, l2, l3]
      exact List.mem_cons_of_mem _ (List.mem_cons_of_mem _ (List.mem_cons_of_mem _
        (List.mem_cons_self _ _)))

theorem fill_circle_span_of_state (x y r : Nat) (hx : r ≤ x) (hy : r ≤ y) (hx2 : x + r ≤ 255)
    (hy2 : y + r ≤ 255) (s : CircleState) (hs : s ∈ (draw_circle_trace r).tail) (a b : Int)
    (h : spanCovers s |a| |b|) :
    ∃ k : Nat, k ≤ r ∧ |b| ≤ k
      ∧ Op.draw_vertical_line (x + a).toNat (y - k) (2 * k + 1) ∈ fill_circle x y r := by
  obtain ⟨_, _, h3, h4, h5, _, h7, _⟩ :=
    circleInv_of_mem_trace r (by omega) s (List.mem_of_mem_tail hs)
  obtain ⟨k, k1, k2, k3⟩ := spanCovers_span x y r hx hy hx2 hy2 s h3 h7 h4 h5 a b h
  refine ⟨k, k1, k2, ?_⟩
  rw [fill_circle_eq_trace, fill_circle_trace_eq_draw]
  exact List.mem_cons_of_mem _ (List.mem_flatMap.2 ⟨s, hs, k3⟩)

theorem fill_circle_span_of_disc (x y r : Nat) (hx : r ≤ x) (hy : r ≤ y) (hx2 : x + r ≤ 255)
    (hy2 : y + r ≤ 255) (a b : Int) (h : a * a + b * b ≤ (r : Int) * r) :
    ∃ k : Nat, k ≤ r ∧ |b| ≤ k
      ∧ Op.draw_vertical_line (x + a).toNat (y - k) (2 * k + 1) ∈ fill_circle x y r := by
  have hb : |b| ≤ r := by
    apply le_of_mul_self_le _ _ (by omega)
    rw [abs_mul_abs_self]
    nlinarith [mul_self_nonneg a]
  by_cases ha : a = 0
  · refine ⟨r, le_refl _, hb, ?_⟩
    rw [fill_circle_eq_trace]
    have l1 : u8 (2 * (r : Int) + 1) = 2 * r + 1 := by unfold u8; omega
    have l2 : u8 ((y : Int) - r) = y - r := by unfold u8; omega
    have l3 : ((x : Int) + a).toNat = x := by omega
    rw [l1, l2, l3]
    exact List.mem_cons_self _ _
  · have hA : 0 < |a| := abs_pos.2 ha
    have hsq : |a| * |a| + |b| * |b| ≤ (r : Int) * r := by
      rw [abs_mul_abs_self, abs_mul_abs_self]
      exact h
    obtain ⟨t, ht, hc⟩ := trace_covers r (by omega) |a| |b| hA (abs_nonneg b) hsq
    exact fill_circle_span_of_state x y r hx hy hx2 hy2 t ht a b hc

theorem pixel_of_span (x y r k : Nat) (a b : Int) (ops : List Op) (hy : r ≤ y) (hk : k ≤ r)
    (hb : |b| ≤ k) (hop : Op.draw_vertical_line (x + a).toNat (y - k) (2 * k + 1) ∈ ops) :
    ((x + a).toNat, (y + b).toNat) ∈ pixelsOf ops := by
  rw [pixelsOf, List.mem_flatMap]
  refine ⟨_, hop, ?_⟩
  rw [mem_vline_pixels]
  obtain ⟨b1, b2⟩ := abs_le.1 hb
  exact ⟨rfl, by omega, by omega⟩

theorem offsets8_spanCovers (s : CircleState) (h1 : 0 ≤ s.rx) (h2 : 0 ≤ s.ry) (p : Int × Int)
    (hp : p ∈ circle_offsets8 s.rx s.ry) : spanCovers s |p.1| |p.2| := by
  have a1 : |s.rx| = s.rx := abs_of_nonneg h1
  have a2 : |s.ry| = s.ry := abs_of_nonneg h2
  simp only [circle_offsets8, List.mem_cons, List.mem_singleton, List.not_mem_nil,
    or_false] at hp
  rcases hp with h | h | h | h | h | h | h | h <;> rw [h] <;> dsimp only
  · exact Or.inl ⟨a1, le_of_eq a2⟩
  · exact Or.inl ⟨by rw [abs_neg, a1], le_of_eq a2⟩
  · exact Or.inl ⟨a1, by rw [abs_neg, a2]⟩
  · exact Or.inl ⟨by rw [abs_neg, a1], by rw [abs_neg, a2]⟩
  · exact Or.inr ⟨a2, le_of_eq a1⟩
  · exact Or.inr ⟨by rw [abs_neg, a2], le_of_eq a1⟩
  · exact Or.inr ⟨a2, by rw [abs_neg, a1]⟩
  · exact Or.inr ⟨by rw [abs_neg, a2], by rw [abs_neg, a1]⟩

theorem offset_in_span (x y r : Nat) (hx : r ≤ x) (hy : r ≤ y) (hx2 : x + r ≤ 255)
    (hy2 : y + r ≤ 255) (p : Int × Int) (hp : p ∈ draw_circle_offsets r) :
    |p.1| ≤ r ∧ ∃ k : Nat, k ≤ r ∧ |p.2| ≤ k
      ∧ Op.draw_vertical_line (x + p.1).toNat (y - k) (2 * k + 1) ∈ fill_circle x y r := by
  rw [draw_circle_offsets, List.mem_append] at hp
  rcases hp with hc | hl
  · simp only [List.mem_cons, List.mem_singleton, List.not_mem_nil, or_false] at hc
    have h0 : p.1 * p.1 + p.2 * p.2 ≤ (r : Int) * r ∧ |p.1| ≤ r := by
      rcases hc with h | h | h | h <;> rw [h] <;> dsimp only <;> refine ⟨le_of_eq (by ring), ?_⟩
      · rw [abs_zero]; omega
      · rw [abs_zero]; omega
      · rw [abs_of_nonneg (by omega)]
      · rw [abs_neg, abs_of_nonneg (by omega)]
    exact ⟨h0.2, fill_circle_span_of_disc x y r hx hy hx2 hy2 p.1 p.2 h0.1⟩
  · rw [List.mem_flatMap] at hl
    obtain ⟨s, hs, hps⟩ := hl
    obtain ⟨_, _, h3, h4, h5, _, h7, _⟩ :=
      circleInv_of_mem_trace r (by omega) s (List.mem_of_mem_tail hs)
    have hc := offsets8_spanCovers s h3 h4 p hps
    refine ⟨?_, fill_circle_span_of_state x y r hx hy hx2 hy2 s hs p.1 p.2 hc⟩
    rcases hc with ⟨e1, _⟩ | ⟨e1, _⟩ <;> rw [e1] <;> assumption

/-! ## Claims on `draw_line` -/

/-- C1: for a row `y` and columns `x0`, `x1` in 0..255, `draw_line(x0, y, x1, y)` emits the
pixels `(x, y)` for `x` from `min x0 x1` up to `max x0 x1`, in that order: an operation is
emitted exactly when it is `draw_pixel(x, y)` with `min x0 x1 ≤ x ≤ max x0 x1`, and no
operation is emitted twice.  In particular `draw_line(0,0,5,0)` emits
`(0,0),(1,0),(2,0),(3,0),(4,0),(5,0)`. -/
theorem draw_line_horizontal (x0 x1 y : Nat) (h0 : x0 ≤ 255) (h1 : x1 ≤ 255) (hy : y ≤ 255) :
    draw_line x0 y x1 y
        = (List.range (max x0 x1 - min x0 x1 + 1)).map (fun k => Op.draw_pixel (min x0 x1 + k) y)
    ∧ (∀ op, op ∈ draw_line x0 y x1 y ↔
        ∃ x, min x0 x1 ≤ x ∧ x ≤ max x0 x1 ∧ op = Op.draw_pixel x y)
    ∧ (draw_line x0 y x1 y).Nodup
    ∧ draw_line 0 0 5 0
        = [Op.draw_pixel 0 0, Op.draw_pixel 1 0, Op.draw_pixel 2 0, Op.draw_pixel 3 0,
           Op.draw_pixel 4 0, Op.draw_pixel 5 0] := by
  have hle : min x0 x1 ≤ max x0 x1 := by omega
  refine ⟨horizontal_line_ops x0 x1 y h0 h1 hy, ?_, ?_, ?_⟩
  · intro op
    rw [horizontal_line_ops x0 x1 y h0 h1 hy, List.mem_map]
    constructor
    · rintro ⟨k, hk, rfl⟩
      rw [List.mem_range] at hk
      exact ⟨min x0 x1 + k, by omega, by omega, rfl⟩
    · rintro ⟨x, hx1, hx2, rfl⟩
      refine ⟨x - min x0 x1, List.mem_range.mpr (by omega), ?_⟩
      rw [Nat.add_sub_cancel' hx1]
  · rw [horizontal_line_ops x0 x1 y h0 h1 hy]
    refine List.Nodup.map ?_ (List.nodup_range _)
    intro a b hab
    injection hab with h _
    omega
  · rw [horizontal_line_ops 0 5 0 (by decide) (by decide) (by decide)]
    rfl

/-- Witness for C1: the line from column 7 back to column 2 on row 3. -/
theorem draw_line_horizontal_witness :
    7 ≤ 255 ∧ 2 ≤ 255 ∧ 3 ≤ 255 ∧
      draw_line 7 3 2 3
        = [Op.draw_pixel 2 3, Op.draw_pixel 3 3, Op.draw_pixel 4 3, Op.draw_pixel 5 3,
           Op.draw_pixel 6 3, Op.draw_pixel 7 3] :=
  ⟨by decide, by decide, by decide,
    (draw_line_horizontal 7 2 3 (by decide) (by decide) (by decide)).1⟩

/-- C2: for a column `x` and rows `y0`, `y1` in 0..255, `draw_line(x, y0, x, y1)` (the steep,
transposed path when `y0 ≠ y1`) emits the pixels `(x, y)` for `y` from `min y0 y1` up to
`max y0 y1`: an operation is emitted exactly when it is `draw_pixel(x, y)` with
`min y0 y1 ≤ y ≤ max y0 y1`, and no operation is emitted twice.  In particular
`draw_line(0,0,0,5)` emits `(0,0),(0,1),(0,2),(0,3),(0,4),(0,5)`. -/
theorem draw_line_vertical (x y0 y1 : Nat) (hx : x ≤ 255) (h0 : y0 ≤ 255) (h1 : y1 ≤ 255) :
    draw_line x y0 x y1
        = (List.range (max y0 y1 - min y0 y1 + 1)).map (fun k => Op.draw_pixel x (min y0 y1 + k))
    ∧ (∀ op, op ∈ draw_line x y0 x y1 ↔
        ∃ y, min y0 y1 ≤ y ∧ y ≤ max y0 y1 ∧ op = Op.draw_pixel x y)
    ∧ (draw_line x y0 x y1).Nodup
    ∧ draw_line 0 0 0 5
        = [Op.draw_pixel 0 0, Op.draw_pixel 0 1, Op.draw_pixel 0 2, Op.draw_pixel 0 3,
           Op.draw_pixel 0 4, Op.draw_pixel 0 5] := by
  have hle : min y0 y1 ≤ max y0 y1 := by omega
  refine ⟨vertical_line_ops x y0 y1 hx h0 h1, ?_, ?_, ?_⟩
  · intro op
    rw [vertical_line_ops x y0 y1 hx h0 h1, List.mem_map]
    constructor
    · rintro ⟨k, hk, rfl⟩
      rw [List.mem_range] at hk
      exact ⟨min y0 y1 + k, by omega, by omega, rfl⟩
    · rintro ⟨y, hy1, hy2, rfl⟩
      refine ⟨y - min y0 y1, List.mem_range.mpr (by omega), ?_⟩
      rw [Nat.add_sub_cancel' hy1]
  · rw [vertical_line_ops x y0 y1 hx h0 h1]
    refine List.Nodup.map ?_ (List.nodup_range _)
    intro a b hab
    injection hab with _ h
    omega
  · rw [vertical_line_ops 0 0 5 (by decide) (by decide) (by decide)]
    rfl

/-- Witness for C2: the line from row 9 back to row 6 in column 4. -/
theorem draw_line_vertical_witness :
    4 ≤ 255 ∧ 9 ≤ 255 ∧ 6 ≤ 255 ∧
      draw_line 4 9 4 6
        = [Op.draw_pixel 4 6, Op.draw_pixel 4 7, Op.draw_pixel 4 8, Op.draw_pixel 4 9] :=
  ⟨by decide, by decide, by decide,
    (draw_line_vertical 4 9 6 (by decide) (by decide) (by decide)).1⟩

/-- C3: for a start `(x0, y0)` and `n ≥ 0` with `x0 + n ≤ 255` and `y0 + n ≤ 255`,
`draw_line(x0, y0, x0+n, y0+n)` emits exactly the `n + 1` pixels `(x0+i, y0+i)`, `i = 0..n`,
in that order.  In particular `draw_line(0,0,3,3)` emits `(0,0),(1,1),(2,2),(3,3)`. -/
theorem draw_line_diagonal (x0 y0 n : Nat) (hx : x0 + n ≤ 255) (hy : y0 + n ≤ 255) :
    draw_line x0 y0 (x0 + n) (y0 + n)
        = (List.range (n + 1)).map (fun i => Op.draw_pixel (x0 + i) (y0 + i))
    ∧ (draw_line x0 y0 (x0 + n) (y0 + n)).length = n + 1
    ∧ draw_line 0 0 3 3
        = [Op.draw_pixel 0 0, Op.draw_pixel 1 1, Op.draw_pixel 2 2, Op.draw_pixel 3 3] := by
  refine ⟨diagonal_line_ops x0 y0 n hx hy, ?_, ?_⟩
  · rw [diagonal_line_ops x0 y0 n hx hy, List.length_map, List.length_range]
  · exact diagonal_line_ops 0 0 3 (by decide) (by decide)

/-- Witness for C3: the 45-degree line from `(250, 10)` to `(252, 12)`. -/
theorem draw_line_diagonal_witness :
    250 + 2 ≤ 255 ∧ 10 + 2 ≤ 255 ∧
      draw_line 250 10 (250 + 2) (10 + 2)
        = [Op.draw_pixel 250 10, Op.draw_pixel 251 11, Op.draw_pixel 252 12] :=
  ⟨by decide, by decide, (draw_line_diagonal 250 10 2 (by decide) (by decide)).1⟩

/-- C4: `draw_line` does not depend on the order of its endpoints: for endpoints in 0..255,
`draw_line(x0, y0, x1, y1)` and `draw_line(x1, y1, x0, y0)` emit the same operations (even in
the same order), hence the same set of pixels; and the output is a function of the four
endpoint coordinates alone, so a second run on the same endpoints emits the same pixels. -/
theorem draw_line_order_independent (x0 y0 x1 y1 : Nat)
    (hx0 : x0 ≤ 255) (hy0 : y0 ≤ 255) (hx1 : x1 ≤ 255) (hy1 : y1 ≤ 255) :
    draw_line x0 y0 x1 y1 = draw_line x1 y1 x0 y0
    ∧ (∀ op, op ∈ draw_line x0 y0 x1 y1 ↔ op ∈ draw_line x1 y1 x0 y0)
    ∧ (∀ a0 b0 a1 b1 : Nat, a0 = x0 → b0 = y0 → a1 = x1 → b1 = y1 →
        draw_line a0 b0 a1 b1 = draw_line x0 y0 x1 y1) := by
  refine ⟨draw_line_symm x0 y0 x1 y1 hx0 hy0 hx1 hy1, ?_, ?_⟩
  · intro op
    rw [draw_line_symm x0 y0 x1 y1 hx0 hy0 hx1 hy1]
  · rintro a0 b0 a1 b1 rfl rfl rfl rfl
    rfl

/-- Witness for C4: the line between `(0, 0)` and `(7, 3)`, drawn from either end. -/
theorem draw_line_order_independent_witness :
    0 ≤ 255 ∧ 0 ≤ 255 ∧ 7 ≤ 255 ∧ 3 ≤ 255 ∧ draw_line 0 0 7 3 = draw_line 7 3 0 0 :=
  ⟨by decide, by decide, by decide, by decide,
    (draw_line_order_independent 0 0 7 3 (by decide) (by decide) (by decide) (by decide)).1⟩

/-! ## Claims on circles and rectangles -/

/-- C5 (amended): for a radius `r` and a centre `(cx, cy)` with `r ≤ cx`, `r ≤ cy`,
`cx + r ≤ 255` and `cy + r ≤ 255` (no 8-bit wraparound on either side), `draw_circle`
emits only pixels, and the set of emitted pixels is invariant under the reflections
`(px, py) ↦ (2*cx - px, py)` and `(px, py) ↦ (px, 2*cy - py)` through the centre. -/
theorem draw_circle_reflect (cx cy r : Nat) (hx : r ≤ cx) (hy : r ≤ cy)
    (hx2 : cx + r ≤ 255) (hy2 : cy + r ≤ 255) :
    (∀ op ∈ draw_circle cx cy r, ∃ px py, op = Op.draw_pixel px py)
    ∧ (∀ px py, Op.draw_pixel px py ∈ draw_circle cx cy r ↔
        px ≤ 2 * cx ∧ Op.draw_pixel (2 * cx - px) py ∈ draw_circle cx cy r)
    ∧ (∀ px py, Op.draw_pixel px py ∈ draw_circle cx cy r ↔
        py ≤ 2 * cy ∧ Op.draw_pixel px (2 * cy - py) ∈ draw_circle cx cy r) := by
  have hc := draw_circle_reflClosed cx cy r (by omega) (by omega)
  have fx : ∀ px py, Op.draw_pixel px py ∈ draw_circle cx cy r →
      px ≤ 2 * cx ∧ Op.draw_pixel (2 * cx - px) py ∈ draw_circle cx cy r := by
    intro px py hop
    obtain ⟨a, b, ha1, ha2, hb1, hb2, e, m1, _⟩ := hc _ hop
    injection e with e1 e2
    have e3 : u8 (cx - a) = 2 * cx - px := by
      rw [e1]; unfold u8; omega
    have e4 : u8 (cy + b) = py := e2.symm
    rw [e3, e4] at m1
    refine ⟨?_, m1⟩
    rw [e1]; unfold u8; omega
  have fy : ∀ px py, Op.draw_pixel px py ∈ draw_circle cx cy r →
      py ≤ 2 * cy ∧ Op.draw_pixel px (2 * cy - py) ∈ draw_circle cx cy r := by
    intro px py hop
    obtain ⟨a, b, ha1, ha2, hb1, hb2, e, _, m2⟩ := hc _ hop
    injection e with e1 e2
    have e3 : u8 (cy - b) = 2 * cy - py := by
      rw [e2]; unfold u8; omega
    have e4 : u8 (cx + a) = px := e1.symm
    rw [e3, e4] at m2
    refine ⟨?_, m2⟩
    rw [e2]; unfold u8; omega
  refine ⟨?_, ?_, ?_⟩
  · intro op hop
    obtain ⟨a, b, _, _, _, _, e, _, _⟩ := hc op hop
    exact ⟨_, _, e⟩
  · intro px py
    refine ⟨fx px py, ?_⟩
    rintro ⟨hle, hm⟩
    have h2 := (fx _ _ hm).2
    rwa [Nat.sub_sub_self hle] at h2
  · intro px py
    refine ⟨fy px py, ?_⟩
    rintro ⟨hle, hm⟩
    have h2 := (fy _ _ hm).2
    rwa [Nat.sub_sub_self hle] at h2

/-- Witness for C5 (amended): on the circle of radius 3 about `(10, 10)`, pixel `(13, 10)` is
emitted exactly when its mirror image `(2*10 - 13, 10)` is. -/
theorem draw_circle_reflect_witness :
    3 ≤ 10 ∧ 10 + 3 ≤ 255 ∧
      (Op.draw_pixel 13 10 ∈ draw_circle 10 10 3 ↔
        13 ≤ 2 * 10 ∧ Op.draw_pixel (2 * 10 - 13) 10 ∈ draw_circle 10 10 3) :=
  ⟨by decide, by decide,
    (draw_circle_reflect 10 10 3 (by decide) (by decide) (by decide) (by decide)).2.1 13 10⟩

/-- C5 as stated fails: with centre `(255, 255)` and radius 1 (so `cx ≥ r`, `cy ≥ r`),
`x + 1` wraps to column 0 and `draw_circle` emits pixel `(0, 255)`, whose mirror image
`(2*255 - 0, 255)` is not emitted. -/
theorem draw_circle_reflect_counterexample :
    1 ≤ 255 ∧ 1 ≤ 255 ∧ Op.draw_pixel 0 255 ∈ draw_circle 255 255 1
      ∧ Op.draw_pixel (2 * 255 - 0) 255 ∉ draw_circle 255 255 1 := by
  rw [draw_circle_255_255_1]
  decide

/-- C6: for a centre `(x, y)` in 0..255, `fill_circle(x, y, 0)` issues a single operation, a
vertical span at `(x, y)` of length 1; the loop body never runs (the loop entered with
`rx = ry = 0` issues nothing); and the one pixel set is `(x, y)`. -/
theorem fill_circle_zero (x y : Nat) (_hx : x ≤ 255) (hy : y ≤ 255) :
    fill_circle x y 0 = [Op.draw_vertical_line x y 1]
    ∧ (∀ f dx dy : Int, fill_circle_loop x y f dx dy 0 0 = [])
    ∧ pixelsOf (fill_circle x y 0) = [(x, y)] := by
  have hl : ∀ f dx dy : Int, fill_circle_loop x y f dx dy 0 0 = [] := by
    intro f dx dy
    rw [fill_circle_loop, if_neg (lt_irrefl _)]
  have e : fill_circle x y 0 = [Op.draw_vertical_line x y 1] := by
    unfold fill_circle
    simp only [Nat.cast_zero, hl, sub_zero, mul_zero, zero_add]
    rw [u8_natCast y (by omega)]
    rfl
  refine ⟨e, hl, ?_⟩
  rw [e]
  rfl

/-- Witness for C6: the filled circle of radius 0 at `(200, 17)`. -/
theorem fill_circle_zero_witness :
    200 ≤ 255 ∧ 17 ≤ 255 ∧ pixelsOf (fill_circle 200 17 0) = [(200, 17)] :=
  ⟨by decide, by decide, (fill_circle_zero 200 17 (by decide) (by decide)).2.2⟩

/-- C7: `draw_rect(x, y, w, h)` issues exactly four operations, all spans: a horizontal span
of length `w` at `(x, y)`, a vertical span of length `h` at `(x+w, y)`, a vertical span of
length `h` at `(x, y)` and a horizontal span of length `w` at `(x, y+h)`, the sums taken in
the 8-bit coordinate type (they are `x+w` and `y+h` themselves when these do not exceed 255).
Whatever pixels the device sets for each operation, the pixels set by the call are the union
of those of the four spans, and two calls in a row set the same pixels as one. -/
theorem draw_rect_spans (x y w h : Nat) :
    draw_rect x y w h
        = [ Op.draw_horizontal_line x y w, Op.draw_vertical_line ((x + w) % 256) y h,
            Op.draw_vertical_line x y h, Op.draw_horizontal_line x ((y + h) % 256) w ]
    ∧ (x + w ≤ 255 → y + h ≤ 255 →
        draw_rect x y w h
          = [ Op.draw_horizontal_line x y w, Op.draw_vertical_line (x + w) y h,
              Op.draw_vertical_line x y h, Op.draw_horizontal_line x (y + h) w ])
    ∧ (∀ (sem : Op → List (Nat × Nat)) (p : Nat × Nat),
        p ∈ (draw_rect x y w h).flatMap sem ↔
          p ∈ sem (Op.draw_horizontal_line x y w)
          ∨ p ∈ sem (Op.draw_horizontal_line x ((y + h) % 256) w)
          ∨ p ∈ sem (Op.draw_vertical_line x y h)
          ∨ p ∈ sem (Op.draw_vertical_line ((x + w) % 256) y h))
    ∧ (∀ (sem : Op → List (Nat × Nat)) (p : Nat × Nat),
        p ∈ (draw_rect x y w h ++ draw_rect x y w h).flatMap sem ↔
          p ∈ (draw_rect x y w h).flatMap sem) := by
  have e1 : u8 ((x : Int) + w) = (x + w) % 256 := by unfold u8; omega
  have e2 : u8 ((y : Int) + h) = (y + h) % 256 := by unfold u8; omega
  have e : draw_rect x y w h
        = [ Op.draw_horizontal_line x y w, Op.draw_vertical_line ((x + w) % 256) y h,
            Op.draw_vertical_line x y h, Op.draw_horizontal_line x ((y + h) % 256) w ] := by
    unfold draw_rect
    rw [e1, e2]
  refine ⟨e, ?_, ?_, ?_⟩
  · intro hx hy
    rw [e, Nat.mod_eq_of_lt (by omega), Nat.mod_eq_of_lt (by omega)]
  · intro sem p
    rw [e]
    simp only [List.flatMap_cons, List.flatMap_nil, List.append_nil, List.mem_append]
    tauto
  · intro sem p
    rw [List.flatMap_append, List.mem_append, or_self]

/-- Witness for C7: the rectangle at `(10, 20)` of width 30 and height 40, without wraparound. -/
theorem draw_rect_spans_witness :
    10 + 30 ≤ 255 ∧ 20 + 40 ≤ 255 ∧
      draw_rect 10 20 30 40
        = [ Op.draw_horizontal_line 10 20 30, Op.draw_vertical_line (10 + 30) 20 40,
            Op.draw_vertical_line 10 20 40, Op.draw_horizontal_line 10 (20 + 40) 30 ] :=
  ⟨by decide, by decide, (draw_rect_spans 10 20 30 40).2.1 (by decide) (by decide)⟩

/-- C8 fails on the code: with spans of length `n` setting `n` consecutive pixels,
`draw_rect(0, 0, 2, 2)` sets seven of the eight perimeter pixels of the box with corners
`(0, 0)` and `(2, 2)` and leaves the corner `(2, 2)` unset (the interior pixel `(1, 1)` is
unset, as claimed). -/
theorem draw_rect_corner_unset :
    pixelsOf (draw_rect 0 0 2 2)
        = [(0, 0), (1, 0), (2, 0), (2, 1), (0, 0), (0, 1), (0, 2), (1, 2)]
    ∧ (2, 2) ∉ pixelsOf (draw_rect 0 0 2 2)
    ∧ (1, 1) ∉ pixelsOf (draw_rect 0 0 2 2) := by
  decide

/-! ## Claims on `draw_bitmap` -/

/-- C9: with `scale = 1`, `draw_bitmap(x, y, data, width, height)` reproduces the source
pixel for pixel.  For every column `i < width` and row `j < height`, `draw_pixel(x+i, y+j)`
(the sums in the 8-bit coordinate type) is issued if and only if bit `j mod 8` of source byte
number `i * ceil(height/8) + floor(j/8)` is set; every operation issued is such a pixel; no
operation is issued twice; and when `x + width` and `y + height` do not exceed 256 the
coordinates are `x+i` and `y+j` themselves. -/
theorem draw_bitmap_unscaled (x y : Nat) (data : Nat → Nat) (width height : Nat)
    (hw : width ≤ 255) (hh : height ≤ 255) :
    (∀ i j, i < width → j < height →
        (Op.draw_pixel ((x + i) % 256) ((y + j) % 256) ∈ draw_bitmap 1 x y data width height ↔
          (data (i * ((height + 7) / 8) + j / 8) % 256).testBit (j % 8) = true))
    ∧ (∀ op ∈ draw_bitmap 1 x y data width height, ∃ i j, i < width ∧ j < height ∧
        (data (i * ((height + 7) / 8) + j / 8) % 256).testBit (j % 8) = true ∧
        op = Op.draw_pixel ((x + i) % 256) ((y + j) % 256))
    ∧ (draw_bitmap 1 x y data width height).Nodup
    ∧ (x + width ≤ 256 → y + height ≤ 256 → ∀ i j, i < width → j < height →
        (Op.draw_pixel (x + i) (y + j) ∈ draw_bitmap 1 x y data width height ↔
          (data (i * ((height + 7) / 8) + j / 8) % 256).testBit (j % 8) = true)) := by
  have hop : ∀ i j : Nat, bitmap_op 1 x y i j = Op.draw_pixel ((x + i) % 256) ((y + j) % 256) := by
    intro i j
    have e1 : u8 ((x : Int) + i) = (x + i) % 256 := by unfold u8; omega
    have e2 : u8 ((y : Int) + j) = (y + j) % 256 := by unfold u8; omega
    rw [bitmap_op, if_pos rfl, e1, e2]
  have hmem : ∀ op, op ∈ draw_bitmap 1 x y data width height ↔
      ∃ i, i < width ∧ ∃ j, j < height ∧ bitmap_bit data height i j = true ∧
        op = Op.draw_pixel ((x + i) % 256) ((y + j) % 256) := by
    intro op
    rw [draw_bitmap_eq]
    simp only [List.mem_flatMap, List.mem_range, hop]
    constructor
    · rintro ⟨i, hi, j, hj, hm⟩
      split at hm
      · rename_i hb
        exact ⟨i, hi, j, hj, hb, List.mem_singleton.mp hm⟩
      · exact absurd hm (List.not_mem_nil _)
    · rintro ⟨i, hi, j, hj, hb, rfl⟩
      refine ⟨i, hi, j, hj, ?_⟩
      rw [if_pos hb]
      exact List.mem_singleton.mpr rfl
  have hiff : ∀ i j, i < width → j < height →
      (Op.draw_pixel ((x + i) % 256) ((y + j) % 256) ∈ draw_bitmap 1 x y data width height ↔
        bitmap_bit data height i j = true) := by
    intro i j hi hj
    rw [hmem]
    constructor
    · rintro ⟨i2, hi2, j2, hj2, hb, e⟩
      injection e with e1 e2
      have ei : i = i2 := by omega
      have ej : j = j2 := by omega
      rw [ei, ej]
      exact hb
    · intro hb
      exact ⟨i, hi, j, hj, hb, rfl⟩
  refine ⟨hiff, ?_, ?_, ?_⟩
  · intro op hop2
    obtain ⟨i, hi, j, hj, hb, e⟩ := (hmem op).mp hop2
    exact ⟨i, j, hi, hj, hb, e⟩
  · rw [draw_bitmap_eq]
    refine nodup_flatMap_of_inj (List.nodup_range _) ?_ ?_
    · intro i _
      refine nodup_flatMap_of_inj (List.nodup_range _) ?_ ?_
      · intro j _
        split
        · exact List.nodup_singleton _
        · exact List.nodup_nil
      · intro j hj j2 hj2 p hp hp2
        rw [List.mem_range] at hj hj2
        split at hp
        · split at hp2
          · rw [List.mem_singleton, hop] at hp hp2
            rw [hp] at hp2
            injection hp2 with _ e2
            omega
          · exact absurd hp2 (List.not_mem_nil _)
        · exact absurd hp (List.not_mem_nil _)
    · intro i hi i2 hi2 p hp hp2
      rw [List.mem_range] at hi hi2
      rw [List.mem_flatMap] at hp hp2
      obtain ⟨j, _, hj⟩ := hp
      obtain ⟨j2, _, hj2⟩ := hp2
      split at hj
      · split at hj2
        · rw [List.mem_singleton, hop] at hj hj2
          rw [hj] at hj2
          injection hj2 with e1 _
          omega
        · exact absurd hj2 (List.not_mem_nil _)
      · exact absurd hj (List.not_mem_nil _)
  · intro hx hy i j hi hj
    have h := hiff i j hi hj
    rwa [Nat.mod_eq_of_lt (by omega), Nat.mod_eq_of_lt (by omega)] at h

/-- Witness for C9: a 2-by-2 bitmap whose two columns are the bytes `0x01` and `0x02`, drawn
at `(3, 4)`: the pixel at column 0, row 0 is plotted. -/
theorem draw_bitmap_unscaled_witness :
    2 ≤ 255 ∧ 2 ≤ 255 ∧
      (Op.draw_pixel ((3 + 0) % 256) ((4 + 0) % 256)
          ∈ draw_bitmap 1 3 4 (fun n => [0x01, 0x02].getD n 0) 2 2 ↔
        (([0x01, 0x02].getD (0 * ((2 + 7) / 8) + 0 / 8) 0) % 256).testBit (0 % 8) = true) :=
  ⟨by decide, by decide,
    (draw_bitmap_unscaled 3 4 (fun n => [0x01, 0x02].getD n 0) 2 2 (by decide) (by decide)).1
      0 0 (by decide) (by decide)⟩

/-- C10 (amended): with `scale = k` and no coordinate wraparound (`x + width*k ≤ 256`,
`y + height*k ≤ 256`), `draw_bitmap` sets `k*k * n` pixels, where `n` is the number of set
source pixels, that is of set bits at the rows `j < height` of the columns `i < width`
(bits of the bytes read that lie at or below row `height` are not counted).  No pixel is set
twice, so the blocks of different source pixels are disjoint, and a pixel `(a, b)` is set
exactly when it lies in the `k` by `k` block with origin `(x + i*k, y + j*k)` of a set source
pixel `(i, j)`. -/
theorem draw_bitmap_scaled (k x y : Nat) (data : Nat → Nat) (width height : Nat)
    (hx : x ≤ 255) (hy : y ≤ 255) (hw : x + width * k ≤ 256) (hh : y + height * k ≤ 256) :
    (pixelsOf (draw_bitmap k x y data width height)).length
        = k * k * bitmap_popcount data width height
    ∧ (pixelsOf (draw_bitmap k x y data width height)).Nodup
    ∧ (∀ a b, (a, b) ∈ pixelsOf (draw_bitmap k x y data width height) ↔
        ∃ i, i < width ∧ ∃ j, j < height ∧ bitmap_bit data height i j = true ∧
          x + i * k ≤ a ∧ a < x + i * k + k ∧ y + j * k ≤ b ∧ b < y + j * k + k) := by
  rw [pixelsOf_draw_bitmap k x y data width height hx hy hw hh]
  refine ⟨?_, ?_, ?_⟩
  · rw [bitmap_popcount]
    apply length_flatMap_sum
    intro i _
    exact length_flatMap_const _ _ _ _ (fun j _ => length_block _ _ _)
  · refine nodup_flatMap_of_inj (List.nodup_range _) ?_ ?_
    · intro i _
      refine nodup_flatMap_of_inj (List.nodup_range _) ?_ ?_
      · intro j _
        split
        · exact nodup_block _ _ _
        · exact List.nodup_nil
      · intro j _ j2 _ p hp hp2
        obtain ⟨a, b⟩ := p
        split at hp
        · split at hp2
          · rw [mem_block] at hp hp2
            exact block_index_unique k j j2 (b - y) (by omega) (by omega) (by omega) (by omega)
          · exact absurd hp2 (List.not_mem_nil _)
        · exact absurd hp (List.not_mem_nil _)
    · intro i _ i2 _ p hp hp2
      obtain ⟨a, b⟩ := p
      rw [List.mem_flatMap] at hp hp2
      obtain ⟨j, _, hj⟩ := hp
      obtain ⟨j2, _, hj2⟩ := hp2
      split at hj
      · split at hj2
        · rw [mem_block] at hj hj2
          exact block_index_unique k i i2 (a - x) (by omega) (by omega) (by omega) (by omega)
        · exact absurd hj2 (List.not_mem_nil _)
      · exact absurd hj (List.not_mem_nil _)
  · intro a b
    simp only [List.mem_flatMap, List.mem_range]
    constructor
    · rintro ⟨i, hi, j, hj, hm⟩
      split at hm
      · rename_i hb
        rw [mem_block] at hm
        exact ⟨i, hi, j, hj, hb, hm⟩
      · exact absurd hm (List.not_mem_nil _)
    · rintro ⟨i, hi, j, hj, hb, hm⟩
      refine ⟨i, hi, j, hj, ?_⟩
      rw [if_pos hb, mem_block]
      exact hm

/-- Witness for C10 (amended): the glyph bytes `FC 18 24 24 18` (the letter `p` of the font
table) as a 5-by-7 bitmap at scale 2 set `2*2*13` pixels. -/
theorem draw_bitmap_scaled_witness :
    0 + 5 * 2 ≤ 256 ∧ 0 + 7 * 2 ≤ 256 ∧
      (pixelsOf (draw_bitmap 2 0 0 (fun n => [0xFC, 0x18, 0x24, 0x24, 0x18].getD n 0) 5 7)).length
        = 2 * 2 * bitmap_popcount (fun n => [0xFC, 0x18, 0x24, 0x24, 0x18].getD n 0) 5 7 :=
  ⟨by decide, by decide,
    (draw_bitmap_scaled 2 0 0 (fun n => [0xFC, 0x18, 0x24, 0x24, 0x18].getD n 0) 5 7
      (by decide) (by decide) (by decide) (by decide)).1⟩

/-- C10 as stated fails: for the glyph bytes `FC 18 24 24 18` (the letter `p` of the font
table) drawn as a 5-by-7 bitmap at scale 2, `draw_bitmap` reads five bytes holding 14 set
bits, but bit 7 of the first byte lies below row 6 and is never tested: 13 blocks, 52
pixels, are set, not `2*2*14 = 56`. -/
theorem draw_bitmap_scaled_counterexample :
    (pixelsOf (draw_bitmap 2 0 0 (fun n => [0xFC, 0x18, 0x24, 0x24, 0x18].getD n 0) 5 7)).length
        = 52
    ∧ 2 * 2 * source_bits_read (fun n => [0xFC, 0x18, 0x24, 0x24, 0x18].getD n 0) 5 7 = 56 := by
  rw [draw_bitmap_eq]
  decide

/-! ## Claims on `draw_char` -/

/-- C11: `draw_char` never permanently alters the pen colour.  For every canvas state whose
pen colour is a 16-bit pixel value and every character `c`, the pen colour after
`draw_char(c)` equals the pen colour before it; every device operation issued during the
call is issued with the pen colour set to the text colour; text colour and scale are left
unchanged. -/
theorem draw_char_pen_color (cfg : Config) (c : Int) (s : Canvas)
    (hpen : s.m_pen_color < 65536) :
    (draw_char cfg c s).1.m_pen_color = s.m_pen_color
    ∧ (∀ e ∈ (draw_char cfg c s).2, e.1 = s.m_text_color)
    ∧ (draw_char cfg c s).1.m_text_color = s.m_text_color
    ∧ (draw_char cfg c s).1.m_scale = s.m_scale := by
  obtain ⟨h1, h2, h3, _, _⟩ := draw_char_state cfg c s
  refine ⟨by rw [h1, Nat.mod_eq_of_lt hpen], ?_, h2, h3⟩
  intro e he
  rw [draw_char_ops] at he
  split at he
  · rw [List.mem_map] at he
    obtain ⟨op, _, rfl⟩ := he
    rfl
  · exact absurd he (List.not_mem_nil _)

/-- Witness for C11: the letter `A` drawn with pen colour `0x1234` and text colour `0xFFFF`. -/
theorem draw_char_pen_color_witness :
    0x1234 < 65536 ∧
      (draw_char ⟨128, 160, 1, 2⟩ 65 ⟨0x1234, 0xFFFF, 0, 0, 1, font5x7_mem⟩).1.m_pen_color = 0x1234 :=
  ⟨by decide,
    (draw_char_pen_color ⟨128, 160, 1, 2⟩ 65 ⟨0x1234, 0xFFFF, 0, 0, 1, font5x7_mem⟩ (by decide)).1⟩

/-- C12 (amended): after any `draw_char` call made from a cursor whose row is at most
`SCREEN_HEIGHT` (in particular from a cursor inside the screen), cursor x lies in
`[0, SCREEN_WIDTH]` and cursor y lies in `[0, SCREEN_HEIGHT]`, both bounds included, for every
character and every scale: the wraps test `m_x > SCREEN_WIDTH` and `m_y > SCREEN_HEIGHT`. -/
theorem draw_char_cursor_bounds (cfg : Config) (c : Int) (s : Canvas)
    (hy : s.m_y ≤ cfg.SCREEN_HEIGHT) :
    (draw_char cfg c s).1.m_x ≤ cfg.SCREEN_WIDTH ∧ (draw_char cfg c s).1.m_y ≤ cfg.SCREEN_HEIGHT := by
  obtain ⟨_, _, _, hx, hy2⟩ := draw_char_state cfg c s
  rw [hx, hy2]
  constructor
  · split
    · exact Nat.zero_le _
    · rename_i h
      rw [not_or] at h
      omega
  · split
    · split
      · exact Nat.zero_le _
      · omega
    · exact hy

/-- Witness for C12 (amended): the letter `A` drawn from cursor `(122, 0)` on a 128 by 160
screen. -/
theorem draw_char_cursor_bounds_witness :
    0 ≤ 160 ∧
      (draw_char ⟨128, 160, 1, 2⟩ 65 ⟨0, 0xFFFF, 122, 0, 1, font5x7_mem⟩).1.m_x ≤ 128 :=
  ⟨by decide,
    (draw_char_cursor_bounds ⟨128, 160, 1, 2⟩ 65 ⟨0, 0xFFFF, 122, 0, 1, font5x7_mem⟩
      (by decide)).1⟩

/-- C12 as stated fails: on a 128 by 160 screen with character spacing 1, `draw_char('A')`
at scale 1 from the in-bounds cursor `(122, 0)` advances x to `128 = SCREEN_WIDTH`, which the
test `m_x > SCREEN_WIDTH` does not wrap: the cursor is left outside `[0, SCREEN_WIDTH)`. -/
theorem draw_char_cursor_bounds_counterexample :
    122 < 128 ∧ 0 < 160 ∧ 1 ≤ 1 ∧
    (draw_char ⟨128, 160, 1, 2⟩ 65 ⟨0, 0xFFFF, 122, 0, 1, font5x7_mem⟩).1.m_x = 128
    ∧ ¬ ((draw_char ⟨128, 160, 1, 2⟩ 65 ⟨0, 0xFFFF, 122, 0, 1, font5x7_mem⟩).1.m_x < 128) := by
  decide

/-- C13 (amended): for every printable character `c` (code at least `0x20`), `draw_char(c)`
blits, with width 5 and height 7 at the current cursor, the five bytes found at offset
`c * 5` from the font pointer (only those five bytes matter); the font table of the source
holds 255 glyphs of 5 bytes each starting at character code 0, so with the font pointer at
the table `draw_char('A')` blits the glyph bytes `7C 12 11 12 7C` of the letter A. -/
theorem draw_char_glyph (cfg : Config) (c : Int) (s : Canvas) (hc : 32 ≤ c) :
    (draw_char cfg c s).2
        = (draw_bitmap s.m_scale s.m_x s.m_y (fun n => s.m_font ((c * 5).toNat + n)) 5 7).map
            (fun op => (s.m_text_color, op))
    ∧ (∀ data : Nat → Nat, (∀ n, n < 5 → data n = s.m_font ((c * 5).toNat + n)) →
        (draw_char cfg c s).2
          = (draw_bitmap s.m_scale s.m_x s.m_y data 5 7).map (fun op => (s.m_text_color, op)))
    ∧ font5x7.length = 255 * 5
    ∧ (s.m_font = font5x7_mem →
        (draw_char cfg 65 s).2
          = (draw_bitmap s.m_scale s.m_x s.m_y
              (fun n => [0x7C, 0x12, 0x11, 0x12, 0x7C].getD n 0) 5 7).map
              (fun op => (s.m_text_color, op))) := by
  have hops : ∀ c2 : Int, 32 ≤ c2 → (draw_char cfg c2 s).2
        = (draw_bitmap s.m_scale s.m_x s.m_y (fun n => s.m_font ((c2 * 5).toNat + n)) 5 7).map
            (fun op => (s.m_text_color, op)) := by
    intro c2 h2
    rw [draw_char_ops, if_pos h2]
    rfl
  have hdata : ∀ (c2 : Int) (data : Nat → Nat), 32 ≤ c2 →
      (∀ n, n < 5 → data n = s.m_font ((c2 * 5).toNat + n)) →
      (draw_char cfg c2 s).2
        = (draw_bitmap s.m_scale s.m_x s.m_y data 5 7).map (fun op => (s.m_text_color, op)) := by
    intro c2 data h2 hd
    rw [hops c2 h2]
    congr 1
    apply draw_bitmap_congr
    intro n hn
    exact (hd n (by omega)).symm
  refine ⟨hops c hc, fun data hd => hdata c data hc hd, by decide, ?_⟩
  intro hf
  apply hdata 65 _ (by decide)
  intro n hn
  rw [hf]
  have h5 : n = 0 ∨ n = 1 ∨ n = 2 ∨ n = 3 ∨ n = 4 := by omega
  rcases h5 with rfl | rfl | rfl | rfl | rfl <;> decide

/-- Witness for C13 (amended): the operations of `draw_char('A')` at the origin, scale 1. -/
theorem draw_char_glyph_witness :
    (32 : Int) ≤ 65 ∧
      (draw_char ⟨128, 160, 1, 2⟩ 65 ⟨0, 0xFFFF, 0, 0, 1, font5x7_mem⟩).2
        = (draw_bitmap 1 0 0 (fun n => font5x7_mem ((65 * 5 : Int).toNat + n)) 5 7).map
            (fun op => (0xFFFF, op)) :=
  ⟨by decide,
    (draw_char_glyph ⟨128, 160, 1, 2⟩ 65 ⟨0, 0xFFFF, 0, 0, 1, font5x7_mem⟩ (by decide)).1⟩

/-- C13 as stated fails: for `c = 'A'` the bytes `draw_char` blits are those at offset
`65 * 5`, `7C 12 11 12 7C`; the bytes at offset `(65 - 0x20) * 5` of the table are
`00 00 5F 00 00` (the glyph of `!`) and give other operations; and the table holds
`255 * 5` bytes, not `95 * 5`. -/
theorem draw_char_glyph_counterexample :
    (32 : Int) ≤ 65
    ∧ (List.range 5).map (fun n => font5x7_mem ((65 * 5 : Int).toNat + n))
        = [0x7C, 0x12, 0x11, 0x12, 0x7C]
    ∧ (List.range 5).map (fun n => font5x7_mem (((65 - 0x20) * 5 : Int).toNat + n))
        = [0x00, 0x00, 0x5F, 0x00, 0x00]
    ∧ (draw_char ⟨128, 160, 1, 2⟩ 65 ⟨0, 0xFFFF, 0, 0, 1, font5x7_mem⟩).2
        ≠ (draw_bitmap 1 0 0 (fun n => font5x7_mem (((65 - 0x20) * 5 : Int).toNat + n)) 5 7).map
            (fun op => (0xFFFF, op))
    ∧ font5x7.length ≠ 95 * 5 := by
  refine ⟨by decide, by decide, by decide, ?_, by decide⟩
  rw [draw_char_ops, draw_bitmap_eq, draw_bitmap_eq]
  decide

/-- C14: for every canvas state whose font pointer is at the font table, on a screen whose
width fits the 8-bit coordinate type, `draw_char(' ')` issues no operation (the space glyph
has no set bit), and whenever `x + scale * (5 + CHAR_SPACING)` does not exceed the screen
width the new cursor x is that sum and cursor y is unchanged. -/
theorem draw_char_space (cfg : Config) (s : Canvas) (hfont : s.m_font = font5x7_mem)
    (hW : cfg.SCREEN_WIDTH ≤ 255) :
    (draw_char cfg 32 s).2 = []
    ∧ (s.m_x + s.m_scale * (5 + cfg.CHAR_SPACING) ≤ cfg.SCREEN_WIDTH →
        (draw_char cfg 32 s).1.m_x = s.m_x + s.m_scale * (5 + cfg.CHAR_SPACING)
        ∧ (draw_char cfg 32 s).1.m_y = s.m_y) := by
  constructor
  · rw [draw_char_ops, if_pos (by decide), hfont]
    rw [draw_bitmap_blank]
    · rfl
    · intro n hn
      have h5 : n = 0 ∨ n = 1 ∨ n = 2 ∨ n = 3 ∨ n = 4 := by
        unfold FONT_WIDTH FONT_HEIGHT at hn; omega
      rcases h5 with rfl | rfl | rfl | rfl | rfl <;> decide
  · intro hle
    obtain ⟨hx, hy⟩ := draw_char_cursor cfg 32 s
    have hm : (s.m_x + s.m_scale * (5 + cfg.CHAR_SPACING)) % 256
        = s.m_x + s.m_scale * (5 + cfg.CHAR_SPACING) := Nat.mod_eq_of_lt (by omega)
    rw [hm] at hx hy
    have hn : ¬ (s.m_x + s.m_scale * (5 + cfg.CHAR_SPACING) > cfg.SCREEN_WIDTH ∨ (32 : Int) = 10) := by
      rw [not_or]; exact ⟨by omega, by decide⟩
    rw [if_neg hn] at hx hy
    exact ⟨hx, hy⟩

/-- Witness for C14: a space drawn at cursor `(10, 20)`, scale 2. -/
theorem draw_char_space_witness :
    font5x7_mem = font5x7_mem ∧ 128 ≤ 255 ∧
      (draw_char ⟨128, 160, 1, 2⟩ 32 ⟨0, 0xFFFF, 10, 20, 2, font5x7_mem⟩).2 = [] :=
  ⟨rfl, by decide,
    (draw_char_space ⟨128, 160, 1, 2⟩ ⟨0, 0xFFFF, 10, 20, 2, font5x7_mem⟩ rfl (by decide)).1⟩

/-- C15: for every canvas state, whatever the prior cursor x, `draw_char('\n')` issues no
operation, sets cursor x to 0, and advances cursor y by `scale * (7 + LINE_SPACING)`: the new
y is the old y plus that amount (the sum in the 8-bit cursor type) unless the sum exceeds
the screen height, in which case the new y is 0; when `y + scale * (7 + LINE_SPACING)` does
not exceed 255 the sum is the plain one. -/
theorem draw_char_newline (cfg : Config) (s : Canvas) :
    (draw_char cfg 10 s).2 = []
    ∧ (draw_char cfg 10 s).1.m_x = 0
    ∧ (draw_char cfg 10 s).1.m_y
        = (if (s.m_y + s.m_scale * (7 + cfg.LINE_SPACING)) % 256 > cfg.SCREEN_HEIGHT then 0
            else (s.m_y + s.m_scale * (7 + cfg.LINE_SPACING)) % 256)
    ∧ (s.m_y + s.m_scale * (7 + cfg.LINE_SPACING) ≤ 255 →
        (draw_char cfg 10 s).1.m_y
          = (if s.m_y + s.m_scale * (7 + cfg.LINE_SPACING) > cfg.SCREEN_HEIGHT then 0
              else s.m_y + s.m_scale * (7 + cfg.LINE_SPACING))) :=
  newline_step cfg s

/-- Witness for C15: a newline at cursor `(50, 20)`, scale 1, line spacing 2. -/
theorem draw_char_newline_witness :
    20 + 1 * (7 + 2) ≤ 255 ∧
      (draw_char ⟨128, 160, 1, 2⟩ 10 ⟨0, 0xFFFF, 50, 20, 1, font5x7_mem⟩).1.m_y
        = (if 20 + 1 * (7 + 2) > 160 then 0 else 20 + 1 * (7 + 2)) :=
  ⟨by decide,
    (draw_char_newline ⟨128, 160, 1, 2⟩ ⟨0, 0xFFFF, 50, 20, 1, font5x7_mem⟩).2.2.2 (by decide)⟩

/-- C16 (amended): when the row advance cannot overflow the 8-bit cursor
(`SCREEN_HEIGHT + scale * (7 + LINE_SPACING) ≤ 255`), repeated newlines wrap the cursor row
back to exactly 0.  For every starting row `y ≤ SCREEN_HEIGHT` and scale at least 1 there is
an `n ≥ 1` such that the first `n - 1` calls advance y by `scale * (7 + LINE_SPACING)` each
without exceeding the screen height, the `n`-th advance exceeds it, and after the `n`-th call
y is 0; a call whose advanced y exceeds the screen height leaves y = 0; and no
`draw_char('\n')` call issues any device operation, so nothing is cleared or erased. -/
theorem newlines_wrap (cfg : Config) (s : Canvas) (hy : s.m_y ≤ cfg.SCREEN_HEIGHT)
    (hs : 1 ≤ s.m_scale)
    (hov : cfg.SCREEN_HEIGHT + s.m_scale * (7 + cfg.LINE_SPACING) ≤ 255) :
    (∃ n, 1 ≤ n
        ∧ (∀ k, k < n → (draw_newlines cfg k s).m_y = s.m_y + k * (s.m_scale * (7 + cfg.LINE_SPACING))
            ∧ s.m_y + k * (s.m_scale * (7 + cfg.LINE_SPACING)) ≤ cfg.SCREEN_HEIGHT)
        ∧ s.m_y + n * (s.m_scale * (7 + cfg.LINE_SPACING)) > cfg.SCREEN_HEIGHT
        ∧ (draw_newlines cfg n s).m_y = 0)
    ∧ (s.m_y + s.m_scale * (7 + cfg.LINE_SPACING) > cfg.SCREEN_HEIGHT →
        (draw_char cfg 10 s).1.m_y = 0)
    ∧ (∀ t : Canvas, (draw_char cfg 10 t).2 = []) := by
  refine ⟨newlines_reach_zero cfg _ s (le_refl _) hy hs hov, ?_, ?_⟩
  · intro hex
    rw [(newline_step cfg s).2.2.2 (by omega), if_pos hex]
  · intro t
    exact draw_char_no_ops cfg 10 t (by decide)

/-- Witness for C16 (amended): a newline at row 155 of a screen of height 160 wraps to row 0. -/
theorem newlines_wrap_witness :
    155 ≤ 160 ∧ 1 ≤ 1 ∧ 160 + 1 * (7 + 2) ≤ 255 ∧
      (155 + 1 * (7 + 2) > 160 →
        (draw_char ⟨128, 160, 1, 2⟩ 10 ⟨0, 0xFFFF, 0, 155, 1, font5x7_mem⟩).1.m_y = 0) :=
  ⟨by decide, by decide, by decide,
    (newlines_wrap ⟨128, 160, 1, 2⟩ ⟨0, 0xFFFF, 0, 155, 1, font5x7_mem⟩ (by decide) (by decide)
      (by decide)).2.1⟩

/-- C16 as stated fails: on a 128 by 160 screen with line spacing 2 and scale 128, the row
advance `128 * 9` is `128` modulo 256, so from the in-bounds row 1 the 8-bit cursor row
alternates between 129 and 1 and never exceeds the screen height: no number of newlines
brings it to 0. -/
theorem newlines_wrap_counterexample :
    1 < 160 ∧ 1 ≤ 128
    ∧ ¬ ∃ n, 1 ≤ n ∧ (draw_newlines ⟨128, 160, 1, 2⟩ n ⟨0, 0xFFFF, 0, 1, 128, font5x7_mem⟩).m_y = 0 := by
  refine ⟨by decide, by decide, ?_⟩
  rintro ⟨n, _, h⟩
  rcases newlines_stuck n ⟨0, 0xFFFF, 0, 1, 128, font5x7_mem⟩ rfl (Or.inl rfl) with h1 | h1 <;>
    rw [h1] at h <;> exact absurd h (by decide)

/-- C17: for every character code `c` below space, `draw_char(c)` issues no device operation
at all, yet the cursor is updated by the same rule as for a printable character: x advances
by `scale * (5 + CHAR_SPACING)` (in the 8-bit cursor type), the line wrap (x = 0, y advanced)
is applied when the advanced x exceeds the screen width or `c` is the newline, and the
screen wrap (y = 0) when the advanced y exceeds the screen height.  For `c` other than the
newline the cursor after the call is the cursor after drawing any printable character from
the same state. -/
theorem draw_char_below_space (cfg : Config) (c : Int) (s : Canvas) (hc : c < 32) :
    (draw_char cfg c s).2 = []
    ∧ (draw_char cfg c s).1.m_x
        = (if (s.m_x + s.m_scale * (5 + cfg.CHAR_SPACING)) % 256 > cfg.SCREEN_WIDTH ∨ c = 10
            then 0 else (s.m_x + s.m_scale * (5 + cfg.CHAR_SPACING)) % 256)
    ∧ (draw_char cfg c s).1.m_y
        = (if (s.m_x + s.m_scale * (5 + cfg.CHAR_SPACING)) % 256 > cfg.SCREEN_WIDTH ∨ c = 10
            then
              (if (s.m_y + s.m_scale * (7 + cfg.LINE_SPACING)) % 256 > cfg.SCREEN_HEIGHT
                then 0 else (s.m_y + s.m_scale * (7 + cfg.LINE_SPACING)) % 256)
            else s.m_y)
    ∧ (c ≠ 10 → ∀ c2 : Int, 32 ≤ c2 →
        (draw_char cfg c s).1.m_x = (draw_char cfg c2 s).1.m_x
        ∧ (draw_char cfg c s).1.m_y = (draw_char cfg c2 s).1.m_y) := by
  obtain ⟨hx, hy⟩ := draw_char_cursor cfg c s
  refine ⟨draw_char_no_ops cfg c s hc, hx, hy, ?_⟩
  intro hne c2 h2
  obtain ⟨hx2, hy2⟩ := draw_char_cursor cfg c2 s
  have hne2 : c2 ≠ 10 := by omega
  rw [hx, hy, hx2, hy2]
  simp only [hne, hne2, or_false]
  exact ⟨trivial, trivial⟩

/-- Witness for C17: the bell character (code 7) issues no operation. -/
theorem draw_char_below_space_witness :
    (7 : Int) < 32 ∧ (draw_char ⟨128, 160, 1, 2⟩ 7 ⟨0, 0xFFFF, 0, 0, 1, font5x7_mem⟩).2 = [] :=
  ⟨by decide,
    (draw_char_below_space ⟨128, 160, 1, 2⟩ 7 ⟨0, 0xFFFF, 0, 0, 1, font5x7_mem⟩ (by decide)).1⟩

/-! ## Claims on `Rotary::Dail` -/

/-- C18: `Rotary::Dail` keeps its value inside its range.  If `min ≤ initial ≤ max` at
construction (all of them `int` values), then after any finite sequence of `on_event` calls,
with any type and value arguments, `get_value()` returns `v` with `min ≤ v ≤ max`. -/
theorem Dail_value_in_range (min max initial : Int) (hmin : -32768 ≤ min) (hmax : max ≤ 32767)
    (h1 : min ≤ initial) (h2 : initial ≤ max) (events : List (Nat × Nat)) :
    min ≤ ((Dail.init min max initial).run events).get_value
    ∧ ((Dail.init min max initial).run events).get_value ≤ max := by
  have h := Dail.run_invariant events (Dail.init min max initial) hmin hmax h1 h2
  exact ⟨h.2.2.1, h.2.2.2⟩

/-- Witness for C18: a dail on `0..3` starting at 1, turned clockwise three times and back
once. -/
theorem Dail_value_in_range_witness :
    (-32768 : Int) ≤ 0 ∧ (3 : Int) ≤ 32767 ∧ (0 : Int) ≤ 1 ∧ (1 : Int) ≤ 3 ∧
      0 ≤ ((Dail.init 0 3 1).run [(0, CW), (0, CW), (0, CW), (0, 0x20)]).get_value
      ∧ ((Dail.init 0 3 1).run [(0, CW), (0, CW), (0, CW), (0, 0x20)]).get_value ≤ 3 :=
  ⟨by decide, by decide, by decide, by decide,
    Dail_value_in_range 0 3 1 (by decide) (by decide) (by decide) (by decide)
      [(0, CW), (0, CW), (0, CW), (0, 0x20)]⟩

/-! ## Further claims on `draw_line` -/

/-- C19: for all endpoints in 0..255, `draw_line(x0, y0, x1, y1)` (a total function: the loop
always ends) emits exactly `max(|x1-x0|, |y1-y0|) + 1` pixels; `(x0, y0)` and `(x1, y1)` are
among them, one the first and the other the last pixel of the walk; and of any two
consecutively emitted pixels the second is exactly 1 further along the major axis and at
most 1 away along the minor axis. -/
theorem draw_line_connected (x0 y0 x1 y1 : Nat)
    (hx0 : x0 ≤ 255) (hy0 : y0 ≤ 255) (hx1 : x1 ≤ 255) (hy1 : y1 ≤ 255) :
    (draw_line x0 y0 x1 y1).length
        = max (Int.natAbs ((x1 : Int) - x0)) (Int.natAbs ((y1 : Int) - y0)) + 1
    ∧ Op.draw_pixel x0 y0 ∈ draw_line x0 y0 x1 y1
    ∧ Op.draw_pixel x1 y1 ∈ draw_line x0 y0 x1 y1
    ∧ (((draw_line x0 y0 x1 y1).head? = some (Op.draw_pixel x0 y0)
          ∧ (draw_line x0 y0 x1 y1).getLast? = some (Op.draw_pixel x1 y1))
        ∨ ((draw_line x0 y0 x1 y1).head? = some (Op.draw_pixel x1 y1)
          ∧ (draw_line x0 y0 x1 y1).getLast? = some (Op.draw_pixel x0 y0)))
    ∧ List.Chain' (lineStep (decide (|(y1 : Int) - y0| > |(x1 : Int) - x0|)))
        (draw_line x0 y0 x1 y1) := by
  rw [draw_line_unfold x0 y0 x1 y1 hx0 hy0 hx1 hy1]
  have a1 := abs_sub_natCast_cases x1 x0
  have a2 := abs_sub_natCast_cases y1 y0
  have a3 := abs_sub_natCast_cases x0 x1
  have a4 := abs_sub_natCast_cases y0 y1
  by_cases hs : |(y1 : Int) - y0| > |(x1 : Int) - x0|
  · rw [if_pos hs, decide_eq_true hs]
    by_cases hc : (y0 : Int) > y1
    · rw [if_pos hc]
      obtain ⟨l1, l2, l3, l4⟩ := normalized_walk true y1 x1 y0 x0 hy1 hx1 hy0 hx0 (by omega)
        (by omega)
      rw [linePixel_true_natCast _ _ hy1 hx1] at l2
      rw [linePixel_true_natCast _ _ hy0 hx0] at l3
      refine ⟨?_, List.mem_of_getLast?_eq_some l3, mem_of_head?_eq_some l2, Or.inr ⟨l2, l3⟩, l4⟩
      rw [l1]; omega
    · rw [if_neg hc]
      obtain ⟨l1, l2, l3, l4⟩ := normalized_walk true y0 x0 y1 x1 hy0 hx0 hy1 hx1 (by omega)
        (by omega)
      rw [linePixel_true_natCast _ _ hy0 hx0] at l2
      rw [linePixel_true_natCast _ _ hy1 hx1] at l3
      refine ⟨?_, mem_of_head?_eq_some l2, List.mem_of_getLast?_eq_some l3, Or.inl ⟨l2, l3⟩, l4⟩
      rw [l1]; omega
  · rw [if_neg hs, decide_eq_false hs]
    by_cases hc : (x0 : Int) > x1
    · rw [if_pos hc]
      obtain ⟨l1, l2, l3, l4⟩ := normalized_walk false x1 y1 x0 y0 hx1 hy1 hx0 hy0 (by omega)
        (by omega)
      rw [linePixel_false_natCast _ _ hx1 hy1] at l2
      rw [linePixel_false_natCast _ _ hx0 hy0] at l3
      refine ⟨?_, List.mem_of_getLast?_eq_some l3, mem_of_head?_eq_some l2, Or.inr ⟨l2, l3⟩, l4⟩
      rw [l1]; omega
    · rw [if_neg hc]
      obtain ⟨l1, l2, l3, l4⟩ := normalized_walk false x0 y0 x1 y1 hx0 hy0 hx1 hy1 (by omega)
        (by omega)
      rw [linePixel_false_natCast _ _ hx0 hy0] at l2
      rw [linePixel_false_natCast _ _ hx1 hy1] at l3
      refine ⟨?_, mem_of_head?_eq_some l2, List.mem_of_getLast?_eq_some l3, Or.inl ⟨l2, l3⟩, l4⟩
      rw [l1]; omega

/-- Witness for C19: the line from `(0, 0)` to `(7, 3)` has 8 pixels. -/
theorem draw_line_connected_witness :
    0 ≤ 255 ∧ 7 ≤ 255 ∧ 3 ≤ 255 ∧ (draw_line 0 0 7 3).length = 8 :=
  ⟨by decide, by decide, by decide,
    (draw_line_connected 0 0 7 3 (by decide) (by decide) (by decide) (by decide)).1⟩

/-- C20 (amended): in `draw_line`, let `steep` and `(a0, b0)`, `(a1, b1)` be the values of the
flag and of the endpoint variables after normalisation, `dx = a1 - a0` and `dy = |b1 - b0|`.
Then `0 ≤ dy ≤ dx ≤ 255`; `draw_line` is its loop entered at `(a0, b0)` with the error
initialised to `dx / 2` (integer division); each iteration on values in range plots the
pixel, subtracts `dy` from the error and, when the error is then negative, steps `y` by
`ystep` and adds `dx` back; and `ystep` is `+1` when `b0 < b1` and `-1` otherwise, so when
`b0 ≠ b1` its sign is the sign of `b1 - b0`, the difference of the endpoints after
normalisation (not of the endpoints as passed by the caller). -/
theorem draw_line_error_recurrence (x0 y0 x1 y1 : Nat)
    (hx0 : x0 ≤ 255) (hy0 : y0 ≤ 255) (hx1 : x1 ≤ 255) (hy1 : y1 ≤ 255)
    (steep : Bool) (a0 b0 a1 b1 : Int)
    (hn : draw_line_normalize x0 y0 x1 y1 = (steep, a0, b0, a1, b1)) :
    (0 ≤ a1 - a0 ∧ a1 - a0 ≤ 255 ∧ |b1 - b0| ≤ a1 - a0)
    ∧ draw_line x0 y0 x1 y1
        = draw_line_loop steep a1 (a1 - a0) |b1 - b0| (draw_line_ystep x0 y0 x1 y1) a0 b0
            ((a1 - a0) / 2)
    ∧ (∀ x y err : Int, x ≤ a1 → 0 ≤ y → y ≤ 255 → -255 ≤ err → err ≤ 255 →
        draw_line_loop steep a1 (a1 - a0) |b1 - b0| (draw_line_ystep x0 y0 x1 y1) x y err
          = linePixel steep x y ::
              (if err - |b1 - b0| < 0 then
                draw_line_loop steep a1 (a1 - a0) |b1 - b0| (draw_line_ystep x0 y0 x1 y1)
                  (x + 1) (y + draw_line_ystep x0 y0 x1 y1) (err - |b1 - b0| + (a1 - a0))
              else
                draw_line_loop steep a1 (a1 - a0) |b1 - b0| (draw_line_ystep x0 y0 x1 y1)
                  (x + 1) y (err - |b1 - b0|)))
    ∧ draw_line_ystep x0 y0 x1 y1 = (if b0 < b1 then 1 else -1)
    ∧ (b0 ≠ b1 → draw_line_ystep x0 y0 x1 y1 = Int.sign (b1 - b0)) := by
  have hloop := draw_line_eq_loop x0 y0 x1 y1 hx0 hy0 hx1 hy1
  have hys : draw_line_ystep x0 y0 x1 y1 = (if b0 < b1 then 1 else -1) := by
    unfold draw_line_ystep
    rw [hn]
  rw [hn] at hloop
  simp only [] at hloop
  have a1c := abs_sub_natCast_cases x1 x0
  have a2c := abs_sub_natCast_cases y1 y0
  have a3c := abs_sub_natCast_cases x0 x1
  have a4c := abs_sub_natCast_cases y0 y1
  have hb : 0 ≤ a1 - a0 ∧ a1 - a0 ≤ 255 ∧ |b1 - b0| ≤ a1 - a0 := by
    rw [draw_line_normalize_eq x0 y0 x1 y1 hx0 hy0 hx1 hy1] at hn
    by_cases hs : |(y1 : Int) - y0| > |(x1 : Int) - x0|
    · by_cases hc : (y0 : Int) > y1
      · rw [if_pos hs, if_pos hc] at hn
        simp only [Prod.mk.injEq] at hn
        obtain ⟨_, rfl, rfl, rfl, rfl⟩ := hn
        omega
      · rw [if_pos hs, if_neg hc] at hn
        simp only [Prod.mk.injEq] at hn
        obtain ⟨_, rfl, rfl, rfl, rfl⟩ := hn
        omega
    · by_cases hc : (x0 : Int) > x1
      · rw [if_neg hs, if_pos hc] at hn
        simp only [Prod.mk.injEq] at hn
        obtain ⟨_, rfl, rfl, rfl, rfl⟩ := hn
        omega
      · rw [if_neg hs, if_neg hc] at hn
        simp only [Prod.mk.injEq] at hn
        obtain ⟨_, rfl, rfl, rfl, rfl⟩ := hn
        omega
  have hst : draw_line_ystep x0 y0 x1 y1 = 1 ∨ draw_line_ystep x0 y0 x1 y1 = -1 := by
    rw [hys]
    split
    · exact Or.inl rfl
    · exact Or.inr rfl
  refine ⟨hb, hloop, ?_, hys, ?_⟩
  · intro x y err hx hy0' hy1' he0 he1
    exact draw_line_loop_step steep a1 (a1 - a0) |b1 - b0| _ x y err hx hst hy0' hy1'
      hb.1 hb.2.1 (abs_nonneg _) (by omega) he0 he1
  · intro hne
    rw [hys]
    by_cases hlt : b0 < b1
    · rw [if_pos hlt, Int.sign_eq_one_of_pos (by omega)]
    · rw [if_neg hlt, Int.sign_eq_neg_one_of_neg (by omega)]

/-- Witness for C20 (amended): `draw_line(5, 0, 0, 3)` is normalised to the walk from `(0, 3)`
to `(5, 0)` and its `ystep` is the sign of `0 - 3`. -/
theorem draw_line_error_recurrence_witness :
    draw_line_normalize 5 0 0 3 = (false, 0, 3, 5, 0) ∧ draw_line_ystep 5 0 0 3 = Int.sign (0 - 3) :=
  ⟨by decide,
    (draw_line_error_recurrence 5 0 0 3 (by decide) (by decide) (by decide) (by decide)
      false 0 3 5 0 (by decide)).2.2.2.2 (by decide)⟩

/-- C20 as stated fails: for `draw_line(5, 0, 0, 3)` the endpoints are swapped, the walk runs
from `(0, 3)` to `(5, 0)` and `ystep` is `-1`, while `y1 - y0 = 3 - 0` of the endpoints as
passed by the caller is positive. -/
theorem draw_line_error_recurrence_counterexample :
    draw_line 5 0 0 3
        = [Op.draw_pixel 0 3, Op.draw_pixel 1 2, Op.draw_pixel 2 2, Op.draw_pixel 3 1,
           Op.draw_pixel 4 1, Op.draw_pixel 5 0]
    ∧ draw_line_ystep 5 0 0 3 = -1
    ∧ Int.sign ((3 : Int) - 0) = 1 := by
  refine ⟨?_, by decide, by decide⟩
  rw [draw_line_unfold 5 0 0 3 (by decide) (by decide) (by decide) (by decide)]
  simp [draw_line_loop, u8, i16]

/-! ## Claims on the circle recurrence -/

/-- C29: for a radius `r` in 0..255, every state of the loop of `draw_circle` and of the loop
of `fill_circle`, at loop entry and after every iteration, satisfies the closed forms
`dx = 2*rx + 1`, `dy = -2*ry` and `f = (rx + 1)*(rx + 1) + ry*ry - ry - r*r`, together with
`0 ≤ rx` and `0 ≤ ry ≤ r`. -/
theorem circle_closed_forms (r : Nat) (hr : r ≤ 255) :
    (∀ s ∈ draw_circle_trace r,
        s.dx = 2 * s.rx + 1 ∧ s.dy = -2 * s.ry
        ∧ s.f = (s.rx + 1) * (s.rx + 1) + s.ry * s.ry - s.ry - (r : Int) * r
        ∧ 0 ≤ s.rx ∧ 0 ≤ s.ry ∧ s.ry ≤ r)
    ∧ (∀ s ∈ fill_circle_trace r,
        s.dx = 2 * s.rx + 1 ∧ s.dy = -2 * s.ry
        ∧ s.f = (s.rx + 1) * (s.rx + 1) + s.ry * s.ry - s.ry - (r : Int) * r
        ∧ 0 ≤ s.rx ∧ 0 ≤ s.ry ∧ s.ry ≤ r) := by
  have h : ∀ s ∈ draw_circle_trace r,
        s.dx = 2 * s.rx + 1 ∧ s.dy = -2 * s.ry
        ∧ s.f = (s.rx + 1) * (s.rx + 1) + s.ry * s.ry - s.ry - (r : Int) * r
        ∧ 0 ≤ s.rx ∧ 0 ≤ s.ry ∧ s.ry ≤ r := by
    intro s hs
    rw [draw_circle_trace_eq r hr] at hs
    obtain ⟨h1, h2, h3, h4, h5, _, _, _, _, _, h10⟩ :=
      circleInv_of_mem_midpoint r (by omega) s hs
    exact ⟨h1, h2, h10, h3, h4, h5⟩
  refine ⟨h, ?_⟩
  rw [fill_circle_trace_eq_draw]
  exact h

/-- Witness for C29: the states of the circle of radius 3 are
`(f, dx, dy, rx, ry) = (-2, 1, -6, 0, 3), (1, 3, -6, 1, 3), (2, 5, -4, 2, 2)`. -/
theorem circle_closed_forms_witness :
    3 ≤ 255 ∧
      ∀ s ∈ draw_circle_trace 3,
        s.dx = 2 * s.rx + 1 ∧ s.dy = -2 * s.ry
        ∧ s.f = (s.rx + 1) * (s.rx + 1) + s.ry * s.ry - s.ry - ((3 : Nat) : Int) * (3 : Nat)
        ∧ 0 ≤ s.rx ∧ 0 ≤ s.ry ∧ s.ry ≤ (3 : Nat) :=
  ⟨by decide, (circle_closed_forms 3 (by decide)).1⟩

/-- C22: for a radius `r` in 0..255, the `int16_t` recurrence of `draw_circle` and of
`fill_circle` visits the same states as the recurrence over unbounded integers; the initial
values `1 - r` and `-2*r`, every state value and every intermediate sum of an iteration
(`ry - 1`, `dy + 2`, `f + dy`, `rx + 1`, `dx + 2`, `f + dx`) lie in the signed 16-bit range;
and the operations issued are those of the unbounded states, with the 8-bit conversion
applied only to the arguments `centre ± offset` (and the span length) handed to the
device. -/
theorem circle_no_overflow (r : Nat) (hr : r ≤ 255) :
    draw_circle_trace r = circle_init r :: midpoint_states (circle_init r)
    ∧ fill_circle_trace r = circle_init r :: midpoint_states (circle_init r)
    ∧ (inInt16 (1 - (r : Int)) ∧ inInt16 (-2 * (r : Int)))
    ∧ (∀ s ∈ circle_init r :: midpoint_states (circle_init r),
        inInt16 s.f ∧ inInt16 s.dx ∧ inInt16 s.dy ∧ inInt16 s.rx ∧ inInt16 s.ry
        ∧ (s.rx < s.ry →
            inInt16 (s.ry - 1) ∧ inInt16 (s.dy + 2) ∧ inInt16 (s.f + (s.dy + 2))
            ∧ inInt16 (s.rx + 1) ∧ inInt16 (s.dx + 2) ∧ inInt16 (s.f + (s.dx + 2))
            ∧ inInt16 (s.f + (s.dy + 2) + (s.dx + 2))))
    ∧ (∀ x y : Nat,
        draw_circle x y r
          = [ Op.draw_pixel x (u8 (y + r)), Op.draw_pixel x (u8 (y - r)),
              Op.draw_pixel (u8 (x + r)) y, Op.draw_pixel (u8 (x - r)) y ]
            ++ (midpoint_states (circle_init r)).flatMap (fun s => octant_pixels x y s.rx s.ry))
    ∧ (∀ x y : Nat,
        fill_circle x y r
          = Op.draw_vertical_line x (u8 (y - r)) (u8 (2 * r + 1))
            :: (midpoint_states (circle_init r)).flatMap
                (fun s => fill_spans x y s.rx s.ry)) := by
  have hd := draw_circle_trace_eq r hr
  have hf : fill_circle_trace r = circle_init r :: midpoint_states (circle_init r) := by
    rw [fill_circle_trace_eq_draw, hd]
  refine ⟨hd, hf, ⟨⟨by omega, by omega⟩, ⟨by omega, by omega⟩⟩, ?_, ?_, ?_⟩
  · intro s hs
    obtain ⟨h1, h2, h3, h4, h5, h6, h6b, h7, h8, h9, _⟩ :=
      circleInv_of_mem_midpoint r (by omega) s hs
    unfold inInt16
    refine ⟨by omega, by omega, by omega, by omega, by omega, ?_⟩
    intro _
    refine ⟨by omega, by omega, by omega, by omega, by omega, by omega, by omega⟩
  · intro x y
    rw [draw_circle_eq_trace, hd, List.tail_cons]
  · intro x y
    rw [fill_circle_eq_trace, hf, List.tail_cons]

/-- Witness for C22: at the largest radius, 255, the `int16_t` states of `draw_circle` are
those of the unbounded recurrence. -/
theorem circle_no_overflow_witness :
    255 ≤ 255 ∧ draw_circle_trace 255 = circle_init (255 : Nat) :: midpoint_states (circle_init (255 : Nat)) :=
  ⟨by decide, (circle_no_overflow 255 (by decide)).1⟩

/-- C25: for every radius `r`, the sequence of `(f, dx, dy, rx, ry)` states visited by the
`fill_circle` loop (at loop entry and after each iteration) equals the sequence visited by
the `draw_circle` loop, so both run the same number of iterations; the operations of
`fill_circle` are the pre-loop span followed by four spans per state, and those of
`draw_circle` are the four cardinal pixels followed by eight pixels per state. -/
theorem fill_circle_same_recurrence (r : Nat) :
    fill_circle_trace r = draw_circle_trace r
    ∧ (fill_circle_trace r).length = (draw_circle_trace r).length
    ∧ (∀ x y : Nat,
        fill_circle x y r
          = Op.draw_vertical_line x (u8 (y - r)) (u8 (2 * r + 1))
            :: (fill_circle_trace r).tail.flatMap (fun s => fill_spans x y s.rx s.ry))
    ∧ (∀ x y : Nat,
        draw_circle x y r
          = [ Op.draw_pixel x (u8 (y + r)), Op.draw_pixel x (u8 (y - r)),
              Op.draw_pixel (u8 (x + r)) y, Op.draw_pixel (u8 (x - r)) y ]
            ++ (draw_circle_trace r).tail.flatMap (fun s => octant_pixels x y s.rx s.ry)) :=
  ⟨fill_circle_trace_eq_draw r, by rw [fill_circle_trace_eq_draw],
    fun x y => fill_circle_eq_trace x y r, fun x y => draw_circle_eq_trace x y r⟩

/-- C27: for a radius `r` in 0..255, every offset `(a, b)` from the centre emitted by
`draw_circle` (before the 8-bit conversion) satisfies `|a*a + b*b - r*r| ≤ r`; the pixels
issued are the centre plus these offsets, converted to 8 bits. -/
theorem draw_circle_on_circle (r : Nat) (hr : r ≤ 255) :
    (∀ p ∈ draw_circle_offsets r, |p.1 * p.1 + p.2 * p.2 - (r : Int) * r| ≤ r)
    ∧ (∀ x y : Nat, x ≤ 255 → y ≤ 255 →
        draw_circle x y r
          = (draw_circle_offsets r).map
              (fun p => Op.draw_pixel (u8 (x + p.1)) (u8 (y + p.2)))) := by
  refine ⟨?_, fun x y hx hy => draw_circle_eq_offsets x y r hx hy⟩
  intro p hp
  rw [draw_circle_offsets, List.mem_append] at hp
  rcases hp with hc | hl
  · simp only [List.mem_cons, List.mem_singleton, List.not_mem_nil, or_false] at hc
    have h0 : p.1 * p.1 + p.2 * p.2 - (r : Int) * r = 0 := by
      rcases hc with h | h | h | h <;> rw [h] <;> dsimp only <;> ring
    rw [h0, abs_zero]
    omega
  · rw [List.mem_flatMap] at hl
    obtain ⟨s, hs, hps⟩ := hl
    rw [draw_circle_trace_eq r hr, List.tail_cons] at hs
    obtain ⟨_, _, _, _, _, _, _, h7, h8, _, h10⟩ :=
      circleInv_of_mem_midpoint r (by omega) s (List.mem_cons_of_mem _ hs)
    have he : p.1 * p.1 + p.2 * p.2 - (r : Int) * r = s.f - 2 * s.rx - 1 + s.ry := by
      rw [offsets8_sq _ _ p hps, h10]; ring
    rw [he, abs_le]
    exact ⟨h7, h8⟩

/-- Witness for C27: the offsets of the circle of radius 200. -/
theorem draw_circle_on_circle_witness :
    200 ≤ 255 ∧
      ∀ p ∈ draw_circle_offsets 200,
        |p.1 * p.1 + p.2 * p.2 - ((200 : Nat) : Int) * (200 : Nat)| ≤ (200 : Nat) :=
  ⟨by decide, (draw_circle_on_circle 200 (by decide)).1⟩

/-- C23 (amended): for a radius `r` in 0..255, `fill_circle(x, y, r)` issues one vertical span
before the loop, at column `x` from row `y - r` with length `2*r + 1`, and in each loop
iteration exactly four vertical spans: at columns `x + rx` and `x - rx` from row `y - ry`
with length `2*ry + 1`, and at columns `x + ry` and `x - ry` from row `y - rx` with length
`2*rx + 1`; every length is handed over in the 8-bit length type, that is modulo 256, and
is the stated integer value itself for every radius up to 127. -/
theorem fill_circle_spans (x y r : Nat) (hr : r ≤ 255) :
    fill_circle x y r
        = Op.draw_vertical_line x (u8 (y - r)) ((2 * r + 1) % 256)
          :: (fill_circle_trace r).tail.flatMap (fun s =>
              [ Op.draw_vertical_line (u8 (x + s.rx)) (u8 (y - s.ry)) ((2 * s.ry + 1).toNat % 256),
                Op.draw_vertical_line (u8 (x - s.rx)) (u8 (y - s.ry)) ((2 * s.ry + 1).toNat % 256),
                Op.draw_vertical_line (u8 (x + s.ry)) (u8 (y - s.rx)) ((2 * s.rx + 1).toNat % 256),
                Op.draw_vertical_line (u8 (x - s.ry)) (u8 (y - s.rx)) ((2 * s.rx + 1).toNat % 256) ])
    ∧ (r ≤ 127 →
        fill_circle x y r
          = Op.draw_vertical_line x (u8 (y - r)) (2 * r + 1)
            :: (fill_circle_trace r).tail.flatMap (fun s =>
                [ Op.draw_vertical_line (u8 (x + s.rx)) (u8 (y - s.ry)) (2 * s.ry + 1).toNat,
                  Op.draw_vertical_line (u8 (x - s.rx)) (u8 (y - s.ry)) (2 * s.ry + 1).toNat,
                  Op.draw_vertical_line (u8 (x + s.ry)) (u8 (y - s.rx)) (2 * s.rx + 1).toNat,
                  Op.draw_vertical_line (u8 (x - s.ry)) (u8 (y - s.rx)) (2 * s.rx + 1).toNat ]))
    ∧ (fill_circle x y r).length = 1 + 4 * (fill_circle_trace r).tail.length := by
  have hinv : ∀ s ∈ (fill_circle_trace r).tail, CircleInv r s := by
    intro s hs
    rw [fill_circle_trace_eq_draw] at hs
    exact circleInv_of_mem_trace r hr s (List.mem_of_mem_tail hs)
  have e0 : u8 (2 * (r : Int) + 1) = (2 * r + 1) % 256 := by
    unfold u8
    omega
  refine ⟨?_, ?_, ?_⟩
  · rw [fill_circle_eq_trace, e0]
    congr 1
    apply List.flatMap_congr
    intro s hs
    obtain ⟨_, _, h3, h4, _⟩ := hinv s hs
    exact fill_spans_lengths x y s h3 h4
  · intro h127
    have e1 : u8 (2 * (r : Int) + 1) = 2 * r + 1 := by
      unfold u8
      omega
    rw [fill_circle_eq_trace, e1]
    congr 1
    apply List.flatMap_congr
    intro s hs
    obtain ⟨_, _, h3, h4, h5, _, h7, _⟩ := hinv s hs
    exact fill_spans_lengths_small x y s h3 h4 (by omega) (by omega)
  · rw [fill_circle_eq_trace, List.length_cons]
    have : ∀ L : List CircleState,
        (L.flatMap (fun s => fill_spans x y s.rx s.ry)).length = 4 * L.length := by
      intro L
      induction L with
      | nil => rfl
      | cons a t ih =>
        rw [List.flatMap_cons, List.length_append, ih, List.length_cons]
        simp only [fill_spans, List.length_cons, List.length_nil]
        omega
    rw [this]
    omega

/-- Witness for C23 (amended): the filled circle of radius 2 about `(10, 10)` is the span
of length 5 at column 10 followed by the four spans of its one iteration. -/
theorem fill_circle_spans_witness :
    2 ≤ 255 ∧ (fill_circle 10 10 2).length = 1 + 4 * (fill_circle_trace 2).tail.length :=
  ⟨by decide, (fill_circle_spans 10 10 2 (by decide)).2.2⟩

/-- C23 as stated fails: for radius 128 the length `2*128 + 1 = 257` does not fit the 8-bit
length parameter, and the span issued before the loop has length 1, not 257. -/
theorem fill_circle_spans_counterexample :
    128 ≤ 255 ∧ (fill_circle 0 0 128).head? = some (Op.draw_vertical_line 0 128 1)
      ∧ (fill_circle 0 0 128).head? ≠ some (Op.draw_vertical_line 0 128 (2 * 128 + 1)) := by
  rw [fill_circle_128_head]
  decide

/-! ## Claims on `Rotary::Dail::on_event` -/

/-- C28: one `Rotary::Dail::on_event(type, value)` call on a dail whose value `v` is an `int`.
With `value == CW`: when `v != max` the value becomes `v + 1` and `on_change(v + 1)` is
called, when `v == max` nothing changes and nothing is called.  With any other `value`
(CCW, NONE or anything else): when `v != min` the value becomes `v - 1` and
`on_change(v - 1)` is called, when `v == min` nothing changes and nothing is called.  The
sums are those of the 16-bit `int` (`v + 1` itself unless `v` is `INT_MAX`, `v - 1` itself
unless `v` is `INT_MIN`); `min` and `max` are never modified. -/
theorem Dail_on_event_step (d : Dail) (type value : Nat)
    (hv1 : -32768 ≤ d.m_value) (hv2 : d.m_value ≤ 32767) :
    (value = CW → d.m_value ≠ d.m_max →
        d.on_event type value
          = ({ d with m_value := i16 (d.m_value + 1) }, some (i16 (d.m_value + 1)))
        ∧ (d.m_value ≠ 32767 →
            d.on_event type value
              = ({ d with m_value := d.m_value + 1 }, some (d.m_value + 1))))
    ∧ (value = CW → d.m_value = d.m_max → d.on_event type value = (d, none))
    ∧ (value ≠ CW → d.m_value ≠ d.m_min →
        d.on_event type value
          = ({ d with m_value := i16 (d.m_value - 1) }, some (i16 (d.m_value - 1)))
        ∧ (d.m_value ≠ -32768 →
            d.on_event type value
              = ({ d with m_value := d.m_value - 1 }, some (d.m_value - 1))))
    ∧ (value ≠ CW → d.m_value = d.m_min → d.on_event type value = (d, none))
    ∧ (d.on_event type value).1.m_min = d.m_min
    ∧ (d.on_event type value).1.m_max = d.m_max := by
  refine ⟨?_, ?_, ?_, ?_, ?_, ?_⟩
  · intro hc hm
    have e : d.on_event type value
        = ({ d with m_value := i16 (d.m_value + 1) }, some (i16 (d.m_value + 1))) := by
      unfold Dail.on_event
      rw [if_pos hc, if_neg hm]
    refine ⟨e, ?_⟩
    intro hne
    rw [e, i16_of_range (by omega) (by omega)]
  · intro hc hm
    unfold Dail.on_event
    rw [if_pos hc, if_pos hm]
  · intro hc hm
    have e : d.on_event type value
        = ({ d with m_value := i16 (d.m_value - 1) }, some (i16 (d.m_value - 1))) := by
      unfold Dail.on_event
      rw [if_neg hc, if_neg hm]
    refine ⟨e, ?_⟩
    intro hne
    rw [e, i16_of_range (by omega) (by omega)]
  · intro hc hm
    unfold Dail.on_event
    rw [if_neg hc, if_pos hm]
  · unfold Dail.on_event
    split <;> split <;> rfl
  · unfold Dail.on_event
    split <;> split <;> rfl

/-- Witness for C28: a dail on `0..3` at value 1 receives a clockwise event; the value
becomes 2 and `on_change(2)` is called. -/
theorem Dail_on_event_step_witness :
    (-32768 : Int) ≤ (Dail.init 0 3 1).m_value ∧ (Dail.init 0 3 1).m_value ≤ 32767
      ∧ CW = CW ∧ (Dail.init 0 3 1).m_value ≠ (Dail.init 0 3 1).m_max
      ∧ (Dail.init 0 3 1).m_value ≠ 32767
      ∧ (Dail.init 0 3 1).on_event 0 CW
          = ({ Dail.init 0 3 1 with m_value := (Dail.init 0 3 1).m_value + 1 },
              some ((Dail.init 0 3 1).m_value + 1)) :=
  ⟨by decide, by decide, rfl, by decide, by decide,
    ((Dail_on_event_step (Dail.init 0 3 1) 0 CW (by decide) (by decide)).1 rfl
      (by decide)).2 (by decide)⟩

/-! ## Claims on the shape of circles -/

/-- C21: for a radius `r` in 0..255 the loop of `draw_circle` runs at most `r` iterations;
every iteration increases `rx` by exactly 1 and decreases `ry` by 0 or 1; the last state has
`rx ≥ ry` with `rx - ry` equal to 0 or 1.  Hence the eight mirror images of the octant arc,
laid end to end, form a ring in which each point and the next differ by at most 1 in both
coordinates, the ring ends where it starts, and its points are exactly the offsets
`draw_circle` plots. -/
theorem draw_circle_ring (r : Nat) (hr : r ≤ 255) :
    (draw_circle_trace r).tail.length ≤ r
    ∧ (∀ x y : Nat, (draw_circle x y r).length = 4 + 8 * (draw_circle_trace r).tail.length)
    ∧ List.Chain' circleStep (draw_circle_trace r)
    ∧ (∃ e, (draw_circle_trace r).getLast? = some e
        ∧ e.ry ≤ e.rx ∧ (e.rx - e.ry = 0 ∨ e.rx - e.ry = 1))
    ∧ List.Chain' adjacent8 (circle_ring r)
    ∧ (circle_ring r).head? = some (0, (r : Int))
    ∧ (circle_ring r).getLast? = some (0, (r : Int))
    ∧ (∀ p, p ∈ circle_ring r ↔ p ∈ draw_circle_offsets r)
    ∧ (∀ x y : Nat, x ≤ 255 → y ≤ 255 →
        draw_circle x y r
          = (draw_circle_offsets r).map
              (fun p => Op.draw_pixel (u8 (x + p.1)) (u8 (y + p.2)))) := by
  obtain ⟨e, he1, he2, he3⟩ := draw_circle_trace_exit r hr
  have hchain := draw_circle_trace_chain r hr
  have harc : List.Chain' arcStep (octant_arc r) := by
    unfold octant_arc
    exact List.chain'_map_of_chain' (fun s : CircleState => (s.rx, s.ry)) (fun _ _ h => h)
      hchain
  have hlast : (octant_arc r).getLast? = some (e.rx, e.ry) := by
    unfold octant_arc
    rw [List.getLast?_map, he1]
    rfl
  have hclosed := ring_of_closed (octant_arc r) (0, (r : Int)) (octant_arc_head r) rfl
  refine ⟨draw_circle_trace_length r hr, ?_, hchain, ⟨e, he1, he2, he3⟩,
    ring_of_chain (octant_arc r) (0, (r : Int)) (e.rx, e.ry) (octant_arc_head r) hlast harc rfl
      he3,
    hclosed.1, hclosed.2, mem_circle_ring r, fun x y hx hy => draw_circle_eq_offsets x y r hx hy⟩
  intro x y
  rw [draw_circle_eq_trace, List.length_append]
  have : ∀ L : List CircleState,
      (L.flatMap (fun s => octant_pixels x y s.rx s.ry)).length = 8 * L.length := by
    intro L
    induction L with
    | nil => rfl
    | cons a t ih =>
      rw [List.flatMap_cons, List.length_append, ih, List.length_cons]
      simp only [octant_pixels, List.length_cons, List.length_nil]
      omega
  rw [this]
  rfl

/-- Witness for C21: the ring of the circle of radius 2 is a chain of 8-neighbours. -/
theorem draw_circle_ring_witness :
    2 ≤ 255 ∧ List.Chain' adjacent8 (circle_ring 2) :=
  ⟨by decide, (draw_circle_ring 2 (by decide)).2.2.2.2.1⟩

/-- C24: for a radius `r` and a centre `(x, y)` without coordinate wraparound (`r ≤ x`,
`r ≤ y`, `x + r ≤ 255`, `y + r ≤ 255`), every pixel `(x + a, y + b)` with
`a*a + b*b ≤ r*r` lies on a span drawn by `fill_circle(x, y, r)`, namely on a span of column
`x + a` running from row `y - k` to row `y + k` for some `k ≤ r`; in particular every
column from `x - r` to `x + r` carries a span centred on row `y`. -/
theorem fill_circle_covers (x y r : Nat) (hx : r ≤ x) (hy : r ≤ y) (hx2 : x + r ≤ 255)
    (hy2 : y + r ≤ 255) :
    (∀ a b : Int, a * a + b * b ≤ (r : Int) * r →
        ((x + a).toNat, (y + b).toNat) ∈ pixelsOf (fill_circle x y r)
        ∧ ∃ k : Nat, k ≤ r ∧ |b| ≤ k
            ∧ Op.draw_vertical_line (x + a).toNat (y - k) (2 * k + 1) ∈ fill_circle x y r)
    ∧ (∀ c : Nat, x - r ≤ c → c ≤ x + r →
        ∃ k : Nat, k ≤ r ∧ Op.draw_vertical_line c (y - k) (2 * k + 1) ∈ fill_circle x y r) := by
  have h1 : ∀ a b : Int, a * a + b * b ≤ (r : Int) * r →
      ((x + a).toNat, (y + b).toNat) ∈ pixelsOf (fill_circle x y r)
      ∧ ∃ k : Nat, k ≤ r ∧ |b| ≤ k
          ∧ Op.draw_vertical_line (x + a).toNat (y - k) (2 * k + 1) ∈ fill_circle x y r := by
    intro a b h
    obtain ⟨k, k1, k2, k3⟩ := fill_circle_span_of_disc x y r hx hy hx2 hy2 a b h
    exact ⟨pixel_of_span x y r k a b _ hy k1 k2 k3, k, k1, k2, k3⟩
  refine ⟨h1, ?_⟩
  intro c hc1 hc2
  have hsq : ((c : Int) - x) * ((c : Int) - x) + 0 * 0 ≤ (r : Int) * r := by
    have e1 : -(r : Int) ≤ (c : Int) - x := by omega
    have e2 : (c : Int) - x ≤ r := by omega
    nlinarith
  obtain ⟨_, k, k1, _, k3⟩ := h1 ((c : Int) - x) 0 hsq
  have e : ((x : Int) + ((c : Int) - x)).toNat = c := by omega
  rw [e] at k3
  exact ⟨k, k1, k3⟩

/-- Witness for C24: the pixel at offset `(2, -2)` of the filled circle of radius 3 about
`(10, 10)`, where `2*2 + 2*2 ≤ 3*3`. -/
theorem fill_circle_covers_witness :
    3 ≤ 10 ∧ 10 + 3 ≤ 255 ∧ (2 : Int) * 2 + (-2) * (-2) ≤ ((3 : Nat) : Int) * (3 : Nat)
      ∧ ((((10 : Nat) : Int) + 2).toNat, (((10 : Nat) : Int) + (-2)).toNat)
          ∈ pixelsOf (fill_circle 10 10 3) :=
  ⟨by decide, by decide, by decide,
    ((fill_circle_covers 10 10 3 (by decide) (by decide) (by decide) (by decide)).1 2 (-2)
      (by decide)).1⟩

/-- C26: for a radius `r` and a centre `(x, y)` without coordinate wraparound (`r ≤ x`,
`r ≤ y`, `x + r ≤ 255`, `y + r ≤ 255`), every pixel emitted by `draw_circle(x, y, r)`, the
four cardinal points plotted before the loop included, lies on a vertical span drawn by
`fill_circle(x, y, r)`. -/
theorem fill_circle_contains_outline (x y r : Nat) (hx : r ≤ x) (hy : r ≤ y)
    (hx2 : x + r ≤ 255) (hy2 : y + r ≤ 255) :
    (∀ op ∈ draw_circle x y r, ∃ px py, op = Op.draw_pixel px py
        ∧ ∃ c t n, Op.draw_vertical_line c t n ∈ fill_circle x y r
            ∧ (px, py) ∈ (Op.draw_vertical_line c t n).pixels)
    ∧ (∀ p ∈ pixelsOf (draw_circle x y r), p ∈ pixelsOf (fill_circle x y r)) := by
  have h1 : ∀ op ∈ draw_circle x y r, ∃ px py, op = Op.draw_pixel px py
      ∧ ∃ c t n, Op.draw_vertical_line c t n ∈ fill_circle x y r
          ∧ (px, py) ∈ (Op.draw_vertical_line c t n).pixels := by
    intro op hop
    rw [draw_circle_eq_offsets x y r (by omega) (by omega), List.mem_map] at hop
    obtain ⟨q, hq, rfl⟩ := hop
    obtain ⟨ha, k, k1, k2, k3⟩ := offset_in_span x y r hx hy hx2 hy2 q hq
    obtain ⟨a1, a2⟩ := abs_le.1 ha
    obtain ⟨b1, b2⟩ := abs_le.1 k2
    have e1 : u8 ((x : Int) + q.1) = ((x : Int) + q.1).toNat := by unfold u8; omega
    have e2 : u8 ((y : Int) + q.2) = ((y : Int) + q.2).toNat := by unfold u8; omega
    refine ⟨_, _, rfl, _, _, _, k3, ?_⟩
    rw [mem_vline_pixels, e1, e2]
    exact ⟨rfl, by omega, by omega⟩
  refine ⟨h1, ?_⟩
  intro p hp
  rw [pixelsOf, List.mem_flatMap] at hp
  obtain ⟨op, hop, hpo⟩ := hp
  obtain ⟨px, py, rfl, c, t, n, hv, hm⟩ := h1 op hop
  have e : p = (px, py) := by
    simpa only [Op.pixels, List.mem_singleton] using hpo
  rw [e, pixelsOf, List.mem_flatMap]
  exact ⟨_, hv, hm⟩

/-- Witness for C26: the outline pixels of the circle of radius 3 about `(10, 10)` lie in
its filled disc. -/
theorem fill_circle_contains_outline_witness :
    3 ≤ 10 ∧ 10 + 3 ≤ 255
      ∧ ∀ p ∈ pixelsOf (draw_circle 10 10 3), p ∈ pixelsOf (fill_circle 10 10 3) :=
  ⟨by decide, by decide,
    (fill_circle_contains_outline 10 10 3 (by decide) (by decide) (by decide) (by decide)).2⟩

end Cosa
